import Mathlib

/-! FinetuneExperiment controller: embedding and verification.

A shallow embedding of

* `pkg/util/label/label.go` (the label composer), and
* `internal/controller/finetune/finetuneexperiment_controller.go` (the reconciler),

followed by theorems about them.

Go maps are reference values, so the label functions are embedded over an explicit
heap of map cells.  The reconciler is embedded as a state-passing function over a
client that holds the store contents, a script of transient faults and the log of
the calls issued so far.
-/

set_option autoImplicit false

namespace FinetuneController

/-! ## Part 1: `pkg/util/label/label.go` -/

namespace label

def LabelInstanceKey : String := "finetune.datatunerx.io/instance"
def LabelDatatunerx : String := "datatunerx"
def LabelFinetuneJob : String := "finetunejob"
def LabelFinetune : String := "finetune"
def LabelFinetuneExperiment : String := "finetuneexperiment"
def LabelComponentKey : String := "finetune.datatunerx.io/component"
def LabelPartOfKey : String := "finetune.datatunerx.io/part-of"
def LabelFinetuneBindingKey : String := "finetune.datatunerx.io/finetunebinding"

/-- The contents of one Go `map[string]string`: an association list, read by first
match.  Writing an existing key replaces its value in place, writing a new key adds
an entry at the end. -/
abbrev Labels := List (String × String)

/-- Go `m[k]` with the comma-ok form: `some v` when the key is present. -/
def Labels.get (m : Labels) (k : String) : Option String :=
  match m with
  | [] => none
  | (k', v) :: rest => if k' = k then some v else Labels.get rest k

/-- Go `m[k] = v` on the contents of a map. -/
def Labels.set (m : Labels) (k v : String) : Labels :=
  match m with
  | [] => [(k, v)]
  | (k', v') :: rest => if k' = k then (k, v) :: rest else (k', v') :: Labels.set rest k v

/-- A Go map value: `none` is the nil map, `some a` refers to cell `a` of the heap. -/
abbrev MapRef := Option Nat

/-- The map cells allocated so far. -/
structure Heap where
  cells : List Labels
deriving DecidableEq

/-- A reference is valid when it is nil or points at an allocated cell. -/
def Heap.valid (h : Heap) (r : MapRef) : Prop :=
  match r with
  | none => True
  | some a => a < h.cells.length

instance (h : Heap) (r : MapRef) : Decidable (h.valid r) := by
  cases r <;> simp only [Heap.valid] <;> infer_instance

/-- The contents seen through a reference; reading a nil map sees no key. -/
def Heap.read (h : Heap) (r : MapRef) : Labels :=
  match r with
  | none => []
  | some a => h.cells.getD a []

/-- Go `make(map[string]string)` or a map literal: the address of a fresh cell and
the extended heap. -/
def Heap.alloc (h : Heap) (m : Labels) : Nat × Heap :=
  (h.cells.length, { cells := h.cells ++ [m] })

/-- Go `m[k] = v` through a non-nil reference. -/
def Heap.write (h : Heap) (a : Nat) (k v : String) : Heap :=
  { cells := h.cells.set a (Labels.set (h.cells.getD a []) k v) }

/-- The body of the `for k, v := range customLabel` loop of `MergeLabel`
(label.go:36-40), run over the entries of `customLabel` against the cell `a` that
`baseLabel` refers to. -/
def mergeLoop (a : Nat) : Labels → Heap → Heap
  | [], h => h
  | (k, v) :: rest, h =>
      if (Labels.get (h.read (some a)) k).isSome then mergeLoop a rest h
      else mergeLoop a rest (h.write a k v)

/-- The function `MergeLabel` (label.go:32-42).  Returns the resulting reference and the heap
after the call. -/
def MergeLabel (baseLabel customLabel : MapRef) (h : Heap) : MapRef × Heap :=
  match baseLabel with
  | none =>
      let (a, h1) := h.alloc []
      (some a, mergeLoop a (h1.read customLabel) h1)
  | some a => (some a, mergeLoop a (h.read customLabel) h)

/-- The function `GetBaseLabel` (label.go:26-30). -/
def GetBaseLabel (h : Heap) : MapRef × Heap :=
  let (a, h1) := h.alloc [(LabelPartOfKey, LabelDatatunerx)]
  (some a, h1)

/-- The function `GenerateInstanceLabel` (label.go:14-24). -/
def GenerateInstanceLabel (instanceName : String) (customLabels : MapRef) (h : Heap) :
    MapRef × Heap :=
  let (customLabels, h0) : MapRef × Heap :=
    match customLabels with
    | none => let (a, h0) := h.alloc []; (some a, h0)
    | some a => (some a, h)
  let (baseLabel, h1) := GetBaseLabel h0
  let (lit, h2) := h1.alloc [(LabelInstanceKey, instanceName), (LabelComponentKey, LabelFinetuneJob)]
  let (customLabel, h3) := MergeLabel (some lit) customLabels h2
  MergeLabel baseLabel customLabel h3

/-- The heap of the merge example: cell 0 is `{"a":"1"}`, cell 1 is
`{"a":"2","b":"2"}`. -/
def exampleHeap : Heap := { cells := [[("a", "1")], [("a", "2"), ("b", "2")]] }

/-- The composition `MergeLabel(GetBaseLabel(), MergeLabel({instance, component},
customLabels))`, its arguments evaluated from left to right. -/
def composedLabels (instanceName : String) (customLabels : MapRef) (h : Heap) : MapRef × Heap :=
  let (baseLabel, h1) := GetBaseLabel h
  let (lit, h2) := h1.alloc [(LabelInstanceKey, instanceName), (LabelComponentKey, LabelFinetuneJob)]
  let (customLabel, h3) := MergeLabel (some lit) customLabels h2
  MergeLabel baseLabel customLabel h3

/-- A heap whose cell 0 holds custom labels that reuse two reserved keys:
`{"finetune.datatunerx.io/instance":"other", "finetune.datatunerx.io/part-of":"x",
"team":"ml"}`. -/
def clobberHeap : Heap :=
  { cells := [[("finetune.datatunerx.io/instance", "other"),
               ("finetune.datatunerx.io/part-of", "x"), ("team", "ml")]] }

end label

/-! ## Part 2: `internal/controller/finetune/finetuneexperiment_controller.go`

The API types (`finetunev1beta1`), the store client (`client.Client`), the finalizer
helpers (`controllerutil`), `ctrl.SetControllerReference` and `handlererr.HandlerErr`
are declared outside the two embedded files; they are modelled here from their
specified behaviour, each stating so. -/

namespace finetune

/-- The type `types.NamespacedName`. -/
structure NamespacedName where
  Namespace : String
  Name : String
deriving DecidableEq

/-- Modelled from the spec: `finetunev1beta1.FinetuneJobSpec`, the job-specific
payload of a JobSpec.  The reconciler copies it and never inspects it. -/
structure FinetuneJobSpec where
  payload : Nat := 0
deriving DecidableEq

/-- Modelled from the spec: `finetunev1beta1.FinetuneJobStatus`, owned by the
job-level controller.  The reconciler copies it and never inspects it. -/
structure FinetuneJobStatus where
  snapshot : Nat := 0
deriving DecidableEq

/-- Modelled from the spec: one entry of `spec.finetuneJobs`, an optional explicit
name (a `*string` in Go) and the payload. -/
structure FinetuneJobSetting where
  Name : Option String := none
  Spec : FinetuneJobSpec := {}
deriving DecidableEq

/-- Modelled from the spec: one entry of `status.jobsStatus`. -/
structure FinetuneJobStatusSetting where
  Name : String
  FinetuneJobStatus : FinetuneJobStatus
deriving DecidableEq

/-- Modelled from the spec: the experiment lifecycle state, a string type whose zero
value is the empty string. -/
abbrev FinetuneExperimentState := String

/-- Modelled from the spec: the constant for the `Pending` state. -/
def FinetuneExperimentPending : FinetuneExperimentState := "PENDING"

/-- Modelled from the spec: the constant for the `Processing` state. -/
def FinetuneExperimentProcessing : FinetuneExperimentState := "PROCESSING"

/-- Modelled from the spec: the well-known finalizer token. -/
def FinetuneGroupFinalizer : String := "finetune.datatunerx.io/finalizer"

/-- Modelled from the spec: `FinetuneExperimentSpec`, the pending flag and the ordered
list of JobSpecs.  The list holds the entries by value, so that the loop variable
`finetuneJob` of `Reconcile` is a copy of the entry. -/
structure FinetuneExperimentSpec where
  Pending : Bool := false
  FinetuneJobs : List FinetuneJobSetting := []
deriving DecidableEq

/-- Modelled from the spec: `FinetuneExperimentStatus`. -/
structure FinetuneExperimentStatus where
  State : FinetuneExperimentState := ""
  JobsStatus : List FinetuneJobStatusSetting := []
deriving DecidableEq

/-- Modelled from the spec: the experiment object, with the object metadata the
reconciler reads or writes (identity, deletion marker, finalizers). -/
structure FinetuneExperiment where
  Name : String := ""
  Namespace : String := ""
  UID : String := ""
  DeletionTimestamp : Option Nat := none
  Finalizers : List String := []
  Spec : FinetuneExperimentSpec := {}
  Status : FinetuneExperimentStatus := {}
deriving DecidableEq

/-- Modelled from the spec: the back-reference recorded on a child. -/
structure OwnerReference where
  Kind : String
  Name : String
  UID : String
  Controller : Bool
  BlockOwnerDeletion : Bool
deriving DecidableEq

/-- Modelled from the spec: the job object. -/
structure FinetuneJob where
  Name : String := ""
  Namespace : String := ""
  OwnerReferences : List OwnerReference := []
  Spec : FinetuneJobSpec := {}
  Status : FinetuneJobStatus := {}
deriving DecidableEq

/-- The identity under which the store keeps an experiment. -/
def FinetuneExperiment.key (e : FinetuneExperiment) : NamespacedName :=
  { Namespace := e.Namespace, Name := e.Name }

/-- The identity under which the store keeps a job. -/
def FinetuneJob.key (j : FinetuneJob) : NamespacedName :=
  { Namespace := j.Namespace, Name := j.Name }

/-! ### Errors -/

/-- A transient failure of a store call (version conflict, timeout, server error). -/
inductive Fault where
  | Conflict
  | Timeout
  | ServerError
deriving DecidableEq

/-- A Go `error` value as the reconciler can observe it. -/
inductive Error where
  | NotFound
  | AlreadyExists
  | Store (f : Fault)
  | NoKindRegistered
deriving DecidableEq

/-- The predicate `errors.IsNotFound`. -/
def IsNotFound (err : Error) : Bool :=
  match err with
  | .NotFound => true
  | _ => false

/-- The predicate `errors.IsAlreadyExists`. -/
def IsAlreadyExists (err : Error) : Bool :=
  match err with
  | .AlreadyExists => true
  | _ => false

/-! ### `controllerutil` finalizer helpers -/

/-- Modelled from the spec: `controllerutil.ContainsFinalizer`. -/
def ContainsFinalizer (o : FinetuneExperiment) (finalizer : String) : Bool :=
  o.Finalizers.any (fun f => f = finalizer)

/-- Modelled from the spec: `controllerutil.AddFinalizer`, which appends the token
unless it is already there. -/
def AddFinalizer (o : FinetuneExperiment) (finalizer : String) : FinetuneExperiment :=
  if ContainsFinalizer o finalizer then o
  else { o with Finalizers := o.Finalizers ++ [finalizer] }

/-- Modelled from the spec: `controllerutil.RemoveFinalizer`, which drops every
occurrence of the token. -/
def RemoveFinalizer (o : FinetuneExperiment) (finalizer : String) : FinetuneExperiment :=
  { o with Finalizers := o.Finalizers.filter (fun f => f ≠ finalizer) }

/-! ### Owner references -/

/-- Modelled from the spec: `runtime.Scheme`, the registry of known kinds. -/
structure Scheme where
  kinds : List String
deriving DecidableEq

/-- The kind under which experiments are registered. -/
def FinetuneExperimentKind : String := "FinetuneExperiment"

/-- Modelled from the spec: `ctrl.SetControllerReference`.  It fails when the scheme
does not know the owner's kind and otherwise records a controller reference to the
owner on the object. -/
def SetControllerReference (owner : FinetuneExperiment) (object : FinetuneJob)
    (scheme : Scheme) : Except Error FinetuneJob :=
  if scheme.kinds.contains FinetuneExperimentKind then
    .ok { object with
          OwnerReferences := object.OwnerReferences ++
            [{ Kind := FinetuneExperimentKind, Name := owner.Name, UID := owner.UID,
               Controller := true, BlockOwnerDeletion := true }] }
  else .error .NoKindRegistered

/-! ### The store client -/

/-- A call issued to the store. -/
inductive Call where
  | GetExperiment (key : NamespacedName)
  | UpdateExperiment (obj : FinetuneExperiment)
  | UpdateStatus (obj : FinetuneExperiment)
  | CreateJob (obj : FinetuneJob)
  | GetJob (key : NamespacedName)
deriving DecidableEq

/-- Modelled from the spec: the state-store client.  It holds the stored experiments
and jobs, a script of faults (the n-th call issued from now on fails with the n-th
entry when that entry is `some`; calls beyond the script succeed) and the log of
calls issued, oldest first.  A fault is a failure other than NotFound and
AlreadyExists: those two are answered only from the contents of the store.  Objects
are kept under their namespace and name; names are not validated, and an experiment
whose last finalizer is removed stays stored (its physical removal is the store's
own business). -/
structure Client where
  experiments : List FinetuneExperiment := []
  jobs : List FinetuneJob := []
  faults : List (Option Fault) := []
  calls : List Call := []
deriving DecidableEq

/-- The first stored experiment with the given identity. -/
def findExperiment (key : NamespacedName) : List FinetuneExperiment → Option FinetuneExperiment
  | [] => none
  | x :: xs => if x.key = key then some x else findExperiment key xs

/-- Replace the stored experiment that has the identity of `new`. -/
def putExperiment (new : FinetuneExperiment) : List FinetuneExperiment → List FinetuneExperiment
  | [] => []
  | x :: xs => if x.key = new.key then new :: xs else x :: putExperiment new xs

/-- The first stored job with the given identity. -/
def findJob (key : NamespacedName) : List FinetuneJob → Option FinetuneJob
  | [] => none
  | x :: xs => if x.key = key then some x else findJob key xs

/-- The fault, if any, that the script holds for the next call. -/
def Client.fault (c : Client) : Option Fault :=
  match c.faults with
  | [] => none
  | f :: _ => f

/-- The client after a call: the call is logged and its script entry consumed. -/
def Client.next (c : Client) (call : Call) : Client :=
  { c with calls := c.calls ++ [call], faults := c.faults.tail }

/-- The fault, if any, that the script holds for the call issued after `n` further
calls. -/
def Client.faultAt (c : Client) (n : Nat) : Option Fault :=
  c.faults.getD n none

/-- Modelled from the spec: `Get(identity) -> object | NotFound | error` for an
experiment. -/
def Client.Get (c : Client) (key : NamespacedName) : Except Error FinetuneExperiment × Client :=
  match c.fault with
  | some f => (.error (.Store f), c.next (.GetExperiment key))
  | none =>
      match findExperiment key c.experiments with
      | none => (.error .NotFound, c.next (.GetExperiment key))
      | some e => (.ok e, c.next (.GetExperiment key))

/-- Modelled from the spec: `Update(object) -> error`.  The metadata and spec of the
stored experiment are replaced; the status is a sub-resource that this call leaves
as stored.  The object as stored is handed back, as the Go client refreshes the
caller's object from the response. -/
def Client.Update (c : Client) (obj : FinetuneExperiment) :
    Except Error FinetuneExperiment × Client :=
  match c.fault with
  | some f => (.error (.Store f), c.next (.UpdateExperiment obj))
  | none =>
      match findExperiment obj.key c.experiments with
      | none => (.error .NotFound, c.next (.UpdateExperiment obj))
      | some old =>
          let new := { obj with Status := old.Status }
          (.ok new, { c.next (.UpdateExperiment obj) with
                      experiments := putExperiment new c.experiments })

/-- Modelled from the spec: `UpdateStatus(object) -> error`.  Only the status of the
stored experiment is replaced. -/
def Client.StatusUpdate (c : Client) (obj : FinetuneExperiment) :
    Except Error FinetuneExperiment × Client :=
  match c.fault with
  | some f => (.error (.Store f), c.next (.UpdateStatus obj))
  | none =>
      match findExperiment obj.key c.experiments with
      | none => (.error .NotFound, c.next (.UpdateStatus obj))
      | some old =>
          let new := { old with Status := obj.Status }
          (.ok new, { c.next (.UpdateStatus obj) with
                      experiments := putExperiment new c.experiments })

/-- Modelled from the spec: `Create(object) -> error` for a job, which fails with
AlreadyExists if a same-identity object exists. -/
def Client.Create (c : Client) (obj : FinetuneJob) : Option Error × Client :=
  match c.fault with
  | some f => (some (.Store f), c.next (.CreateJob obj))
  | none =>
      match findJob obj.key c.jobs with
      | some _ => (some .AlreadyExists, c.next (.CreateJob obj))
      | none => (none, { c.next (.CreateJob obj) with jobs := c.jobs ++ [obj] })

/-- Modelled from the spec: `Get(identity) -> object | NotFound | error` for a job. -/
def Client.GetJob (c : Client) (key : NamespacedName) : Except Error FinetuneJob × Client :=
  match c.fault with
  | some f => (.error (.Store f), c.next (.GetJob key))
  | none =>
      match findJob key c.jobs with
      | none => (.error .NotFound, c.next (.GetJob key))
      | some j => (.ok j, c.next (.GetJob key))

/-! ### The reconciler -/

/-- The type `ctrl.Result`. -/
structure Result where
  Requeue : Bool := false
  RequeueAfter : Nat := 0
deriving DecidableEq

/-- The type `ctrl.Request`. -/
structure Request where
  NamespacedName : NamespacedName
deriving DecidableEq

/-- Modelled from the spec: `handlererr.HandlerErr`, the single error-handling seam.
It maps nil to "no requeue, success" and hands any other error back to the
scheduler, which requeues with backoff. -/
def HandlerErr (err : Option Error) : Result × Option Error :=
  ({}, err)

/-- The struct `FinetuneExperimentReconciler` without its client (threaded explicitly) and its
logger (not modelled). -/
structure FinetuneExperimentReconciler where
  Scheme : Scheme
deriving DecidableEq

/-- Lines 104-109 of `Reconcile`: create the job and tolerate AlreadyExists. -/
def createJob (c : Client) (finetuneJobInstance : FinetuneJob) : Option Error × Client :=
  match c.Create finetuneJobInstance with
  | (some err, c1) => if !IsAlreadyExists err then (some err, c1) else (none, c1)
  | (none, c1) => (none, c1)

/-- Lines 118-132 of `Reconcile`: append a status entry for the job read back unless
an entry with its name exists. -/
def recordJobStatus (finetuneExperiment : FinetuneExperiment) (existFinetuneJob : FinetuneJob) :
    FinetuneExperiment :=
  let alreadyExists :=
    finetuneExperiment.Status.JobsStatus.any (fun jobStatus => jobStatus.Name = existFinetuneJob.Name)
  if !alreadyExists then
    { finetuneExperiment with
      Status := { finetuneExperiment.Status with
        JobsStatus := finetuneExperiment.Status.JobsStatus ++
          [{ Name := existFinetuneJob.Name, FinetuneJobStatus := existFinetuneJob.Status }] } }
  else finetuneExperiment

/-- Lines 90-133 of `Reconcile`: one iteration of the loop over `spec.finetuneJobs`.
An `error` result is the argument of the `return handlererr.HandlerErr(err)` that
leaves the loop. -/
def reconcileJob (r : FinetuneExperimentReconciler) (finetuneExperiment : FinetuneExperiment)
    (finetuneJob : FinetuneJobSetting) (c : Client) : Except Error FinetuneExperiment × Client :=
  let name : String :=
    match finetuneJob.Name with
    | none => finetuneExperiment.Name ++ "-" ++ "finetunejob"
    | some n => n
  let finetuneJobInstance : FinetuneJob :=
    { Name := name, Namespace := finetuneExperiment.Namespace, Spec := finetuneJob.Spec }
  match SetControllerReference finetuneExperiment finetuneJobInstance r.Scheme with
  | .error err => (.error err, c)
  | .ok finetuneJobInstance =>
      match createJob c finetuneJobInstance with
      | (some err, c1) => (.error err, c1)
      | (none, c1) =>
          match c1.GetJob { Name := name, Namespace := finetuneExperiment.Namespace } with
          | (.error err, c2) => (.error err, c2)
          | (.ok existFinetuneJob, c2) =>
              (.ok (recordJobStatus finetuneExperiment existFinetuneJob), c2)

/-- Lines 89-134 of `Reconcile`: the loop over `spec.finetuneJobs`, in list order,
left at the first failing iteration. -/
def reconcileJobs (r : FinetuneExperimentReconciler) :
    List FinetuneJobSetting → FinetuneExperiment → Client →
      Except Error FinetuneExperiment × Client
  | [], finetuneExperiment, c => (.ok finetuneExperiment, c)
  | finetuneJob :: rest, finetuneExperiment, c =>
      match reconcileJob r finetuneExperiment finetuneJob c with
      | (.error err, c1) => (.error err, c1)
      | (.ok finetuneExperiment1, c1) => reconcileJobs r rest finetuneExperiment1 c1

/-- Lines 82-86 and 136-140 of `Reconcile`: persist the status of the experiment and
return through the error-handling seam. -/
def persistStatus (c : Client) (finetuneExperiment : FinetuneExperiment) :
    (Result × Option Error) × Client :=
  match c.StatusUpdate finetuneExperiment with
  | (.error err, c1) => (HandlerErr (some err), c1)
  | (.ok _, c1) => (HandlerErr none, c1)

/-- Lines 80-140 of `Reconcile`: the pending gate, the loop and the final status
write, for an experiment that is live and carries the finalizer. -/
def reconcileLive (r : FinetuneExperimentReconciler) (finetuneExperiment : FinetuneExperiment)
    (c : Client) : (Result × Option Error) × Client :=
  if finetuneExperiment.Spec.Pending then
    persistStatus c
      { finetuneExperiment with
        Status := { finetuneExperiment.Status with State := FinetuneExperimentPending } }
  else
    match reconcileJobs r finetuneExperiment.Spec.FinetuneJobs finetuneExperiment c with
    | (.error err, c1) => (HandlerErr (some err), c1)
    | (.ok finetuneExperiment, c1) =>
        persistStatus c1
          { finetuneExperiment with
            Status := { finetuneExperiment.Status with State := FinetuneExperimentProcessing } }

/-- Lines 61-69 of `Reconcile`: the deletion branch, for an experiment whose deletion
marker is set. -/
def reconcileDelete (finetuneExperiment : FinetuneExperiment) (c : Client) :
    (Result × Option Error) × Client :=
  if ContainsFinalizer finetuneExperiment FinetuneGroupFinalizer then
    let finetuneExperiment := RemoveFinalizer finetuneExperiment FinetuneGroupFinalizer
    match c.Update finetuneExperiment with
    | (.error err, c1) => (HandlerErr (some err), c1)
    | (.ok _, c1) => (HandlerErr none, c1)
  else (HandlerErr none, c)

/-- The method `FinetuneExperimentReconciler.Reconcile` (lines 48-141).  The result is the pair
Go returns, with the client after the call. -/
def Reconcile (r : FinetuneExperimentReconciler) (req : Request) (c : Client) :
    (Result × Option Error) × Client :=
  match c.Get req.NamespacedName with
  | (.error err, c1) =>
      if IsNotFound err then (HandlerErr none, c1)
      else (HandlerErr (some err), c1)
  | (.ok finetuneExperiment, c1) =>
      if finetuneExperiment.DeletionTimestamp ≠ none then
        reconcileDelete finetuneExperiment c1
      else if !ContainsFinalizer finetuneExperiment FinetuneGroupFinalizer then
        let finetuneExperiment := AddFinalizer finetuneExperiment FinetuneGroupFinalizer
        match c1.Update finetuneExperiment with
        | (.error err, c2) => (HandlerErr (some err), c2)
        | (.ok finetuneExperiment, c2) => reconcileLive r finetuneExperiment c2
      else reconcileLive r finetuneExperiment c1

/-! ### Vocabulary of the specification -/

/-- The name a JobSpec resolves to, in the words of the specification: the explicit
name if set, else `"<experimentName>-finetunejob"`. -/
def resolvedName (experimentName : String) (finetuneJob : FinetuneJobSetting) : String :=
  match finetuneJob.Name with
  | some n => n
  | none => experimentName ++ "-finetunejob"

/-- The controller reference to an experiment. -/
def controllerRef (owner : FinetuneExperiment) : OwnerReference :=
  { Kind := FinetuneExperimentKind, Name := owner.Name, UID := owner.UID,
    Controller := true, BlockOwnerDeletion := true }

/-- The child descriptor of a JobSpec, in the words of the specification: the
resolved name, the experiment's namespace, the JobSpec's payload, and a controller
reference to the experiment. -/
def childJob (owner : FinetuneExperiment) (finetuneJob : FinetuneJobSetting) : FinetuneJob :=
  { Name := resolvedName owner.Name finetuneJob, Namespace := owner.Namespace,
    OwnerReferences := [controllerRef owner], Spec := finetuneJob.Spec, Status := {} }

/-- The identity of the child of a JobSpec. -/
def childKey (owner : FinetuneExperiment) (finetuneJob : FinetuneJobSetting) : NamespacedName :=
  { Namespace := owner.Namespace, Name := resolvedName owner.Name finetuneJob }

/-- Extend `seen` by the elements of `xs` that are not in it yet, in order of first
occurrence. -/
def addNew {α : Type} [DecidableEq α] (seen xs : List α) : List α :=
  xs.foldl (fun seen x => if x ∈ seen then seen else seen ++ [x]) seen

/-- The names of a list in order of first occurrence, each once. -/
def firstOccurrences (names : List String) : List String :=
  addNew [] names

/-- The names recorded in a list of status entries. -/
def statusNames (entries : List FinetuneJobStatusSetting) : List String :=
  entries.map (fun entry => entry.Name)

/-- The experiment with further entries appended to `status.jobsStatus`. -/
def FinetuneExperiment.withEntries (e : FinetuneExperiment)
    (entries : List FinetuneJobStatusSetting) : FinetuneExperiment :=
  { e with Status := { e.Status with JobsStatus := e.Status.JobsStatus ++ entries } }

/-- The client after the create of a loop iteration that was not faulted: the call is
logged, and the job is stored unless one with its identity exists. -/
def afterCreate (c : Client) (obj : FinetuneJob) : Client :=
  match findJob obj.key c.jobs with
  | some _ => c.next (.CreateJob obj)
  | none => { c.next (.CreateJob obj) with jobs := c.jobs ++ [obj] }

/-- The store calls of one loop iteration that runs to its end. -/
def jobCalls (owner : FinetuneExperiment) (finetuneJob : FinetuneJobSetting) : List Call :=
  [.CreateJob (childJob owner finetuneJob), .GetJob (childKey owner finetuneJob)]

/-- The experiment that lines 80-140 hand to the status write when the loop has
appended `entries`: the state is set from the pending flag. -/
def liveResult (e : FinetuneExperiment) (entries : List FinetuneJobStatusSetting) :
    FinetuneExperiment :=
  { e.withEntries entries with
    Status := { (e.withEntries entries).Status with
      State := if e.Spec.Pending then FinetuneExperimentPending
               else FinetuneExperimentProcessing } }

/-- The store calls of lines 80-134 when they run to their end. -/
def liveCalls (e : FinetuneExperiment) : List Call :=
  if e.Spec.Pending then [] else e.Spec.FinetuneJobs.flatMap (jobCalls e)

/-- The JobSpecs that one run processes: none while the experiment is pending. -/
def activeJobs (e : FinetuneExperiment) : List FinetuneJobSetting :=
  if e.Spec.Pending then [] else e.Spec.FinetuneJobs

/-- The store calls of lines 51-78 for a live experiment whose finalizer update, if
any, is issued. -/
def headCalls (req : Request) (e : FinetuneExperiment) : List Call :=
  .GetExperiment req.NamespacedName ::
    (if ContainsFinalizer e FinetuneGroupFinalizer then []
     else [.UpdateExperiment (AddFinalizer e FinetuneGroupFinalizer)])

/-- The calls that one `Reconcile` adds to the log. -/
def callsOf (r : FinetuneExperimentReconciler) (req : Request) (c : Client) : List Call :=
  (Reconcile r req c).2.calls.drop c.calls.length

/-- The client after `n` successive runs of `Reconcile` for the same request. -/
def reconcileTimes (r : FinetuneExperimentReconciler) (req : Request) : Nat → Client → Client
  | 0, c => c
  | n + 1, c => (Reconcile r req (reconcileTimes r req n c)).2

/-- The store call is a write to the experiment or a job. -/
def Call.isWrite : Call → Bool
  | .UpdateExperiment _ => true
  | .UpdateStatus _ => true
  | .CreateJob _ => true
  | _ => false

/-- The store call concerns a job. -/
def Call.isJobCall : Call → Bool
  | .CreateJob _ => true
  | .GetJob _ => true
  | _ => false

/-! ### Example inputs -/

/-- A reconciler whose scheme knows the experiment kind. -/
def exampleReconciler : FinetuneExperimentReconciler :=
  { Scheme := { kinds := [FinetuneExperimentKind] } }

/-- The request for `default/exp1`. -/
def exampleRequest : Request :=
  { NamespacedName := { Namespace := "default", Name := "exp1" } }

/-- The experiment of the scenario in the specification: `exp1` with one JobSpec named
`custom-job` and one unnamed JobSpec. -/
def exp1 : FinetuneExperiment :=
  { Name := "exp1", Namespace := "default", UID := "uid-1",
    Spec := { FinetuneJobs := [{ Name := some "custom-job", Spec := { payload := 1 } },
                               { Spec := { payload := 2 } }] } }

/-- A store that holds `exp1` and no job; no call is faulted. -/
def exampleClient : Client := { experiments := [exp1] }

/-- The experiment `exp1` as the store holds it after one successful run. -/
def exp1Settled : FinetuneExperiment :=
  { exp1 with
    Finalizers := [FinetuneGroupFinalizer],
    Status := { State := FinetuneExperimentProcessing,
                JobsStatus := [{ Name := "custom-job", FinetuneJobStatus := {} },
                               { Name := "exp1-finetunejob", FinetuneJobStatus := {} }] } }

/-- An experiment with two JobSpecs, both unnamed. -/
def twinExperiment : FinetuneExperiment :=
  { Name := "exp1", Namespace := "default", UID := "uid-1",
    Spec := { FinetuneJobs := [{ Spec := { payload := 1 } }, { Spec := { payload := 2 } }] } }

/-- A store that holds `twinExperiment` and no job; no call is faulted. -/
def twinClient : Client := { experiments := [twinExperiment] }

/-- The experiment `exp1` with the finalizer and a deletion marker. -/
def deletingExperiment : FinetuneExperiment :=
  { exp1 with DeletionTimestamp := some 1, Finalizers := [FinetuneGroupFinalizer] }

/-- A store that holds `deletingExperiment`; no call is faulted. -/
def deletingClient : Client := { experiments := [deletingExperiment] }

/-- The experiment `exp1` held back by `spec.pending`, with one status entry recorded
earlier. -/
def pendingExperiment : FinetuneExperiment :=
  { exp1 with
    Spec := { exp1.Spec with Pending := true },
    Status := { State := FinetuneExperimentProcessing,
                JobsStatus := [{ Name := "custom-job", FinetuneJobStatus := { snapshot := 3 } }] } }

/-- A store that holds `pendingExperiment`; no call is faulted. -/
def pendingClient : Client := { experiments := [pendingExperiment] }

/-- A store that holds `exp1` and a job named `custom-job` with another payload and a
status set by the job controller; the status write of the run is faulted. -/
def busyClient : Client :=
  { experiments := [exp1],
    jobs := [{ Name := "custom-job", Namespace := "default", Spec := { payload := 9 },
               Status := { snapshot := 5 } }],
    faults := [none, none, none, none, none, none, some .Conflict] }

/-- The experiment `pendingExperiment` once `spec.pending` is switched off. -/
def resumedExperiment : FinetuneExperiment :=
  { pendingExperiment with Spec := { pendingExperiment.Spec with Pending := false } }

/-- A store that holds `resumedExperiment` and no job; no call is faulted. -/
def resumedClient : Client := { experiments := [resumedExperiment] }

/-! ### Calls and their answers -/

/-- The error of a result, if any. -/
def errorOf {α : Type} : Except Error α → Option Error
  | .error err => some err
  | .ok _ => none

/-- A store call issued in a client state: the error it is answered with, if any, and
the client after the call. -/
def Client.perform (c : Client) : Call → Option Error × Client
  | .GetExperiment key => (errorOf (c.Get key).1, (c.Get key).2)
  | .UpdateExperiment obj => (errorOf (c.Update obj).1, (c.Update obj).2)
  | .UpdateStatus obj => (errorOf (c.StatusUpdate obj).1, (c.StatusUpdate obj).2)
  | .CreateJob obj => c.Create obj
  | .GetJob key => (errorOf (c.GetJob key).1, (c.GetJob key).2)

/-- A list of store calls issued one after the other: each call with its answer, and
the client after the last call. -/
def runCalls (c : Client) : List Call → List (Call × Option Error) × Client
  | [] => ([], c)
  | call :: rest =>
      ((call, (c.perform call).1) :: (runCalls (c.perform call).2 rest).1,
        (runCalls (c.perform call).2 rest).2)

/-- The calls of one `Reconcile`, each with the answer the store gave. -/
def outcomesOf (r : FinetuneExperimentReconciler) (req : Request) (c : Client) :
    List (Call × Option Error) :=
  (runCalls c (callsOf r req c)).1

/-- The errors that `Reconcile` tolerates: NotFound on the read of the experiment
(lines 52-55) and AlreadyExists on the create of a job (line 105). -/
def tolerated : Call → Error → Bool
  | .GetExperiment _, .NotFound => true
  | .CreateJob _, .AlreadyExists => true
  | _, _ => false

/-- The call succeeded, or failed with an error that `Reconcile` tolerates. -/
def fine (p : Call × Option Error) : Bool :=
  match p.2 with
  | none => true
  | some err => tolerated p.1 err

/-- Every call of the list succeeded or failed with a tolerated error. -/
def allFine (outs : List (Call × Option Error)) : Prop :=
  ∀ p ∈ outs, fine p = true

/-- The last call of the list failed with `err`, which is not tolerated, and every
call before it succeeded or failed with a tolerated error. -/
def aborted (outs : List (Call × Option Error)) (err : Error) : Prop :=
  ∃ good call, outs = good ++ [(call, some err)] ∧ allFine good ∧ tolerated call err = false

/-- The client `c'` is reached from `c` by issuing the calls of `outs` in order, which
the store answers as `outs` says. -/
def Traced (c c' : Client) (outs : List (Call × Option Error)) : Prop :=
  runCalls c (outs.map Prod.fst) = (outs, c')

/-- A store that holds nothing; no call is faulted. -/
def emptyClient : Client := {}

/-- A store that holds `exp1`; the first call is answered with a timeout. -/
def timeoutClient : Client := { experiments := [exp1], faults := [some .Timeout] }

/-- A store that holds `resumedExperiment`, whose entry for `custom-job` was recorded
with snapshot 3, and the job `custom-job`, whose status has moved on to snapshot 5. -/
def staleClient : Client :=
  { experiments := [resumedExperiment],
    jobs := [{ Name := "custom-job", Namespace := "default", Spec := { payload := 1 },
               Status := { snapshot := 5 } }] }

end finetune

/-! ## Part 3: theorems about the label composer -/

namespace label

theorem Labels.get_set (m : Labels) (k v k2 : String) :
    Labels.get (Labels.set m k v) k2 = if k = k2 then some v else Labels.get m k2 := by
  induction m with
  | nil => simp [Labels.set, Labels.get]
  | cons p rest ih =>
      obtain ⟨k', v'⟩ := p
      by_cases h1 : k' = k
      · subst h1
        by_cases h2 : k' = k2 <;> simp [Labels.set, Labels.get, h2]
      · by_cases h2 : k' = k2
        · subst h2
          have h3 : ¬ k = k' := fun h => h1 h.symm
          simp [Labels.set, Labels.get, h1, h3]
        · simp [Labels.set, Labels.get, h1, h2, ih]

theorem Heap.read_write (h : Heap) (a : Nat) (k v : String) (ha : a < h.cells.length) :
    (h.write a k v).read (some a) = Labels.set (h.read (some a)) k v := by
  simp [Heap.write, Heap.read, List.getD_eq_getElem?_getD, ha]

theorem Heap.write_length (h : Heap) (a : Nat) (k v : String) :
    (h.write a k v).cells.length = h.cells.length := by
  simp [Heap.write]

theorem mergeLoop_length (a : Nat) (m : Labels) (h : Heap) :
    (mergeLoop a m h).cells.length = h.cells.length := by
  induction m generalizing h with
  | nil => rfl
  | cons p rest ih =>
      obtain ⟨k, v⟩ := p
      simp only [mergeLoop]
      split
      · exact ih h
      · rw [ih, Heap.write_length]

theorem mergeLoop_get (a : Nat) (m : Labels) (h : Heap) (ha : a < h.cells.length) (k : String) :
    Labels.get ((mergeLoop a m h).read (some a)) k =
      match Labels.get (h.read (some a)) k with
      | some v => some v
      | none => Labels.get m k := by
  induction m generalizing h with
  | nil => simp only [mergeLoop, Labels.get]; cases Labels.get (h.read (some a)) k <;> rfl
  | cons p rest ih =>
      obtain ⟨k', v'⟩ := p
      simp only [mergeLoop]
      split
      · rename_i hk
        rw [ih h ha]
        by_cases h2 : k' = k
        · subst h2
          obtain ⟨w, hw⟩ := Option.isSome_iff_exists.mp hk
          simp [hw]
        · simp [Labels.get, h2]
      · rename_i hk
        have hlen : a < (h.write a k' v').cells.length := by rw [Heap.write_length]; exact ha
        rw [ih _ hlen, Heap.read_write h a k' v' ha, Labels.get_set]
        by_cases h2 : k' = k
        · subst h2
          simp only [Bool.not_eq_true, Option.not_isSome, Option.isNone_iff_eq_none] at hk
          simp [hk, Labels.get]
        · simp [Labels.get, h2]

theorem Heap.read_alloc_old (h : Heap) (m : Labels) (r : MapRef) (hr : h.valid r) :
    (h.alloc m).2.read r = h.read r := by
  cases r with
  | none => rfl
  | some a =>
      simp only [Heap.valid] at hr
      simp [Heap.alloc, Heap.read, List.getD_eq_getElem?_getD, List.getElem?_append_left hr]

theorem Heap.read_alloc_empty (h : Heap) (r : MapRef) :
    (h.alloc []).2.read r = h.read r := by
  cases r with
  | none => rfl
  | some a =>
      by_cases ha : a < h.cells.length
      · exact Heap.read_alloc_old h [] (some a) ha
      · have h1 : h.cells.length ≤ a := Nat.le_of_not_lt ha
        simp only [Heap.alloc, Heap.read, List.getD_eq_getElem?_getD]
        rw [List.getElem?_eq_none h1]
        rcases Nat.eq_or_lt_of_le h1 with h2 | h2
        · subst h2; simp
        · rw [List.getElem?_eq_none (by simp; omega)]

theorem Heap.read_alloc_new (h : Heap) (m : Labels) :
    (h.alloc m).2.read (some (h.alloc m).1) = m := by
  simp [Heap.alloc, Heap.read, List.getD_eq_getElem?_getD]

theorem MergeLabel_get (h : Heap) (baseLabel customLabel : MapRef) (hb : h.valid baseLabel)
    (k : String) :
    Labels.get ((MergeLabel baseLabel customLabel h).2.read (MergeLabel baseLabel customLabel h).1) k =
      match Labels.get (h.read baseLabel) k with
      | some v => some v
      | none => Labels.get (h.read customLabel) k := by
  cases baseLabel with
  | none =>
      simp only [MergeLabel]
      have hlen : (h.alloc []).1 < (h.alloc []).2.cells.length := by simp [Heap.alloc]
      rw [mergeLoop_get _ _ _ hlen, Heap.read_alloc_new, Heap.read_alloc_empty]
      simp [Heap.read, Labels.get]
  | some a =>
      simp only [MergeLabel]
      exact mergeLoop_get a _ h hb k

/-- C1: `MergeLabel` is a left-biased union.  For a base map that is nil or allocated
and any overlay map, a key is present in the returned map exactly when it is present
in the base or in the overlay, every key of the base keeps the base's value, and
every key that only the overlay has gets the overlay's value. -/
theorem MergeLabel_left_biased_union (h : Heap) (baseLabel customLabel : MapRef)
    (hb : h.valid baseLabel) :
    (∀ k, (Labels.get ((MergeLabel baseLabel customLabel h).2.read
              (MergeLabel baseLabel customLabel h).1) k).isSome ↔
        ((Labels.get (h.read baseLabel) k).isSome ∨ (Labels.get (h.read customLabel) k).isSome)) ∧
    (∀ k v, Labels.get (h.read baseLabel) k = some v →
        Labels.get ((MergeLabel baseLabel customLabel h).2.read
              (MergeLabel baseLabel customLabel h).1) k = some v) ∧
    (∀ k v, Labels.get (h.read baseLabel) k = none →
        Labels.get (h.read customLabel) k = some v →
        Labels.get ((MergeLabel baseLabel customLabel h).2.read
              (MergeLabel baseLabel customLabel h).1) k = some v) := by
  refine ⟨fun k => ?_, fun k v hk => ?_, fun k v hk ho => ?_⟩
  · rw [MergeLabel_get h baseLabel customLabel hb k]
    cases hk : Labels.get (h.read baseLabel) k <;> simp
  · rw [MergeLabel_get h baseLabel customLabel hb k, hk]
  · rw [MergeLabel_get h baseLabel customLabel hb k, hk, ho]

/-- C1 at the example of the specification: merging `{"a":"1"}` with
`{"a":"2","b":"2"}` gives `{"a":"1","b":"2"}`, and key `"a"` keeps the base value. -/
theorem MergeLabel_left_biased_union_witness :
    exampleHeap.valid (some 0) ∧
    (MergeLabel (some 0) (some 1) exampleHeap).2.read (MergeLabel (some 0) (some 1) exampleHeap).1
      = [("a", "1"), ("b", "2")] ∧
    Labels.get ((MergeLabel (some 0) (some 1) exampleHeap).2.read
      (MergeLabel (some 0) (some 1) exampleHeap).1) "a" = some "1" :=
  ⟨by decide, by decide,
    (MergeLabel_left_biased_union exampleHeap (some 0) (some 1) (by decide)).2.1 "a" "1"
      (by decide)⟩

/-! ### Frame and validity of the label functions -/

theorem Heap.read_write_other (h : Heap) (a b : Nat) (k v : String) (hab : b ≠ a) :
    (h.write a k v).read (some b) = h.read (some b) := by
  simp only [Heap.write, Heap.read, List.getD_eq_getElem?_getD]
  rw [List.getElem?_set_ne (Ne.symm hab)]

theorem mergeLoop_read_other (a : Nat) (m : Labels) (h : Heap) (r : MapRef)
    (hr : r ≠ some a) : (mergeLoop a m h).read r = h.read r := by
  cases r with
  | none => rfl
  | some b =>
      have hab : b ≠ a := fun hb => hr (by rw [hb])
      induction m generalizing h with
      | nil => rfl
      | cons p rest ih =>
          obtain ⟨k, v⟩ := p
          simp only [mergeLoop]
          split
          · exact ih h
          · rw [ih, Heap.read_write_other h a b k v hab]

theorem Labels.get_of_mem {m : Labels} {p : String × String} (hp : p ∈ m) :
    (Labels.get m p.1).isSome = true := by
  induction m with
  | nil => cases hp
  | cons q rest ih =>
      obtain ⟨k', v'⟩ := q
      by_cases hk : k' = p.1
      · simp [Labels.get, hk]
      · rcases List.mem_cons.mp hp with h | h
        · exact absurd (by rw [h]) hk
        · simp only [Labels.get, hk, if_false]
          exact ih h

theorem mergeLoop_of_present (a : Nat) (m : Labels) (h : Heap)
    (hm : ∀ p ∈ m, (Labels.get (h.read (some a)) p.1).isSome = true) : mergeLoop a m h = h := by
  induction m with
  | nil => rfl
  | cons p rest ih =>
      obtain ⟨k, v⟩ := p
      simp only [mergeLoop]
      rw [if_pos (hm (k, v) (List.mem_cons_self _ _))]
      exact ih (fun q hq => hm q (List.mem_cons_of_mem _ hq))

theorem Heap.valid_alloc (h : Heap) (m : Labels) (r : MapRef) (hr : h.valid r) :
    (h.alloc m).2.valid r := by
  cases r with
  | none => trivial
  | some a =>
      simp only [Heap.valid] at hr
      simp only [Heap.valid, Heap.alloc, List.length_append, List.length_singleton]
      omega

theorem Heap.valid_alloc_new (h : Heap) (m : Labels) :
    (h.alloc m).2.valid (some (h.alloc m).1) := by
  simp [Heap.valid, Heap.alloc]

theorem Heap.ne_alloc_of_valid (h : Heap) (m : Labels) (r : MapRef) (hr : h.valid r) :
    r ≠ some (h.alloc m).1 := by
  intro hrm
  subst hrm
  simp [Heap.valid, Heap.alloc] at hr

theorem mergeLoop_valid (a : Nat) (m : Labels) (h : Heap) (r : MapRef) (hr : h.valid r) :
    (mergeLoop a m h).valid r := by
  cases r with
  | none => trivial
  | some b =>
      simp only [Heap.valid] at hr
      simp only [Heap.valid, mergeLoop_length]
      exact hr

theorem MergeLabel_valid (h : Heap) (b o r : MapRef) (hr : h.valid r) :
    (MergeLabel b o h).2.valid r := by
  cases b with
  | none => exact mergeLoop_valid _ _ _ r (Heap.valid_alloc h [] r hr)
  | some a => exact mergeLoop_valid _ _ _ r hr

theorem MergeLabel_result (h : Heap) (b o : MapRef) (hb : h.valid b) :
    (MergeLabel b o h).1 ≠ none ∧ (MergeLabel b o h).2.valid (MergeLabel b o h).1 ∧
    (∀ a, b = some a → (MergeLabel b o h).1 = some a) ∧
    (b = none → (MergeLabel b o h).1 = some h.cells.length) := by
  cases b with
  | none =>
      refine ⟨by simp [MergeLabel], ?_, fun a ha => Option.noConfusion ha, fun _ => rfl⟩
      exact mergeLoop_valid _ _ _ _ (Heap.valid_alloc_new h [])
  | some a =>
      refine ⟨by simp [MergeLabel], ?_, fun a' ha => ?_, fun hn => Option.noConfusion hn⟩
      · exact mergeLoop_valid _ _ _ _ hb
      · cases ha; rfl

/-- The merge leaves every allocated map other than a non-nil base as it was. -/
theorem MergeLabel_read_other (h : Heap) (b o r : MapRef) (hr : h.valid r)
    (hne : b = none ∨ r ≠ b) : (MergeLabel b o h).2.read r = h.read r := by
  cases b with
  | none =>
      simp only [MergeLabel]
      rw [mergeLoop_read_other _ _ _ r (Heap.ne_alloc_of_valid h [] r hr),
        Heap.read_alloc_old h [] r hr]
  | some a =>
      simp only [MergeLabel]
      rcases hne with hne | hne
      · cases hne
      · exact mergeLoop_read_other _ _ _ r hne

/-- The merge leaves the overlay as it was, also when it is the base itself. -/
theorem MergeLabel_read_overlay (h : Heap) (b o : MapRef) (ho : h.valid o) :
    (MergeLabel b o h).2.read o = h.read o := by
  by_cases hbo : b = none ∨ o ≠ b
  · exact MergeLabel_read_other h b o o ho hbo
  · have hb : o = b := by
      by_contra hne
      exact hbo (Or.inr hne)
    subst hb
    cases o with
    | none => exact absurd (Or.inl rfl) hbo
    | some a =>
        simp only [MergeLabel]
        rw [mergeLoop_of_present a _ h (fun p hp => Labels.get_of_mem hp)]

/-! ### `GenerateInstanceLabel` -/

/-- The contents of the result of the composition, and its frame: no map that existed
before is changed. -/
theorem composedLabels_spec (n : String) (cl : MapRef) (h : Heap) (ha : h.valid cl) :
    (∀ k, Labels.get ((composedLabels n cl h).2.read
        (composedLabels n cl h).1) k =
      if k = LabelPartOfKey then some LabelDatatunerx
      else if k = LabelInstanceKey then some n
      else if k = LabelComponentKey then some LabelFinetuneJob
      else Labels.get (h.read cl) k) ∧
    (∀ r, h.valid r → (composedLabels n cl h).2.read r = h.read r) ∧
    (∀ r, h.valid r → (composedLabels n cl h).2.valid r) ∧
    (composedLabels n cl h).2.valid (composedLabels n cl h).1 ∧
    (composedLabels n cl h).1 = some h.cells.length := by
  -- the heaps of the run, in order
  obtain ⟨h1, hh1⟩ : ∃ h1, h1 = (h.alloc [(LabelPartOfKey, LabelDatatunerx)]).2 := ⟨_, rfl⟩
  obtain ⟨h2, hh2⟩ : ∃ h2, h2 =
      (h1.alloc [(LabelInstanceKey, n), (LabelComponentKey, LabelFinetuneJob)]).2 := ⟨_, rfl⟩
  obtain ⟨h3, hh3⟩ : ∃ h3, h3 = (MergeLabel (some h1.cells.length) cl h2).2 := ⟨_, rfl⟩
  have hG : composedLabels n cl h =
      MergeLabel (some h.cells.length) (some h1.cells.length) h3 := by
    rw [hh3, hh2, hh1]; rfl
  -- validity along the run
  have v1 : ∀ r, h.valid r → h1.valid r := fun r hr => hh1 ▸ Heap.valid_alloc h _ r hr
  have vb1 : h1.valid (some h.cells.length) := hh1 ▸ Heap.valid_alloc_new h _
  have v2 : ∀ r, h1.valid r → h2.valid r := fun r hr => hh2 ▸ Heap.valid_alloc h1 _ r hr
  have vl2 : h2.valid (some h1.cells.length) := hh2 ▸ Heap.valid_alloc_new h1 _
  have v3 : ∀ r, h2.valid r → h3.valid r := fun r hr => hh3 ▸ MergeLabel_valid h2 _ _ r hr
  have nb : ∀ r, h.valid r → r ≠ some h.cells.length :=
    fun r hr => Heap.ne_alloc_of_valid h [] r hr
  have nl : ∀ r, h1.valid r → r ≠ some h1.cells.length :=
    fun r hr => Heap.ne_alloc_of_valid h1 [] r hr
  -- reads along the run
  have r1 : ∀ r, h.valid r → h1.read r = h.read r :=
    fun r hr => hh1 ▸ Heap.read_alloc_old h _ r hr
  have r2 : ∀ r, h1.valid r → h2.read r = h1.read r :=
    fun r hr => hh2 ▸ Heap.read_alloc_old h1 _ r hr
  have r3 : ∀ r, h2.valid r → r ≠ some h1.cells.length → h3.read r = h2.read r :=
    fun r hr hne => hh3 ▸ MergeLabel_read_other h2 _ _ r hr (Or.inr hne)
  have rb1 : h1.read (some h.cells.length) = [(LabelPartOfKey, LabelDatatunerx)] :=
    hh1 ▸ Heap.read_alloc_new h _
  have rl2 : h2.read (some h1.cells.length) =
      [(LabelInstanceKey, n), (LabelComponentKey, LabelFinetuneJob)] :=
    hh2 ▸ Heap.read_alloc_new h1 _
  have rb3 : h3.read (some h.cells.length) = [(LabelPartOfKey, LabelDatatunerx)] := by
    rw [r3 _ (v2 _ vb1) (nl _ vb1), r2 _ vb1, rb1]
  have ra2 : h2.read cl = h.read cl := by
    rw [r2 _ (v1 _ ha), r1 _ ha]
  have g3 : ∀ k, Labels.get (h3.read (some h1.cells.length)) k =
      match Labels.get [(LabelInstanceKey, n), (LabelComponentKey, LabelFinetuneJob)] k with
      | some v => some v
      | none => Labels.get (h.read cl) k := by
    intro k
    have := MergeLabel_get h2 (some h1.cells.length) cl vl2 k
    rw [← hh3, rl2, ra2] at this
    exact this
  rw [hG]
  refine ⟨?_, ?_, ?_, ?_, ?_⟩
  · intro k
    have hres : (MergeLabel (some h.cells.length) (some h1.cells.length) h3).1 =
        some h.cells.length := rfl
    have := MergeLabel_get h3 (some h.cells.length) (some h1.cells.length)
      (v3 _ (v2 _ vb1)) k
    rw [rb3, g3 k] at this
    rw [this]
    have d1 : LabelInstanceKey ≠ LabelPartOfKey := by decide
    have d2 : LabelComponentKey ≠ LabelPartOfKey := by decide
    have d3 : LabelComponentKey ≠ LabelInstanceKey := by decide
    by_cases k1 : k = LabelPartOfKey
    · subst k1
      simp [Labels.get]
    · by_cases k2 : k = LabelInstanceKey
      · subst k2
        simp [Labels.get, d1, Ne.symm d1]
      · by_cases k3 : k = LabelComponentKey
        · subst k3
          simp [Labels.get, d2, d3, Ne.symm d2, Ne.symm d3]
        · simp [Labels.get, k1, k2, k3, Ne.symm k1, Ne.symm k2, Ne.symm k3]
  · intro r hr
    rw [MergeLabel_read_other h3 _ _ r (v3 _ (v2 _ (v1 _ hr))) (Or.inr (nb r hr)),
      r3 r (v2 _ (v1 _ hr)) (nl r (v1 _ hr)), r2 r (v1 _ hr), r1 r hr]
  · intro r hr
    exact MergeLabel_valid h3 _ _ r (v3 _ (v2 _ (v1 _ hr)))
  · exact (MergeLabel_result h3 _ _ (v3 _ (v2 _ vb1))).2.1
  · rfl

theorem GenerateInstanceLabel_spec (n : String) (cl : MapRef) (h : Heap) (hc : h.valid cl) :
    (∀ k, Labels.get ((GenerateInstanceLabel n cl h).2.read
        (GenerateInstanceLabel n cl h).1) k =
      if k = LabelPartOfKey then some LabelDatatunerx
      else if k = LabelInstanceKey then some n
      else if k = LabelComponentKey then some LabelFinetuneJob
      else Labels.get (h.read cl) k) ∧
    (∀ r, h.valid r → (GenerateInstanceLabel n cl h).2.read r = h.read r) ∧
    (GenerateInstanceLabel n cl h).1 ≠ none ∧
    (GenerateInstanceLabel n cl h).2.valid (GenerateInstanceLabel n cl h).1 := by
  cases cl with
  | some a =>
      have hG : GenerateInstanceLabel n (some a) h = composedLabels n (some a) h := rfl
      obtain ⟨h1, h2, _, h4, h5⟩ := composedLabels_spec n (some a) h hc
      rw [hG]
      exact ⟨h1, h2, by rw [h5]; exact Option.some_ne_none _, h4⟩
  | none =>
      have hG : GenerateInstanceLabel n none h =
          composedLabels n (some (h.alloc []).1) (h.alloc []).2 := rfl
      obtain ⟨h1, h2, _, h4, h5⟩ :=
        composedLabels_spec n (some (h.alloc []).1) (h.alloc []).2 (Heap.valid_alloc_new h [])
      rw [hG]
      refine ⟨?_, ?_, by rw [h5]; exact Option.some_ne_none _, h4⟩
      · intro k
        rw [h1 k, Heap.read_alloc_new]
        rfl
      · intro r hr
        rw [h2 r (Heap.valid_alloc h [] r hr), Heap.read_alloc_old h [] r hr]

/-- C14: reserved label keys cannot be clobbered.  For every instance name and every
map of custom labels that is nil or allocated, whatever keys it holds, the map that
`GenerateInstanceLabel` returns maps `finetune.datatunerx.io/instance` to the instance
name, `finetune.datatunerx.io/component` to `finetunejob` and
`finetune.datatunerx.io/part-of` to `datatunerx`; every other key is present exactly
when the custom labels have it, with their value; and the map has the same contents
as `MergeLabel(GetBaseLabel(), MergeLabel({instance, component}, customLabels))`. -/
theorem GenerateInstanceLabel_reserved_keys (instanceName : String) (customLabels : MapRef)
    (h : Heap) (hc : h.valid customLabels) :
    Labels.get ((GenerateInstanceLabel instanceName customLabels h).2.read
        (GenerateInstanceLabel instanceName customLabels h).1)
      "finetune.datatunerx.io/instance" = some instanceName ∧
    Labels.get ((GenerateInstanceLabel instanceName customLabels h).2.read
        (GenerateInstanceLabel instanceName customLabels h).1)
      "finetune.datatunerx.io/component" = some "finetunejob" ∧
    Labels.get ((GenerateInstanceLabel instanceName customLabels h).2.read
        (GenerateInstanceLabel instanceName customLabels h).1)
      "finetune.datatunerx.io/part-of" = some "datatunerx" ∧
    (∀ k, k ≠ "finetune.datatunerx.io/instance" → k ≠ "finetune.datatunerx.io/component" →
      k ≠ "finetune.datatunerx.io/part-of" →
      Labels.get ((GenerateInstanceLabel instanceName customLabels h).2.read
          (GenerateInstanceLabel instanceName customLabels h).1) k =
        Labels.get (h.read customLabels) k) ∧
    (∀ k, Labels.get ((GenerateInstanceLabel instanceName customLabels h).2.read
          (GenerateInstanceLabel instanceName customLabels h).1) k =
        Labels.get ((composedLabels instanceName customLabels h).2.read
          (composedLabels instanceName customLabels h).1) k) := by
  obtain ⟨hget, _⟩ := GenerateInstanceLabel_spec instanceName customLabels h hc
  obtain ⟨hcomp, _⟩ := composedLabels_spec instanceName customLabels h hc
  have e1 : LabelInstanceKey = "finetune.datatunerx.io/instance" := rfl
  have e2 : LabelComponentKey = "finetune.datatunerx.io/component" := rfl
  have e3 : LabelPartOfKey = "finetune.datatunerx.io/part-of" := rfl
  refine ⟨?_, ?_, ?_, ?_, ?_⟩
  · rw [hget, e1, e3, if_neg (by decide), if_pos rfl]
  · rw [hget, e1, e2, e3, if_neg (by decide), if_neg (by decide), if_pos rfl]
    rfl
  · rw [hget, e3, if_pos rfl]
    rfl
  · intro k k1 k2 k3
    rw [hget, e1, e2, e3, if_neg k3, if_neg k1, if_neg k2]
  · intro k
    rw [hget, hcomp]

/-- C14 at custom labels that reuse the instance and part-of keys: the reserved keys
keep the values of the system, and `team` is carried over. -/
theorem GenerateInstanceLabel_reserved_keys_witness :
    clobberHeap.valid (some 0) ∧
    (GenerateInstanceLabel "job1" (some 0) clobberHeap).2.read
        (GenerateInstanceLabel "job1" (some 0) clobberHeap).1 =
      [("finetune.datatunerx.io/part-of", "datatunerx"),
       ("finetune.datatunerx.io/instance", "job1"),
       ("finetune.datatunerx.io/component", "finetunejob"), ("team", "ml")] ∧
    Labels.get ((GenerateInstanceLabel "job1" (some 0) clobberHeap).2.read
        (GenerateInstanceLabel "job1" (some 0) clobberHeap).1)
      "finetune.datatunerx.io/instance" = some "job1" :=
  ⟨by decide, by decide,
    (GenerateInstanceLabel_reserved_keys "job1" (some 0) clobberHeap (by decide)).1⟩

/-- C15, as stated, fails: `MergeLabel({"a":"1"}, {"a":"2","b":"2"})` on two allocated
maps changes the base map, which holds `{"a":"1","b":"2"}` after the call. -/
theorem MergeLabel_side_effect_counterexample :
    exampleHeap.valid (some 0) ∧ exampleHeap.valid (some 1) ∧
    exampleHeap.read (some 0) = [("a", "1")] ∧
    (MergeLabel (some 0) (some 1) exampleHeap).2.read (some 0) = [("a", "1"), ("b", "2")] ∧
    (MergeLabel (some 0) (some 1) exampleHeap).2.read (some 0) ≠ exampleHeap.read (some 0) := by
  decide

/-- C15, amended: the effects of the label functions.  `MergeLabel` leaves the overlay
map and every allocated map other than the base as they were.  A nil base gives a
fresh map: the result is the one cell the call allocates, it is no map that existed
before (so it is not the overlay), no existing map changes, and its contents are
those of the overlay.  A non-nil base is itself the result and is written in place:
no cell is allocated, each of its entries is kept, each key that only the overlay has
is added with the overlay's value, and no other key appears.  `GenerateInstanceLabel`
leaves the custom labels and every other allocated map as they were, and its result
is a map that did not exist before. -/
theorem MergeLabel_effects (h : Heap) (baseLabel customLabel : MapRef)
    (instanceName : String) (customLabels : MapRef)
    (hb : h.valid baseLabel) (ho : h.valid customLabel) (hc : h.valid customLabels) :
    (MergeLabel baseLabel customLabel h).2.read customLabel = h.read customLabel ∧
    (∀ r, h.valid r → r ≠ baseLabel →
      (MergeLabel baseLabel customLabel h).2.read r = h.read r) ∧
    (baseLabel = none → ∀ r, h.valid r →
      (MergeLabel baseLabel customLabel h).2.read r = h.read r) ∧
    (∀ a, baseLabel = some a → (MergeLabel baseLabel customLabel h).1 = baseLabel ∧
      ∀ k v, Labels.get (h.read baseLabel) k = some v →
        Labels.get ((MergeLabel baseLabel customLabel h).2.read baseLabel) k = some v) ∧
    (GenerateInstanceLabel instanceName customLabels h).2.read customLabels =
      h.read customLabels ∧
    (∀ r, h.valid r → (GenerateInstanceLabel instanceName customLabels h).2.read r = h.read r) ∧
    (baseLabel = none →
      (MergeLabel baseLabel customLabel h).1 = some h.cells.length ∧
      ¬ h.valid (MergeLabel baseLabel customLabel h).1 ∧
      (MergeLabel baseLabel customLabel h).1 ≠ customLabel ∧
      (∀ r, h.valid r → r ≠ (MergeLabel baseLabel customLabel h).1) ∧
      (MergeLabel baseLabel customLabel h).2.valid (MergeLabel baseLabel customLabel h).1 ∧
      (MergeLabel baseLabel customLabel h).2.cells.length = h.cells.length + 1 ∧
      ∀ k, Labels.get ((MergeLabel baseLabel customLabel h).2.read
          (MergeLabel baseLabel customLabel h).1) k = Labels.get (h.read customLabel) k) ∧
    (∀ a, baseLabel = some a →
      (MergeLabel baseLabel customLabel h).2.cells.length = h.cells.length ∧
      (∀ k v, Labels.get (h.read baseLabel) k = none →
        Labels.get (h.read customLabel) k = some v →
        Labels.get ((MergeLabel baseLabel customLabel h).2.read baseLabel) k = some v) ∧
      (∀ k, Labels.get (h.read baseLabel) k = none →
        Labels.get (h.read customLabel) k = none →
        Labels.get ((MergeLabel baseLabel customLabel h).2.read baseLabel) k = none)) ∧
    ((GenerateInstanceLabel instanceName customLabels h).1 ≠ none ∧
      ¬ h.valid (GenerateInstanceLabel instanceName customLabels h).1 ∧
      (GenerateInstanceLabel instanceName customLabels h).1 ≠ customLabels ∧
      (GenerateInstanceLabel instanceName customLabels h).2.valid
        (GenerateInstanceLabel instanceName customLabels h).1) := by
  have hget := MergeLabel_get h baseLabel customLabel hb
  have hfresh : ∀ r : MapRef, r = some h.cells.length → ¬ h.valid r := by
    intro r hr hv
    rw [hr] at hv
    exact Nat.lt_irrefl _ hv
  have hgen : ∃ n, (GenerateInstanceLabel instanceName customLabels h).1 =
      some (h.cells.length + n) := by
    cases customLabels with
    | none => exact ⟨1, by simp [GenerateInstanceLabel, GetBaseLabel, MergeLabel, Heap.alloc]⟩
    | some a => exact ⟨0, by simp [GenerateInstanceLabel, GetBaseLabel, MergeLabel, Heap.alloc]⟩
  have hgenfresh : ¬ h.valid (GenerateInstanceLabel instanceName customLabels h).1 := by
    obtain ⟨n, hn⟩ := hgen
    rw [hn]
    intro hv
    exact Nat.not_lt.mpr (Nat.le_add_right _ _) hv
  refine ⟨MergeLabel_read_overlay h _ _ ho,
    fun r hr hne => MergeLabel_read_other h _ _ r hr (Or.inr hne),
    fun hn r hr => MergeLabel_read_other h _ _ r hr (Or.inl hn), ?_,
    (GenerateInstanceLabel_spec instanceName customLabels h hc).2.1 customLabels hc,
    (GenerateInstanceLabel_spec instanceName customLabels h hc).2.1, ?_, ?_,
    (GenerateInstanceLabel_spec instanceName customLabels h hc).2.2.1, hgenfresh,
    fun heq => hgenfresh (by rw [heq]; exact hc),
    (GenerateInstanceLabel_spec instanceName customLabels h hc).2.2.2⟩
  · intro a ha
    have hres : (MergeLabel baseLabel customLabel h).1 = baseLabel := by
      rw [ha]; rfl
    refine ⟨hres, fun k v hk => ?_⟩
    have := hget k
    rw [hres, hk] at this
    exact this
  · intro hn
    have hres : (MergeLabel baseLabel customLabel h).1 = some h.cells.length :=
      (MergeLabel_result h baseLabel customLabel hb).2.2.2 hn
    have hnot := hfresh _ hres
    refine ⟨hres, hnot, fun heq => hnot (by rw [heq]; exact ho),
      fun r hr heq => hnot (by rw [← heq]; exact hr),
      (MergeLabel_result h baseLabel customLabel hb).2.1, ?_, ?_⟩
    · subst hn
      simp [MergeLabel, Heap.alloc, mergeLoop_length]
    · intro k
      have := hget k
      rw [hn] at this
      rw [hn]
      exact this
  · intro a ha
    have hres : (MergeLabel baseLabel customLabel h).1 = baseLabel := by
      rw [ha]; rfl
    refine ⟨?_, ?_, ?_⟩
    · subst ha
      simp [MergeLabel, mergeLoop_length]
    · intro k v hk hv
      have := hget k
      rw [hres, hk, hv] at this
      exact this
    · intro k hk hv
      have := hget k
      rw [hres, hk, hv] at this
      exact this

/-- C15, amended, at the merge example: the overlay `{"a":"2","b":"2"}` is as it was
after the call; the base, cell 0, is the result and has gained the key `b` in place;
and with a nil base the result is the new cell 2, not the overlay. -/
theorem MergeLabel_effects_witness :
    exampleHeap.valid (some 0) ∧ exampleHeap.valid (some 1) ∧
    (MergeLabel (some 0) (some 1) exampleHeap).2.read (some 1) = [("a", "2"), ("b", "2")] ∧
    Labels.get ((MergeLabel (some 0) (some 1) exampleHeap).2.read (some 0)) "b" = some "2" ∧
    (MergeLabel none (some 1) exampleHeap).1 = some 2 :=
  ⟨by decide, by decide,
    (MergeLabel_effects exampleHeap (some 0) (some 1) "job1" none (by decide) (by decide)
      (by decide)).1.trans (by decide),
    (MergeLabel_effects exampleHeap (some 0) (some 1) "job1" none (by decide) (by decide)
      (by decide)).2.2.2.2.2.2.2.1 0 rfl |>.2.1 "b" "2" (by decide) (by decide),
    (MergeLabel_effects exampleHeap none (some 1) "job1" none (by decide) (by decide)
      (by decide)).2.2.2.2.2.2.1 rfl |>.1⟩

/-- C16: absent maps behave as empty maps.  With a nil base the merged map has the
contents of the overlay; with a nil overlay the merged map has the contents of the
base, and a non-nil base is returned with the heap untouched; with both nil the
result is a fresh empty map; `GenerateInstanceLabel` on nil custom labels is the run
on a freshly made empty map, and has the contents of the run on any allocated empty
map.  Every result is a non-nil allocated map: the functions are total and write
only into a non-nil map. -/
theorem MergeLabel_absent_maps (h : Heap) (baseLabel customLabel empty : MapRef)
    (instanceName : String)
    (hb : h.valid baseLabel) (ho : h.valid customLabel)
    (he : h.valid empty) (hempty : h.read empty = []) :
    (∀ k, Labels.get ((MergeLabel none customLabel h).2.read (MergeLabel none customLabel h).1) k
      = Labels.get (h.read customLabel) k) ∧
    (∀ k, Labels.get ((MergeLabel baseLabel none h).2.read (MergeLabel baseLabel none h).1) k
      = Labels.get (h.read baseLabel) k) ∧
    (∀ a, baseLabel = some a → MergeLabel baseLabel none h = (baseLabel, h)) ∧
    ((MergeLabel none none h).1 ≠ none ∧
      (MergeLabel none none h).2.read (MergeLabel none none h).1 = []) ∧
    (GenerateInstanceLabel instanceName none h =
      GenerateInstanceLabel instanceName (some (h.alloc []).1) (h.alloc []).2) ∧
    (∀ k, Labels.get ((GenerateInstanceLabel instanceName none h).2.read
          (GenerateInstanceLabel instanceName none h).1) k =
        Labels.get ((GenerateInstanceLabel instanceName empty h).2.read
          (GenerateInstanceLabel instanceName empty h).1) k) ∧
    ((MergeLabel baseLabel customLabel h).1 ≠ none ∧
      (MergeLabel baseLabel customLabel h).2.valid (MergeLabel baseLabel customLabel h).1) ∧
    ((GenerateInstanceLabel instanceName customLabel h).1 ≠ none ∧
      (GenerateInstanceLabel instanceName customLabel h).2.valid
        (GenerateInstanceLabel instanceName customLabel h).1) := by
  refine ⟨?_, ?_, ?_, ?_, rfl, ?_, ?_, ?_⟩
  · intro k
    rw [MergeLabel_get h none customLabel trivial k]
    rfl
  · intro k
    rw [MergeLabel_get h baseLabel none hb k]
    cases Labels.get (h.read baseLabel) k <;> rfl
  · intro a ha
    rw [ha]
    rfl
  · refine ⟨(MergeLabel_result h none none trivial).1, ?_⟩
    have hres : (MergeLabel none none h).1 = some (h.alloc []).1 := rfl
    have hheap : (MergeLabel none none h).2 = (h.alloc []).2 := rfl
    rw [hres, hheap, Heap.read_alloc_new]
  · intro k
    rw [(GenerateInstanceLabel_spec instanceName none h trivial).1 k,
      (GenerateInstanceLabel_spec instanceName empty h he).1 k, hempty]
    rfl
  · exact ⟨(MergeLabel_result h _ _ hb).1, (MergeLabel_result h _ _ hb).2.1⟩
  · exact ⟨(GenerateInstanceLabel_spec instanceName customLabel h ho).2.2.1,
      (GenerateInstanceLabel_spec instanceName customLabel h ho).2.2.2⟩

/-- C16 at the merge example: a nil base merged with `{"a":"2","b":"2"}` has value
`"2"` under `"b"`. -/
theorem MergeLabel_absent_maps_witness :
    exampleHeap.valid (some 0) ∧ exampleHeap.valid (some 1) ∧ exampleHeap.read none = [] ∧
    Labels.get ((MergeLabel none (some 1) exampleHeap).2.read
      (MergeLabel none (some 1) exampleHeap).1) "b" = some "2" ∧
    (MergeLabel none (some 1) exampleHeap).2.read (MergeLabel none (some 1) exampleHeap).1 =
      [("a", "2"), ("b", "2")] :=
  ⟨by decide, by decide, rfl,
    ((MergeLabel_absent_maps exampleHeap (some 0) (some 1) none "job1" (by decide) (by decide)
      trivial rfl).1 "b").trans (by decide),
    by decide⟩

end label

/-! ## Part 4: theorems about the reconciler -/

namespace finetune

/-! ### Facts about the store -/

theorem findExperiment_key {key : NamespacedName} {xs : List FinetuneExperiment}
    {e : FinetuneExperiment} (h : findExperiment key xs = some e) : e.key = key := by
  induction xs with
  | nil => simp [findExperiment] at h
  | cons x xs ih =>
      simp only [findExperiment] at h
      split at h
      · rename_i hx
        cases h
        exact hx
      · exact ih h

theorem findExperiment_put (new : FinetuneExperiment) (key : NamespacedName)
    (xs : List FinetuneExperiment) :
    findExperiment key (putExperiment new xs) =
      if new.key = key then (findExperiment key xs).map (fun _ => new)
      else findExperiment key xs := by
  induction xs with
  | nil => simp [findExperiment, putExperiment]
  | cons x xs ih =>
      by_cases h1 : x.key = new.key
      · by_cases h2 : new.key = key
        · simp [findExperiment, putExperiment, h1, h2]
        · have h3 : ¬ x.key = key := fun h => h2 (h1 ▸ h)
          simp [findExperiment, putExperiment, h1, h2, h3]
      · by_cases h2 : new.key = key
        · have h3 : ¬ x.key = key := fun h => h1 (h.trans h2.symm)
          simp [findExperiment, putExperiment, h1, h2, h3, ih]
        · simp [findExperiment, putExperiment, h1, h2, ih]

theorem findExperiment_put_same {new old : FinetuneExperiment} {xs : List FinetuneExperiment}
    (h : findExperiment new.key xs = some old) :
    findExperiment new.key (putExperiment new xs) = some new := by
  rw [findExperiment_put, if_pos rfl, h]
  rfl

theorem putExperiment_self {new : FinetuneExperiment} {xs : List FinetuneExperiment}
    (h : findExperiment new.key xs = some new) : putExperiment new xs = xs := by
  induction xs with
  | nil => rfl
  | cons x xs ih =>
      simp only [findExperiment] at h
      simp only [putExperiment]
      split at h
      · rename_i hx
        cases h
        simp
      · rename_i hx
        simp [hx, ih h]

theorem findJob_key {key : NamespacedName} {xs : List FinetuneJob} {j : FinetuneJob}
    (h : findJob key xs = some j) : j.key = key := by
  induction xs with
  | nil => simp [findJob] at h
  | cons x xs ih =>
      simp only [findJob] at h
      split at h
      · rename_i hx
        cases h
        exact hx
      · exact ih h

theorem findJob_append (key : NamespacedName) (xs ys : List FinetuneJob) :
    findJob key (xs ++ ys) =
      match findJob key xs with
      | some j => some j
      | none => findJob key ys := by
  induction xs with
  | nil => simp only [List.nil_append, findJob]
  | cons x xs ih =>
      by_cases h : x.key = key
      · simp [findJob, h]
      · simp [findJob, h, ih]

/-! ### Facts about the client calls -/

@[simp] theorem Client.next_experiments (c : Client) (call : Call) :
    (c.next call).experiments = c.experiments := rfl

@[simp] theorem Client.next_jobs (c : Client) (call : Call) :
    (c.next call).jobs = c.jobs := rfl

@[simp] theorem Client.next_calls (c : Client) (call : Call) :
    (c.next call).calls = c.calls ++ [call] := rfl

@[simp] theorem Client.next_faults (c : Client) (call : Call) :
    (c.next call).faults = c.faults.tail := rfl

theorem Client.fault_eq_faultAt (c : Client) : c.fault = c.faultAt 0 := by
  unfold Client.fault Client.faultAt
  cases c.faults <;> rfl

theorem Client.next_faultAt (c : Client) (call : Call) (n : Nat) :
    (c.next call).faultAt n = c.faultAt (n + 1) := by
  unfold Client.next Client.faultAt
  cases c.faults <;> simp

theorem Client.fault_of_nil {c : Client} (h : c.faults = []) : c.fault = none := by
  simp [Client.fault, h]

/-- The outcomes of a read of an experiment. -/
theorem Client.Get_cases (c : Client) (key : NamespacedName) :
    (∃ f, c.fault = some f ∧ c.Get key = (.error (.Store f), c.next (.GetExperiment key))) ∨
    (c.fault = none ∧ findExperiment key c.experiments = none ∧
      c.Get key = (.error .NotFound, c.next (.GetExperiment key))) ∨
    (∃ e, c.fault = none ∧ findExperiment key c.experiments = some e ∧
      c.Get key = (.ok e, c.next (.GetExperiment key))) := by
  unfold Client.Get
  cases hf : c.fault with
  | some f => exact Or.inl ⟨f, rfl, rfl⟩
  | none =>
      cases hx : findExperiment key c.experiments with
      | none => exact Or.inr (Or.inl ⟨rfl, rfl, rfl⟩)
      | some e => exact Or.inr (Or.inr ⟨e, rfl, rfl, rfl⟩)

/-- The outcomes of an update of an experiment. -/
theorem Client.Update_cases (c : Client) (obj : FinetuneExperiment) :
    (∃ err, c.Update obj = (.error err, c.next (.UpdateExperiment obj)) ∧
      ((∃ f, c.fault = some f ∧ err = .Store f) ∨
        (c.fault = none ∧ findExperiment obj.key c.experiments = none ∧ err = .NotFound))) ∨
    (∃ old, c.fault = none ∧ findExperiment obj.key c.experiments = some old ∧
      c.Update obj = (.ok { obj with Status := old.Status },
        { c.next (.UpdateExperiment obj) with
          experiments := putExperiment { obj with Status := old.Status } c.experiments })) := by
  unfold Client.Update
  cases hf : c.fault with
  | some f => exact Or.inl ⟨_, rfl, Or.inl ⟨f, rfl, rfl⟩⟩
  | none =>
      cases hx : findExperiment obj.key c.experiments with
      | none => exact Or.inl ⟨_, rfl, Or.inr ⟨rfl, rfl, rfl⟩⟩
      | some e => exact Or.inr ⟨e, rfl, rfl, rfl⟩

/-- The outcomes of a status update of an experiment. -/
theorem Client.StatusUpdate_cases (c : Client) (obj : FinetuneExperiment) :
    (∃ err, c.StatusUpdate obj = (.error err, c.next (.UpdateStatus obj)) ∧
      ((∃ f, c.fault = some f ∧ err = .Store f) ∨
        (c.fault = none ∧ findExperiment obj.key c.experiments = none ∧ err = .NotFound))) ∨
    (∃ old, c.fault = none ∧ findExperiment obj.key c.experiments = some old ∧
      c.StatusUpdate obj = (.ok { old with Status := obj.Status },
        { c.next (.UpdateStatus obj) with
          experiments := putExperiment { old with Status := obj.Status } c.experiments })) := by
  unfold Client.StatusUpdate
  cases hf : c.fault with
  | some f => exact Or.inl ⟨_, rfl, Or.inl ⟨f, rfl, rfl⟩⟩
  | none =>
      cases hx : findExperiment obj.key c.experiments with
      | none => exact Or.inl ⟨_, rfl, Or.inr ⟨rfl, rfl, rfl⟩⟩
      | some e => exact Or.inr ⟨e, rfl, rfl, rfl⟩

/-- The outcomes of the tolerant create of lines 104-109. -/
theorem createJob_cases (c : Client) (obj : FinetuneJob) :
    (∃ f, c.fault = some f ∧ createJob c obj = (some (.Store f), c.next (.CreateJob obj))) ∨
    (∃ j, c.fault = none ∧ findJob obj.key c.jobs = some j ∧
      createJob c obj = (none, c.next (.CreateJob obj))) ∨
    (c.fault = none ∧ findJob obj.key c.jobs = none ∧
      createJob c obj = (none, { c.next (.CreateJob obj) with jobs := c.jobs ++ [obj] })) := by
  unfold createJob Client.Create
  cases hf : c.fault with
  | some f => exact Or.inl ⟨f, rfl, rfl⟩
  | none =>
      cases hx : findJob obj.key c.jobs with
      | none => exact Or.inr (Or.inr ⟨rfl, rfl, rfl⟩)
      | some j => exact Or.inr (Or.inl ⟨j, rfl, rfl, rfl⟩)

/-- The outcomes of a read of a job. -/
theorem Client.GetJob_cases (c : Client) (key : NamespacedName) :
    (∃ f, c.fault = some f ∧ c.GetJob key = (.error (.Store f), c.next (.GetJob key))) ∨
    (c.fault = none ∧ findJob key c.jobs = none ∧
      c.GetJob key = (.error .NotFound, c.next (.GetJob key))) ∨
    (∃ j, c.fault = none ∧ findJob key c.jobs = some j ∧
      c.GetJob key = (.ok j, c.next (.GetJob key))) := by
  unfold Client.GetJob
  cases hf : c.fault with
  | some f => exact Or.inl ⟨f, rfl, rfl⟩
  | none =>
      cases hx : findJob key c.jobs with
      | none => exact Or.inr (Or.inl ⟨rfl, rfl, rfl⟩)
      | some e => exact Or.inr (Or.inr ⟨e, rfl, rfl, rfl⟩)

/-! ### Lists without repetition -/

section AddNew

variable {α : Type} [DecidableEq α]

theorem addNew_nil (seen : List α) : addNew seen [] = seen := rfl

theorem addNew_cons (seen : List α) (x : α) (xs : List α) :
    addNew seen (x :: xs) = addNew (if x ∈ seen then seen else seen ++ [x]) xs := rfl

theorem prefix_addNew (seen xs : List α) : seen <+: addNew seen xs := by
  induction xs generalizing seen with
  | nil => exact List.prefix_refl _
  | cons x xs ih =>
      rw [addNew_cons]
      split
      · exact ih seen
      · exact (List.prefix_append seen [x]).trans (ih _)

theorem mem_addNew {seen xs : List α} {a : α} :
    a ∈ addNew seen xs ↔ a ∈ seen ∨ a ∈ xs := by
  induction xs generalizing seen with
  | nil => simp [addNew_nil]
  | cons x xs ih =>
      rw [addNew_cons, ih]
      by_cases hx : x ∈ seen
      · rw [if_pos hx]
        constructor
        · rintro (h | h)
          · exact Or.inl h
          · exact Or.inr (List.mem_cons_of_mem _ h)
        · rintro (h | h)
          · exact Or.inl h
          · rcases List.mem_cons.mp h with h | h
            · exact Or.inl (h ▸ hx)
            · exact Or.inr h
      · rw [if_neg hx]
        simp only [List.mem_append, List.mem_singleton, List.mem_cons]
        tauto

theorem addNew_of_subset {seen xs : List α} (h : ∀ x ∈ xs, x ∈ seen) : addNew seen xs = seen := by
  induction xs with
  | nil => rfl
  | cons x xs ih =>
      rw [addNew_cons, if_pos (h x (List.mem_cons_self _ _))]
      exact ih (fun y hy => h y (List.mem_cons_of_mem _ hy))

theorem nodup_addNew {seen xs : List α} (h : seen.Nodup) : (addNew seen xs).Nodup := by
  induction xs generalizing seen with
  | nil => exact h
  | cons x xs ih =>
      rw [addNew_cons]
      by_cases hx : x ∈ seen
      · rw [if_pos hx]; exact ih h
      · rw [if_neg hx]
        apply ih
        rw [List.nodup_append]
        refine ⟨h, List.nodup_singleton _, ?_⟩
        intro a ha hb
        rw [List.mem_singleton] at hb
        exact hx (hb ▸ ha)

theorem addNew_of_nodup {seen xs : List α} (hxs : xs.Nodup) (hd : ∀ x ∈ xs, x ∉ seen) :
    addNew seen xs = seen ++ xs := by
  induction xs generalizing seen with
  | nil => simp [addNew_nil]
  | cons x xs ih =>
      rw [addNew_cons, if_neg (hd x (List.mem_cons_self _ _))]
      rw [List.nodup_cons] at hxs
      rw [ih hxs.2]
      · simp
      · intro y hy hmem
        rw [List.mem_append, List.mem_singleton] at hmem
        rcases hmem with hmem | hmem
        · exact hd y (List.mem_cons_of_mem _ hy) hmem
        · exact hxs.1 (hmem ▸ hy)

theorem map_addNew {β : Type} [DecidableEq β] (f : α → β) (hf : Function.Injective f)
    (seen xs : List α) : (addNew seen xs).map f = addNew (seen.map f) (xs.map f) := by
  induction xs generalizing seen with
  | nil => rfl
  | cons x xs ih =>
      rw [List.map_cons, addNew_cons, addNew_cons, ih]
      by_cases hx : x ∈ seen
      · have hfx : f x ∈ seen.map f := List.mem_map_of_mem f hx
        rw [if_pos hx, if_pos hfx]
      · have hfx : f x ∉ seen.map f := by
          intro h
          obtain ⟨y, hy, hxy⟩ := List.mem_map.mp h
          exact hx (hf hxy ▸ hy)
        rw [if_neg hx, if_neg hfx]
        simp

end AddNew

theorem findJob_eq_none_iff (k : NamespacedName) (jobs : List FinetuneJob) :
    findJob k jobs = none ↔ k ∉ jobs.map FinetuneJob.key := by
  induction jobs with
  | nil => simp [findJob]
  | cons x xs ih =>
      by_cases h : x.key = k
      · simp [findJob, h]
      · have h2 : ¬ k = x.key := fun hk => h hk.symm
        simp only [findJob, h, if_false, ih, List.map_cons, List.mem_cons, h2, false_or]

theorem findJob_mem {k : NamespacedName} {jobs : List FinetuneJob} {j : FinetuneJob}
    (h : findJob k jobs = some j) : j ∈ jobs := by
  induction jobs with
  | nil => simp [findJob] at h
  | cons x xs ih =>
      simp only [findJob] at h
      split at h
      · cases h; exact List.mem_cons_self _ _
      · exact List.mem_cons_of_mem _ (ih h)

/-! ### One iteration of the loop -/

theorem resolvedName_eq (e : FinetuneExperiment) (js : FinetuneJobSetting) :
    (match js.Name with
      | none => e.Name ++ "-" ++ "finetunejob"
      | some n => n) = resolvedName e.Name js := by
  unfold resolvedName
  cases js.Name with
  | none => simp only [String.append_assoc]; rfl
  | some n => rfl

theorem childJob_key (e : FinetuneExperiment) (js : FinetuneJobSetting) :
    (childJob e js).key = childKey e js := rfl

theorem reconcileJob_cases (r : FinetuneExperimentReconciler) (e : FinetuneExperiment)
    (js : FinetuneJobSetting) (c : Client) :
    (r.Scheme.kinds.contains FinetuneExperimentKind = false ∧
      reconcileJob r e js c = (.error .NoKindRegistered, c)) ∨
    (r.Scheme.kinds.contains FinetuneExperimentKind = true ∧
      ((∃ f, c.fault = some f ∧
          reconcileJob r e js c = (.error (.Store f), c.next (.CreateJob (childJob e js)))) ∨
       (c.fault = none ∧
        ((∃ f, (afterCreate c (childJob e js)).fault = some f ∧
            reconcileJob r e js c =
              (.error (.Store f), (afterCreate c (childJob e js)).next (.GetJob (childKey e js)))) ∨
         (∃ j, (afterCreate c (childJob e js)).fault = none ∧
            findJob (childKey e js) (afterCreate c (childJob e js)).jobs = some j ∧
            reconcileJob r e js c =
              (.ok (recordJobStatus e j),
                (afterCreate c (childJob e js)).next (.GetJob (childKey e js)))))))) := by
  have hunf : reconcileJob r e js c =
      (match SetControllerReference e
          { Name := resolvedName e.Name js, Namespace := e.Namespace, Spec := js.Spec } r.Scheme with
        | .error err => (.error err, c)
        | .ok inst =>
            match createJob c inst with
            | (some err, c1) => (.error err, c1)
            | (none, c1) =>
                match c1.GetJob (childKey e js) with
                | (.error err, c2) => (.error err, c2)
                | (.ok existFinetuneJob, c2) => (.ok (recordJobStatus e existFinetuneJob), c2)) := by
    unfold reconcileJob
    simp only [resolvedName_eq]
    rfl
  have hdesc : SetControllerReference e
      { Name := resolvedName e.Name js, Namespace := e.Namespace, Spec := js.Spec } r.Scheme =
      if r.Scheme.kinds.contains FinetuneExperimentKind then .ok (childJob e js)
      else .error .NoKindRegistered := rfl
  rw [hunf, hdesc]
  cases hs : r.Scheme.kinds.contains FinetuneExperimentKind with
  | false => exact Or.inl ⟨rfl, by simp⟩
  | true =>
      refine Or.inr ⟨rfl, ?_⟩
      simp only [if_true]
      rcases createJob_cases c (childJob e js) with ⟨f, hf, hc⟩ | ⟨j, hf, hj, hc⟩ | ⟨hf, hj, hc⟩
      · exact Or.inl ⟨f, hf, by rw [hc]⟩
      · refine Or.inr ⟨hf, ?_⟩
        have hac : afterCreate c (childJob e js) = c.next (.CreateJob (childJob e js)) := by
          simp [afterCreate, hj]
        rw [hc, hac]
        rcases Client.GetJob_cases (c.next (.CreateJob (childJob e js))) (childKey e js) with
          ⟨f, hf2, hg⟩ | ⟨hf2, hn, hg⟩ | ⟨j2, hf2, hj2, hg⟩
        · exact Or.inl ⟨f, hf2, by simp only [hg]⟩
        · rw [Client.next_jobs, ← childJob_key, hj] at hn
          cases hn
        · exact Or.inr ⟨j2, hf2, hj2, by simp only [hg]⟩
      · refine Or.inr ⟨hf, ?_⟩
        have hac : afterCreate c (childJob e js) =
            { c.next (.CreateJob (childJob e js)) with jobs := c.jobs ++ [childJob e js] } := by
          simp [afterCreate, hj]
        rw [hc, ← hac]
        rcases Client.GetJob_cases (afterCreate c (childJob e js)) (childKey e js) with
          ⟨f, hf2, hg⟩ | ⟨hf2, hn, hg⟩ | ⟨j2, hf2, hj2, hg⟩
        · exact Or.inl ⟨f, hf2, by simp only [hg]⟩
        · rw [hac] at hn
          simp only [findJob_append, ← childJob_key, hj, findJob, if_true] at hn
          cases hn
        · exact Or.inr ⟨j2, hf2, hj2, by simp only [hg]⟩

theorem afterCreate_experiments (c : Client) (obj : FinetuneJob) :
    (afterCreate c obj).experiments = c.experiments := by
  unfold afterCreate; split <;> rfl

theorem afterCreate_calls (c : Client) (obj : FinetuneJob) :
    (afterCreate c obj).calls = c.calls ++ [.CreateJob obj] := by
  unfold afterCreate; split <;> rfl

theorem afterCreate_faults (c : Client) (obj : FinetuneJob) :
    (afterCreate c obj).faults = c.faults.tail := by
  unfold afterCreate; split <;> rfl

theorem afterCreate_jobs (c : Client) (obj : FinetuneJob) :
    (afterCreate c obj).jobs =
      match findJob obj.key c.jobs with
      | some _ => c.jobs
      | none => c.jobs ++ [obj] := by
  unfold afterCreate; split <;> rfl

theorem afterCreate_findJob {c : Client} {obj : FinetuneJob} {k : NamespacedName}
    {j : FinetuneJob} (h : findJob k c.jobs = some j) :
    findJob k (afterCreate c obj).jobs = some j := by
  rw [afterCreate_jobs]
  split
  · exact h
  · rw [findJob_append, h]

theorem withEntries_nil (e : FinetuneExperiment) : e.withEntries [] = e := by
  obtain ⟨n, ns, u, d, f, sp, ⟨st, js⟩⟩ := e
  simp [FinetuneExperiment.withEntries]

theorem withEntries_withEntries (e : FinetuneExperiment)
    (l1 l2 : List FinetuneJobStatusSetting) :
    (e.withEntries l1).withEntries l2 = e.withEntries (l1 ++ l2) := by
  simp [FinetuneExperiment.withEntries, List.append_assoc]

theorem recordJobStatus_eq (e : FinetuneExperiment) (j : FinetuneJob) :
    recordJobStatus e j =
      e.withEntries (if j.Name ∈ statusNames e.Status.JobsStatus then []
        else [{ Name := j.Name, FinetuneJobStatus := j.Status }]) := by
  unfold recordJobStatus
  by_cases h : j.Name ∈ statusNames e.Status.JobsStatus
  · have h2 : (e.Status.JobsStatus.any fun jobStatus => decide (jobStatus.Name = j.Name)) = true := by
      simp only [statusNames, List.mem_map] at h
      obtain ⟨x, hx, hxn⟩ := h
      simp only [List.any_eq_true, decide_eq_true_eq]
      exact ⟨x, hx, hxn⟩
    simp only [h2, h, if_true, withEntries_nil]
    rfl
  · have h2 : (e.Status.JobsStatus.any fun jobStatus => decide (jobStatus.Name = j.Name)) = false := by
      simp only [statusNames, List.mem_map, not_exists, not_and] at h
      simp only [List.any_eq_false, decide_eq_true_eq]
      exact h
    simp only [h2, h, if_false]
    rfl

/-! ### The loop under arbitrary faults -/

theorem jobCalls_withEntries (e : FinetuneExperiment) (l : List FinetuneJobStatusSetting) :
    jobCalls (e.withEntries l) = jobCalls e := rfl

theorem statusNames_withEntries (e : FinetuneExperiment) (l : List FinetuneJobStatusSetting) :
    statusNames (e.withEntries l).Status.JobsStatus =
      statusNames e.Status.JobsStatus ++ statusNames l := by
  simp [statusNames, FinetuneExperiment.withEntries]

theorem recordJobStatus_nodup (e : FinetuneExperiment) (j : FinetuneJob)
    (h : (statusNames e.Status.JobsStatus).Nodup) :
    (statusNames (recordJobStatus e j).Status.JobsStatus).Nodup := by
  rw [recordJobStatus_eq, statusNames_withEntries]
  by_cases hm : j.Name ∈ statusNames e.Status.JobsStatus
  · rw [if_pos hm]
    simpa [statusNames] using h
  · rw [if_neg hm]
    have hs : statusNames [({ Name := j.Name, FinetuneJobStatus := j.Status } :
        FinetuneJobStatusSetting)] = [j.Name] := rfl
    rw [hs, List.nodup_append]
    refine ⟨h, List.nodup_singleton _, ?_⟩
    intro a ha hb
    simp only [List.mem_singleton] at hb
    subst hb
    exact hm ha

theorem reconcileJobs_spec (r : FinetuneExperimentReconciler) (js : List FinetuneJobSetting)
    (e : FinetuneExperiment) (c : Client) :
    ∃ new, (reconcileJobs r js e c).2.calls = c.calls ++ new ∧
      new <+: js.flatMap (jobCalls e) ∧
      (reconcileJobs r js e c).2.experiments = c.experiments ∧
      (∀ k j, findJob k c.jobs = some j → findJob k (reconcileJobs r js e c).2.jobs = some j) ∧
      (∀ e', (reconcileJobs r js e c).1 = .ok e' →
        new = js.flatMap (jobCalls e) ∧ (∃ l, e' = e.withEntries l) ∧
        ((statusNames e.Status.JobsStatus).Nodup → (statusNames e'.Status.JobsStatus).Nodup)) := by
  induction js generalizing e c with
  | nil =>
      refine ⟨[], by simp [reconcileJobs], by simp, rfl, fun k j h => h, ?_⟩
      intro e' h
      simp only [reconcileJobs, Except.ok.injEq] at h
      subst h
      exact ⟨rfl, ⟨[], (withEntries_nil e).symm⟩, fun h => h⟩
  | cons x rest ih =>
      simp only [reconcileJobs, List.flatMap_cons]
      rcases reconcileJob_cases r e x c with ⟨_, hr⟩ | ⟨_, ⟨f, _, hr⟩ | ⟨_, ⟨f, _, hr⟩ | ⟨j, _, hj, hr⟩⟩⟩
      · rw [hr]
        exact ⟨[], by simp, List.nil_prefix, rfl, fun k j h => h, fun e' h => by cases h⟩
      · rw [hr]
        exact ⟨[.CreateJob (childJob e x)], rfl, ⟨_, rfl⟩, rfl, fun k j h => h,
          fun e' h => by cases h⟩
      · rw [hr]
        refine ⟨jobCalls e x, ?_, List.prefix_append _ _, ?_, ?_, fun e' h => by cases h⟩
        · simp [afterCreate_calls, jobCalls]
        · simp [afterCreate_experiments]
        · intro k j h
          exact afterCreate_findJob h
      · rw [hr]
        obtain ⟨new, hcalls, hpre, hexp, hjobs, hok⟩ :=
          ih (recordJobStatus e j) ((afterCreate c (childJob e x)).next (.GetJob (childKey e x)))
        have hjc : jobCalls (recordJobStatus e j) = jobCalls e := by
          rw [recordJobStatus_eq]; rfl
        rw [hjc] at hpre hok
        refine ⟨jobCalls e x ++ new, ?_, ?_, ?_, ?_, ?_⟩
        · rw [hcalls]
          simp [afterCreate_calls, jobCalls]
        · exact (List.prefix_append_right_inj _).mpr hpre
        · rw [hexp]
          simp [afterCreate_experiments]
        · intro k j0 h
          exact hjobs k j0 (afterCreate_findJob h)
        · intro e' h
          obtain ⟨h1, ⟨l, h2⟩, h3⟩ := hok e' h
          refine ⟨by rw [h1], ?_, fun hn => h3 (recordJobStatus_nodup e j hn)⟩
          rw [recordJobStatus_eq, withEntries_withEntries] at h2
          exact ⟨_, h2⟩

/-! ### The loop when no call is faulted -/

theorem reconcileJob_nofault (r : FinetuneExperimentReconciler) (e : FinetuneExperiment)
    (x : FinetuneJobSetting) (c : Client) (hf : c.faults = [])
    (hs : r.Scheme.kinds.contains FinetuneExperimentKind = true) :
    ∃ j, findJob (childKey e x) (afterCreate c (childJob e x)).jobs = some j ∧
      reconcileJob r e x c = (.ok (recordJobStatus e j),
        (afterCreate c (childJob e x)).next (.GetJob (childKey e x))) := by
  have hf0 : c.fault = none := Client.fault_of_nil hf
  have hf1 : (afterCreate c (childJob e x)).fault = none :=
    Client.fault_of_nil (by rw [afterCreate_faults, hf]; rfl)
  rcases reconcileJob_cases r e x c with ⟨h, _⟩ | ⟨_, ⟨f, h, _⟩ | ⟨_, ⟨f, h, _⟩ | ⟨j, _, hj, hr⟩⟩⟩
  · rw [hs] at h; cases h
  · rw [hf0] at h; cases h
  · rw [hf1] at h; cases h
  · exact ⟨j, hj, hr⟩

theorem afterCreate_keys (c : Client) (obj : FinetuneJob) :
    (afterCreate c obj).jobs.map FinetuneJob.key =
      if obj.key ∈ c.jobs.map FinetuneJob.key then c.jobs.map FinetuneJob.key
      else c.jobs.map FinetuneJob.key ++ [obj.key] := by
  rw [afterCreate_jobs]
  cases h : findJob obj.key c.jobs with
  | none =>
      rw [if_neg ((findJob_eq_none_iff _ _).mp h)]
      simp
  | some j =>
      have h2 : obj.key ∈ c.jobs.map FinetuneJob.key := by
        by_contra hn
        rw [← findJob_eq_none_iff, h] at hn
        cases hn
      rw [if_pos h2]

theorem afterCreate_extends (c : Client) (obj : FinetuneJob) :
    c.jobs <+: (afterCreate c obj).jobs := by
  rw [afterCreate_jobs]
  split
  · exact List.prefix_refl _
  · exact List.prefix_append _ _

theorem afterCreate_mem {c : Client} {obj j : FinetuneJob} (h : j ∈ (afterCreate c obj).jobs) :
    j ∈ c.jobs ∨ j = obj := by
  rw [afterCreate_jobs] at h
  split at h
  · exact Or.inl h
  · rw [List.mem_append, List.mem_singleton] at h
    exact h

theorem reconcileJobs_nofault (r : FinetuneExperimentReconciler) (js : List FinetuneJobSetting)
    (e : FinetuneExperiment) (c : Client) (hf : c.faults = [])
    (hs : r.Scheme.kinds.contains FinetuneExperimentKind = true ∨ js = []) :
    ∃ l c1, reconcileJobs r js e c = (.ok (e.withEntries l), c1) ∧
      c1.faults = [] ∧ c1.experiments = c.experiments ∧
      c1.calls = c.calls ++ js.flatMap (jobCalls e) ∧
      c.jobs <+: c1.jobs ∧
      c1.jobs.map FinetuneJob.key =
        addNew (c.jobs.map FinetuneJob.key) (js.map (childKey e)) ∧
      statusNames (e.withEntries l).Status.JobsStatus =
        addNew (statusNames e.Status.JobsStatus) (js.map (resolvedName e.Name)) ∧
      (∀ k j, findJob k c.jobs = some j → findJob k c1.jobs = some j) ∧
      (∀ entry ∈ l, ∃ j, findJob { Namespace := e.Namespace, Name := entry.Name } c1.jobs = some j ∧
        entry.FinetuneJobStatus = j.Status) ∧
      (∀ j ∈ c1.jobs, j ∈ c.jobs ∨ ∃ x ∈ js, j = childJob e x) := by
  induction js generalizing e c with
  | nil =>
      refine ⟨[], c, ?_, hf, rfl, by simp, List.prefix_refl _, rfl, ?_, fun k j h => h, ?_,
        fun j h => Or.inl h⟩
      · simp [reconcileJobs, withEntries_nil]
      · rw [withEntries_nil]; rfl
      · intro entry h; cases h
  | cons x rest ih =>
      have hs : r.Scheme.kinds.contains FinetuneExperimentKind = true := by
        rcases hs with h | h
        · exact h
        · cases h
      obtain ⟨j, hj, hr⟩ := reconcileJob_nofault r e x c hf hs
      have hjk := findJob_key hj
      have hjname : j.Name = resolvedName e.Name x := congrArg NamespacedName.Name hjk
      have hf1 : ((afterCreate c (childJob e x)).next (.GetJob (childKey e x))).faults = [] := by
        simp [afterCreate_faults, hf]
      obtain ⟨l, c1, hR, hfaults, hexp, hcalls, hpre, hkeys, hnames, hjobs, hent, hmem⟩ :=
        ih (recordJobStatus e j) ((afterCreate c (childJob e x)).next (.GetJob (childKey e x))) hf1
          (Or.inl hs)
      obtain ⟨l0, hl0, hrec⟩ : ∃ l0, l0 = (if j.Name ∈ statusNames e.Status.JobsStatus then []
          else [({ Name := j.Name, FinetuneJobStatus := j.Status } : FinetuneJobStatusSetting)]) ∧
          recordJobStatus e j = e.withEntries l0 := ⟨_, rfl, recordJobStatus_eq e j⟩
      rw [hrec] at hR hcalls hkeys hnames hent hmem
      rw [withEntries_withEntries] at hR hnames
      refine ⟨l0 ++ l, c1, ?_, hfaults, ?_, ?_, ?_, ?_, ?_, ?_, ?_, ?_⟩
      · simp only [reconcileJobs, hr]
        rw [hrec]
        exact hR
      · rw [hexp]; simp [afterCreate_experiments]
      · rw [hcalls]
        simp [afterCreate_calls, jobCalls, List.flatMap_cons]
        rfl
      · exact (afterCreate_extends c (childJob e x)).trans hpre
      · rw [hkeys, List.map_cons, addNew_cons, Client.next_jobs, afterCreate_keys]
        rfl
      · rw [hnames, List.map_cons, addNew_cons, statusNames_withEntries, hl0, hjname]
        by_cases hm : resolvedName e.Name x ∈ statusNames e.Status.JobsStatus
        · simp only [hm, if_true]
          simp [statusNames]
          rfl
        · simp only [hm, if_false]
          rfl
      · intro k j0 h
        exact hjobs k j0 (afterCreate_findJob h)
      · intro entry hentry
        rw [List.mem_append] at hentry
        rcases hentry with h | h
        · rw [hl0] at h
          by_cases hm : j.Name ∈ statusNames e.Status.JobsStatus
          · rw [if_pos hm] at h; cases h
          · rw [if_neg hm, List.mem_singleton] at h
            subst h
            refine ⟨j, hjobs _ _ ?_, rfl⟩
            have hkey : ({ Namespace := e.Namespace, Name := j.Name } : NamespacedName) =
                childKey e x := by
              rw [hjname]; rfl
            rw [hkey]
            exact hj
        · exact hent entry h
      · intro j0 hj0
        rcases hmem j0 hj0 with h | ⟨y, hy, h⟩
        · rcases afterCreate_mem h with h | h
          · exact Or.inl h
          · exact Or.inr ⟨x, List.mem_cons_self _ _, h⟩
        · exact Or.inr ⟨y, List.mem_cons_of_mem _ hy, h⟩

/-! ### The phases of `Reconcile` -/

theorem persistStatus_cases (c : Client) (obj : FinetuneExperiment) :
    (∃ err, persistStatus c obj = (HandlerErr (some err), c.next (.UpdateStatus obj)) ∧
      ((∃ f, c.fault = some f ∧ err = .Store f) ∨
        (c.fault = none ∧ findExperiment obj.key c.experiments = none ∧ err = .NotFound))) ∨
    (∃ old, c.fault = none ∧ findExperiment obj.key c.experiments = some old ∧
      persistStatus c obj = (HandlerErr none,
        { c.next (.UpdateStatus obj) with
          experiments := putExperiment { old with Status := obj.Status } c.experiments })) := by
  unfold persistStatus
  rcases Client.StatusUpdate_cases c obj with ⟨err, h, hc⟩ | ⟨old, hf, ho, h⟩
  · exact Or.inl ⟨err, by rw [h], hc⟩
  · exact Or.inr ⟨old, hf, ho, by rw [h]⟩

theorem reconcileDelete_cases (e : FinetuneExperiment) (c : Client) :
    (ContainsFinalizer e FinetuneGroupFinalizer = false ∧ reconcileDelete e c = (HandlerErr none, c)) ∨
    (ContainsFinalizer e FinetuneGroupFinalizer = true ∧
      ((∃ err, reconcileDelete e c = (HandlerErr (some err),
            c.next (.UpdateExperiment (RemoveFinalizer e FinetuneGroupFinalizer))) ∧
          ((∃ f, c.fault = some f ∧ err = .Store f) ∨
            (c.fault = none ∧ findExperiment e.key c.experiments = none ∧ err = .NotFound))) ∨
       (∃ old, c.fault = none ∧ findExperiment e.key c.experiments = some old ∧
          reconcileDelete e c = (HandlerErr none,
            { c.next (.UpdateExperiment (RemoveFinalizer e FinetuneGroupFinalizer)) with
              experiments := putExperiment
                { RemoveFinalizer e FinetuneGroupFinalizer with Status := old.Status }
                c.experiments })))) := by
  unfold reconcileDelete
  cases hfin : ContainsFinalizer e FinetuneGroupFinalizer with
  | false => exact Or.inl ⟨rfl, by simp⟩
  | true =>
      refine Or.inr ⟨rfl, ?_⟩
      simp only [if_true]
      rcases Client.Update_cases c (RemoveFinalizer e FinetuneGroupFinalizer) with
        ⟨err, h, hc⟩ | ⟨old, hf, ho, h⟩
      · exact Or.inl ⟨err, by rw [h], hc⟩
      · exact Or.inr ⟨old, hf, ho, by rw [h]⟩

/-- The run of `Reconcile` once the initial read has found the experiment. -/
theorem Reconcile_found {r : FinetuneExperimentReconciler} {req : Request} {c : Client}
    {e : FinetuneExperiment} (hf : c.fault = none)
    (he : findExperiment req.NamespacedName c.experiments = some e) :
    Reconcile r req c =
      if e.DeletionTimestamp ≠ none then
        reconcileDelete e (c.next (.GetExperiment req.NamespacedName))
      else if !ContainsFinalizer e FinetuneGroupFinalizer then
        match (c.next (.GetExperiment req.NamespacedName)).Update
            (AddFinalizer e FinetuneGroupFinalizer) with
        | (.error err, c2) => (HandlerErr (some err), c2)
        | (.ok finetuneExperiment, c2) => reconcileLive r finetuneExperiment c2
      else reconcileLive r e (c.next (.GetExperiment req.NamespacedName)) := by
  have hget : c.Get req.NamespacedName = (.ok e, c.next (.GetExperiment req.NamespacedName)) := by
    simp [Client.Get, hf, he]
  unfold Reconcile
  rw [hget]

theorem Reconcile_fault {r : FinetuneExperimentReconciler} {req : Request} {c : Client}
    {f : Fault} (hf : c.fault = some f) :
    Reconcile r req c =
      (HandlerErr (some (.Store f)), c.next (.GetExperiment req.NamespacedName)) := by
  have hget : c.Get req.NamespacedName =
      (.error (.Store f), c.next (.GetExperiment req.NamespacedName)) := by
    simp [Client.Get, hf]
  unfold Reconcile
  rw [hget]
  rfl

theorem Reconcile_notFound {r : FinetuneExperimentReconciler} {req : Request} {c : Client}
    (hf : c.fault = none) (he : findExperiment req.NamespacedName c.experiments = none) :
    Reconcile r req c = (HandlerErr none, c.next (.GetExperiment req.NamespacedName)) := by
  have hget : c.Get req.NamespacedName =
      (.error .NotFound, c.next (.GetExperiment req.NamespacedName)) := by
    simp [Client.Get, hf, he]
  unfold Reconcile
  rw [hget]
  rfl

theorem callsOf_eq {r : FinetuneExperimentReconciler} {req : Request} {c : Client}
    {new : List Call} (h : (Reconcile r req c).2.calls = c.calls ++ new) :
    callsOf r req c = new := by
  simp [callsOf, h]

theorem containsFinalizer_removeFinalizer (e : FinetuneExperiment) (f : String) :
    ContainsFinalizer (RemoveFinalizer e f) f = false := by
  simp [ContainsFinalizer, RemoveFinalizer]

theorem containsFinalizer_addFinalizer (e : FinetuneExperiment) (f : String) :
    ContainsFinalizer (AddFinalizer e f) f = true := by
  unfold AddFinalizer
  by_cases h : ContainsFinalizer e f = true
  · simp [h]
  · simp only [h]
    simp [ContainsFinalizer]

/-- The outcomes of `Reconcile` for an experiment with the deletion marker that the
initial read has found. -/
theorem Reconcile_deleting_cases {r : FinetuneExperimentReconciler} {req : Request}
    {c : Client} {e : FinetuneExperiment} (hf : c.fault = none)
    (he : findExperiment req.NamespacedName c.experiments = some e)
    (hdel : e.DeletionTimestamp ≠ none) :
    (ContainsFinalizer e FinetuneGroupFinalizer = false ∧
      Reconcile r req c = (HandlerErr none, c.next (.GetExperiment req.NamespacedName))) ∨
    (ContainsFinalizer e FinetuneGroupFinalizer = true ∧
      ((∃ f, c.faultAt 1 = some f ∧
          Reconcile r req c = (HandlerErr (some (.Store f)),
            (c.next (.GetExperiment req.NamespacedName)).next
              (.UpdateExperiment (RemoveFinalizer e FinetuneGroupFinalizer)))) ∨
       (c.faultAt 1 = none ∧
          Reconcile r req c = (HandlerErr none,
            { (c.next (.GetExperiment req.NamespacedName)).next
                (.UpdateExperiment (RemoveFinalizer e FinetuneGroupFinalizer)) with
              experiments :=
                putExperiment (RemoveFinalizer e FinetuneGroupFinalizer) c.experiments })))) := by
  have hk : e.key = req.NamespacedName := findExperiment_key he
  have hR := Reconcile_found (r := r) hf he
  rw [if_pos hdel] at hR
  rcases reconcileDelete_cases e (c.next (.GetExperiment req.NamespacedName)) with
    ⟨hfin, hd⟩ | ⟨hfin, ⟨err, hd, hcase⟩ | ⟨old, hf1, hold, hd⟩⟩
  · exact Or.inl ⟨hfin, hR.trans hd⟩
  · refine Or.inr ⟨hfin, Or.inl ?_⟩
    rcases hcase with ⟨f, hf2, herr⟩ | ⟨_, hnone, _⟩
    · subst herr
      rw [Client.fault_eq_faultAt, Client.next_faultAt] at hf2
      exact ⟨f, hf2, hR.trans hd⟩
    · rw [hk, Client.next_experiments, he] at hnone
      cases hnone
  · refine Or.inr ⟨hfin, Or.inr ⟨?_, ?_⟩⟩
    · rw [Client.fault_eq_faultAt, Client.next_faultAt] at hf1
      exact hf1
    · rw [hk, Client.next_experiments, he] at hold
      cases hold
      exact hR.trans hd

theorem findExperiment_put_removeFinalizer {req : Request} {c : Client} {e : FinetuneExperiment}
    (he : findExperiment req.NamespacedName c.experiments = some e) :
    findExperiment req.NamespacedName
      (putExperiment (RemoveFinalizer e FinetuneGroupFinalizer) c.experiments) =
        some (RemoveFinalizer e FinetuneGroupFinalizer) := by
  have hk : e.key = req.NamespacedName := findExperiment_key he
  have hke : (RemoveFinalizer e FinetuneGroupFinalizer).key = req.NamespacedName := hk
  rw [findExperiment_put, hke, if_pos rfl, he]
  rfl

/-- C6: the deletion branch.  For an experiment in the store whose deletion marker is
set, one `Reconcile` issues no job call and no status write.  If the finalizer is
present and neither the read nor the update is faulted, `Reconcile` succeeds and the
stored experiment is the fetched one without the finalizer.  If the finalizer is
absent and the read is not faulted, `Reconcile` succeeds, issues no write and leaves
the store as it was.  Neither `spec.pending` nor the JobSpec list is constrained. -/
theorem Reconcile_deletion_branch (r : FinetuneExperimentReconciler) (req : Request)
    (c : Client) (e : FinetuneExperiment)
    (he : findExperiment req.NamespacedName c.experiments = some e)
    (hdel : e.DeletionTimestamp ≠ none) :
    (∀ call ∈ callsOf r req c, call.isJobCall = false ∧ ∀ obj, call ≠ .UpdateStatus obj) ∧
    (ContainsFinalizer e FinetuneGroupFinalizer = true → c.faultAt 0 = none →
      c.faultAt 1 = none →
        (Reconcile r req c).1 = HandlerErr none ∧
        findExperiment req.NamespacedName (Reconcile r req c).2.experiments =
          some (RemoveFinalizer e FinetuneGroupFinalizer) ∧
        ContainsFinalizer (RemoveFinalizer e FinetuneGroupFinalizer) FinetuneGroupFinalizer
          = false) ∧
    (ContainsFinalizer e FinetuneGroupFinalizer = false → c.faultAt 0 = none →
        (Reconcile r req c).1 = HandlerErr none ∧
        (∀ call ∈ callsOf r req c, call.isWrite = false) ∧
        (Reconcile r req c).2.experiments = c.experiments ∧
        (Reconcile r req c).2.jobs = c.jobs) := by
  cases hf : c.fault with
  | some f =>
      have hR := @Reconcile_fault r req _ _ hf
      have hcalls : callsOf r req c = [.GetExperiment req.NamespacedName] :=
        callsOf_eq (by rw [hR]; rfl)
      rw [Client.fault_eq_faultAt] at hf
      refine ⟨?_, ?_, ?_⟩
      · intro call hc
        rw [hcalls, List.mem_singleton] at hc
        subst hc
        exact ⟨rfl, fun obj h => by cases h⟩
      · intro _ h0
        rw [h0] at hf
        cases hf
      · intro _ h0
        rw [h0] at hf
        cases hf
  | none =>
      rcases Reconcile_deleting_cases (r := r) hf he hdel with
        ⟨hfin, hR⟩ | ⟨hfin, ⟨f, hf1, hR⟩ | ⟨hf1, hR⟩⟩
      · have hcalls : callsOf r req c = [.GetExperiment req.NamespacedName] :=
          callsOf_eq (by rw [hR]; rfl)
        refine ⟨?_, ?_, ?_⟩
        · intro call hc
          rw [hcalls, List.mem_singleton] at hc
          subst hc
          exact ⟨rfl, fun obj h => by cases h⟩
        · intro h
          rw [hfin] at h
          cases h
        · intro _ _
          refine ⟨by rw [hR], ?_, by rw [hR]; rfl, by rw [hR]; rfl⟩
          intro call hc
          rw [hcalls, List.mem_singleton] at hc
          subst hc
          rfl
      · have hcalls : callsOf r req c = [.GetExperiment req.NamespacedName,
            .UpdateExperiment (RemoveFinalizer e FinetuneGroupFinalizer)] :=
          callsOf_eq (by rw [hR]; simp)
        refine ⟨?_, ?_, ?_⟩
        · intro call hc
          rw [hcalls] at hc
          simp only [List.mem_cons, List.mem_singleton, List.not_mem_nil, or_false] at hc
          rcases hc with hc | hc <;> subst hc <;> exact ⟨rfl, fun obj h => by cases h⟩
        · intro _ _ h1
          rw [h1] at hf1
          cases hf1
        · intro h
          rw [hfin] at h
          cases h
      · have hcalls : callsOf r req c = [.GetExperiment req.NamespacedName,
            .UpdateExperiment (RemoveFinalizer e FinetuneGroupFinalizer)] :=
          callsOf_eq (by rw [hR]; simp)
        refine ⟨?_, ?_, ?_⟩
        · intro call hc
          rw [hcalls] at hc
          simp only [List.mem_cons, List.mem_singleton, List.not_mem_nil, or_false] at hc
          rcases hc with hc | hc <;> subst hc <;> exact ⟨rfl, fun obj h => by cases h⟩
        · intro _ _ _
          refine ⟨by rw [hR], ?_, containsFinalizer_removeFinalizer _ _⟩
          rw [hR]
          exact findExperiment_put_removeFinalizer he
        · intro h
          rw [hfin] at h
          cases h

/-- The outcomes of lines 80-140 under any fault script: the run stops inside the
loop, or the loop runs to its end and the status write fails, or the status write
succeeds. -/
theorem reconcileLive_cases (r : FinetuneExperimentReconciler) (e : FinetuneExperiment)
    (c : Client) :
    ∃ new,
      new <+: (if e.Spec.Pending then [] else e.Spec.FinetuneJobs.flatMap (jobCalls e)) ∧
      ((∃ err c1, e.Spec.Pending = false ∧
          reconcileLive r e c = (HandlerErr (some err), c1) ∧
          c1.calls = c.calls ++ new ∧ c1.experiments = c.experiments ∧
          (∀ k j, findJob k c.jobs = some j → findJob k c1.jobs = some j)) ∨
       (∃ l obj,
          obj = { e.withEntries l with
                  Status := { (e.withEntries l).Status with
                    State := if e.Spec.Pending then FinetuneExperimentPending
                             else FinetuneExperimentProcessing } } ∧
          (e.Spec.Pending = true → l = []) ∧
          ((statusNames e.Status.JobsStatus).Nodup → (statusNames obj.Status.JobsStatus).Nodup) ∧
          new = (if e.Spec.Pending then [] else e.Spec.FinetuneJobs.flatMap (jobCalls e)) ∧
          ((∃ err c1, reconcileLive r e c = (HandlerErr (some err), c1) ∧
              c1.calls = c.calls ++ new ++ [.UpdateStatus obj] ∧
              c1.experiments = c.experiments ∧
              (∀ k j, findJob k c.jobs = some j → findJob k c1.jobs = some j)) ∨
           (∃ old c1, findExperiment e.key c.experiments = some old ∧
              reconcileLive r e c = (HandlerErr none, c1) ∧
              c1.calls = c.calls ++ new ++ [.UpdateStatus obj] ∧
              c1.experiments = putExperiment { old with Status := obj.Status } c.experiments ∧
              (∀ k j, findJob k c.jobs = some j → findJob k c1.jobs = some j))))) := by
  cases hp : e.Spec.Pending with
  | true =>
      have hR : reconcileLive r e c = persistStatus c
          { e with Status := { e.Status with State := FinetuneExperimentPending } } := by
        simp [reconcileLive, hp]
      refine ⟨[], by simp, Or.inr ⟨[], _, rfl, fun _ => rfl, ?_, by simp, ?_⟩⟩
      · intro h
        simpa [withEntries_nil] using h
      · simp only [withEntries_nil, if_true]
        rcases persistStatus_cases c
            { e with Status := { e.Status with State := FinetuneExperimentPending } } with
          ⟨err, h, _⟩ | ⟨old, _, hold, h⟩
        · exact Or.inl ⟨err, _, hR.trans h, by simp, rfl, fun k j h => h⟩
        · exact Or.inr ⟨old, _, hold, hR.trans h, by simp, rfl, fun k j h => h⟩
  | false =>
      obtain ⟨new, hcalls, hpre, hexp, hjobs, hok⟩ :=
        reconcileJobs_spec r e.Spec.FinetuneJobs e c
      refine ⟨new, by simpa using hpre, ?_⟩
      rcases hres : reconcileJobs r e.Spec.FinetuneJobs e c with ⟨res, c1⟩
      rw [hres] at hcalls hexp hjobs hok
      simp only at hcalls hexp hjobs hok
      cases res with
      | error err =>
          refine Or.inl ⟨err, c1, rfl, ?_, hcalls, hexp, hjobs⟩
          simp [reconcileLive, hp, hres]
      | ok e1 =>
          obtain ⟨hnew, ⟨l, hl⟩, hnodup⟩ := hok e1 rfl
          subst hl
          have hR : reconcileLive r e c = persistStatus c1
              { e.withEntries l with
                Status := { (e.withEntries l).Status with
                  State := FinetuneExperimentProcessing } } := by
            simp [reconcileLive, hp, hres]
          refine Or.inr ⟨l, _, rfl, fun h => Bool.noConfusion h, ?_, (by simpa using hnew), ?_⟩
          · exact hnodup
          · simp only [Bool.false_eq_true, if_false]
            rcases persistStatus_cases c1
                { e.withEntries l with
                  Status := { (e.withEntries l).Status with
                    State := FinetuneExperimentProcessing } } with
              ⟨err, h, _⟩ | ⟨old, _, hold, h⟩
            · exact Or.inl ⟨err, _, hR.trans h, by simp [hcalls], hexp, hjobs⟩
            · refine Or.inr ⟨old, _, ?_, hR.trans h, by simp [hcalls], by simp [hexp], hjobs⟩
              rw [hexp] at hold
              exact hold

theorem addFinalizer_of_contains {e : FinetuneExperiment} {f : String}
    (h : ContainsFinalizer e f = true) : AddFinalizer e f = e := by
  simp [AddFinalizer, h]

theorem addFinalizer_key (e : FinetuneExperiment) (f : String) :
    (AddFinalizer e f).key = e.key := by
  unfold AddFinalizer
  split <;> rfl

theorem addFinalizer_status (e : FinetuneExperiment) (f : String) :
    (AddFinalizer e f).Status = e.Status := by
  unfold AddFinalizer
  split <;> rfl

theorem addFinalizer_spec (e : FinetuneExperiment) (f : String) :
    (AddFinalizer e f).Spec = e.Spec := by
  unfold AddFinalizer
  split <;> rfl

theorem addFinalizer_name (e : FinetuneExperiment) (f : String) :
    (AddFinalizer e f).Name = e.Name := by
  unfold AddFinalizer
  split <;> rfl

theorem addFinalizer_namespace (e : FinetuneExperiment) (f : String) :
    (AddFinalizer e f).Namespace = e.Namespace := by
  unfold AddFinalizer
  split <;> rfl

theorem addFinalizer_uid (e : FinetuneExperiment) (f : String) :
    (AddFinalizer e f).UID = e.UID := by
  unfold AddFinalizer
  split <;> rfl

theorem with_status_self (e : FinetuneExperiment) : { e with Status := e.Status } = e := by
  cases e; rfl

/-- The run of `Reconcile` for a live experiment that the initial read has found: either the
update that adds the finalizer fails, or lines 80-140 run on the experiment with the
finalizer, which is then also what the store holds. -/
theorem Reconcile_live {r : FinetuneExperimentReconciler} {req : Request} {c : Client}
    {e : FinetuneExperiment} (hf : c.fault = none)
    (he : findExperiment req.NamespacedName c.experiments = some e)
    (hlive : e.DeletionTimestamp = none) :
    (∃ err, ContainsFinalizer e FinetuneGroupFinalizer = false ∧
      (c.next (.GetExperiment req.NamespacedName)).fault = some err ∧
      Reconcile r req c = (HandlerErr (some (.Store err)),
        (c.next (.GetExperiment req.NamespacedName)).next
          (.UpdateExperiment (AddFinalizer e FinetuneGroupFinalizer)))) ∨
    (∃ cA, Reconcile r req c = reconcileLive r (AddFinalizer e FinetuneGroupFinalizer) cA ∧
      cA.calls = c.calls ++ (.GetExperiment req.NamespacedName ::
        (if ContainsFinalizer e FinetuneGroupFinalizer then []
          else [.UpdateExperiment (AddFinalizer e FinetuneGroupFinalizer)])) ∧
      cA.jobs = c.jobs ∧
      cA.experiments = putExperiment (AddFinalizer e FinetuneGroupFinalizer) c.experiments ∧
      cA.faults = (if ContainsFinalizer e FinetuneGroupFinalizer then c.faults.tail
          else c.faults.tail.tail) ∧
      (ContainsFinalizer e FinetuneGroupFinalizer = true → cA.experiments = c.experiments) ∧
      findExperiment req.NamespacedName cA.experiments =
        some (AddFinalizer e FinetuneGroupFinalizer)) := by
  have hk : e.key = req.NamespacedName := findExperiment_key he
  have hR := Reconcile_found (r := r) hf he
  rw [if_neg (by simp [hlive])] at hR
  have hfindA : findExperiment req.NamespacedName
      (putExperiment (AddFinalizer e FinetuneGroupFinalizer) c.experiments) =
        some (AddFinalizer e FinetuneGroupFinalizer) := by
    rw [findExperiment_put, addFinalizer_key, hk, if_pos rfl, he]
    rfl
  cases hfin : ContainsFinalizer e FinetuneGroupFinalizer with
  | true =>
      rw [hfin] at hR
      simp only [Bool.not_true, Bool.false_eq_true, if_false] at hR
      have hA := addFinalizer_of_contains hfin
      have hput : putExperiment e c.experiments = c.experiments :=
        putExperiment_self (by rw [hk]; exact he)
      refine Or.inr ⟨c.next (.GetExperiment req.NamespacedName), ?_, by simp, rfl, ?_, by simp,
        fun _ => rfl, ?_⟩
      · rw [hR, hA]
      · rw [hA, hput]; rfl
      · rw [hA]; exact he
  | false =>
      rw [hfin] at hR
      simp only [Bool.not_false, if_true] at hR
      rcases Client.Update_cases (c.next (.GetExperiment req.NamespacedName))
          (AddFinalizer e FinetuneGroupFinalizer) with
        ⟨err, h, ⟨f, hf2, herr⟩ | ⟨_, hnone, _⟩⟩ | ⟨old, hf1, hold, h⟩
      · subst herr
        exact Or.inl ⟨f, rfl, hf2, by rw [hR, h]⟩
      · rw [addFinalizer_key, hk, Client.next_experiments, he] at hnone
        cases hnone
      · rw [addFinalizer_key, hk, Client.next_experiments, he] at hold
        cases hold
        rw [← addFinalizer_status e FinetuneGroupFinalizer, with_status_self] at h
        refine Or.inr ⟨{ (c.next (.GetExperiment req.NamespacedName)).next
              (.UpdateExperiment (AddFinalizer e FinetuneGroupFinalizer)) with
            experiments := putExperiment (AddFinalizer e FinetuneGroupFinalizer) c.experiments },
          ?_, by simp, rfl, rfl, by simp, ?_, ?_⟩
        · rw [hR, h]; rfl
        · intro h; cases h
        · exact hfindA

theorem liveCalls_addFinalizer (e : FinetuneExperiment) (f : String) :
    liveCalls (AddFinalizer e f) = liveCalls e := by
  unfold AddFinalizer
  split <;> rfl

theorem with_status_liveResult (e : FinetuneExperiment) (l : List FinetuneJobStatusSetting) :
    { e with Status := (liveResult e l).Status } = liveResult e l := rfl

/-- The outcomes of `Reconcile` for a live experiment that the initial read has
found, under any fault script: (A) the update that adds the finalizer is faulted,
(B) the run stops inside the loop, (C) the loop runs to its end and the status write
fails, (D) the status write succeeds. -/
theorem Reconcile_live_cases {r : FinetuneExperimentReconciler} {req : Request} {c : Client}
    {e : FinetuneExperiment} (hf : c.fault = none)
    (he : findExperiment req.NamespacedName c.experiments = some e)
    (hlive : e.DeletionTimestamp = none) :
    (∃ f c1, ContainsFinalizer e FinetuneGroupFinalizer = false ∧
      Reconcile r req c = (HandlerErr (some (.Store f)), c1) ∧
      c1.calls = c.calls ++ headCalls req e ∧
      c1.experiments = c.experiments ∧ c1.jobs = c.jobs) ∨
    (∃ err new c1, e.Spec.Pending = false ∧ new <+: liveCalls e ∧
      Reconcile r req c = (HandlerErr (some err), c1) ∧
      c1.calls = c.calls ++ headCalls req e ++ new ∧
      c1.experiments = putExperiment (AddFinalizer e FinetuneGroupFinalizer) c.experiments ∧
      (∀ k j, findJob k c.jobs = some j → findJob k c1.jobs = some j)) ∨
    (∃ l, (e.Spec.Pending = true → l = []) ∧
      ((statusNames e.Status.JobsStatus).Nodup →
        (statusNames (liveResult (AddFinalizer e FinetuneGroupFinalizer) l).Status.JobsStatus).Nodup) ∧
      ((∃ err c1, Reconcile r req c = (HandlerErr (some err), c1) ∧
          c1.calls = c.calls ++ headCalls req e ++ liveCalls e ++
            [.UpdateStatus (liveResult (AddFinalizer e FinetuneGroupFinalizer) l)] ∧
          c1.experiments = putExperiment (AddFinalizer e FinetuneGroupFinalizer) c.experiments ∧
          (∀ k j, findJob k c.jobs = some j → findJob k c1.jobs = some j)) ∨
       (∃ c1, Reconcile r req c = (HandlerErr none, c1) ∧
          c1.calls = c.calls ++ headCalls req e ++ liveCalls e ++
            [.UpdateStatus (liveResult (AddFinalizer e FinetuneGroupFinalizer) l)] ∧
          c1.experiments = putExperiment (liveResult (AddFinalizer e FinetuneGroupFinalizer) l)
            (putExperiment (AddFinalizer e FinetuneGroupFinalizer) c.experiments) ∧
          findExperiment req.NamespacedName c1.experiments =
            some (liveResult (AddFinalizer e FinetuneGroupFinalizer) l) ∧
          (∀ k j, findJob k c.jobs = some j → findJob k c1.jobs = some j)))) := by
  have hk : e.key = req.NamespacedName := findExperiment_key he
  rcases Reconcile_live (r := r) hf he hlive with
    ⟨f, hfin, _, hR⟩ | ⟨cA, hR, hcalls, hjobs, hexp, _, _, hfind⟩
  · refine Or.inl ⟨f, _, hfin, hR, ?_, rfl, rfl⟩
    simp [headCalls, hfin]
  · have hkA : (AddFinalizer e FinetuneGroupFinalizer).key = req.NamespacedName := by
      rw [addFinalizer_key, hk]
    obtain ⟨new, hpre, hcase⟩ :=
      reconcileLive_cases r (AddFinalizer e FinetuneGroupFinalizer) cA
    have hlc : (if (AddFinalizer e FinetuneGroupFinalizer).Spec.Pending = true then []
        else (AddFinalizer e FinetuneGroupFinalizer).Spec.FinetuneJobs.flatMap
          (jobCalls (AddFinalizer e FinetuneGroupFinalizer))) = liveCalls e := by
      rw [← liveCalls_addFinalizer e FinetuneGroupFinalizer]
      rfl
    rw [hlc] at hpre hcase
    rw [addFinalizer_spec, addFinalizer_status] at hcase
    rw [hjobs] at hcase
    rcases hcase with ⟨err, c1, hp, h, hc, hx, hj⟩ |
      ⟨l, obj, hobj, hl, hnd, hnew, ⟨err, c1, h, hc, hx, hj⟩ | ⟨old, c1, hold, h, hc, hx, hj⟩⟩
    · refine Or.inr (Or.inl ⟨err, new, c1, hp, hpre, hR.trans h, ?_, ?_, hj⟩)
      · rw [hc, hcalls]; rfl
      · rw [hx, hexp]
    · subst hnew
      have hobj2 : obj = liveResult (AddFinalizer e FinetuneGroupFinalizer) l := by
        rw [hobj]
        simp only [liveResult, addFinalizer_spec]
      subst hobj2
      refine Or.inr (Or.inr ⟨l, hl, hnd, Or.inl ⟨err, c1, hR.trans h, ?_, ?_, hj⟩⟩)
      · rw [hc, hcalls]; rfl
      · rw [hx, hexp]
    · subst hnew
      have hobj2 : obj = liveResult (AddFinalizer e FinetuneGroupFinalizer) l := by
        rw [hobj]
        simp only [liveResult, addFinalizer_spec]
      subst hobj2
      rw [hkA, hfind] at hold
      cases hold
      rw [with_status_liveResult, hexp] at hx
      refine Or.inr (Or.inr ⟨l, hl, hnd, Or.inr ⟨c1, hR.trans h, ?_, hx, ?_, hj⟩⟩)
      · rw [hc, hcalls]; rfl
      · rw [hx]
        have h2 := @findExperiment_put_same
          (liveResult (AddFinalizer e FinetuneGroupFinalizer) l)
          (AddFinalizer e FinetuneGroupFinalizer)
          (putExperiment (AddFinalizer e FinetuneGroupFinalizer) c.experiments)
          (by rw [← hexp]
              have hkl : (liveResult (AddFinalizer e FinetuneGroupFinalizer) l).key =
                  req.NamespacedName := hkA
              rw [hkl]; exact hfind)
        have hkl : (liveResult (AddFinalizer e FinetuneGroupFinalizer) l).key =
            req.NamespacedName := hkA
        rw [hkl] at h2
        exact h2

theorem liveResult_containsFinalizer (e : FinetuneExperiment) (l : List FinetuneJobStatusSetting)
    (f : String) : ContainsFinalizer (liveResult e l) f = ContainsFinalizer e f := rfl

theorem mem_jobCalls {e : FinetuneExperiment} {js : List FinetuneJobSetting} {call : Call}
    (h : call ∈ js.flatMap (jobCalls e)) :
    ∃ x ∈ js, call = .CreateJob (childJob e x) ∨ call = .GetJob (childKey e x) := by
  simp only [List.mem_flatMap, jobCalls, List.mem_cons, List.mem_singleton, List.not_mem_nil,
    or_false] at h
  exact h

theorem mem_liveCalls {e : FinetuneExperiment} {call : Call} (h : call ∈ liveCalls e) :
    e.Spec.Pending = false ∧
    ∃ x ∈ e.Spec.FinetuneJobs, call = .CreateJob (childJob e x) ∨ call = .GetJob (childKey e x) := by
  unfold liveCalls at h
  cases hp : e.Spec.Pending with
  | true => simp [hp] at h
  | false =>
      simp only [hp, Bool.false_eq_true, if_false] at h
      exact ⟨rfl, mem_jobCalls h⟩

theorem mem_headCalls {req : Request} {e : FinetuneExperiment} {call : Call}
    (h : call ∈ headCalls req e) :
    call = .GetExperiment req.NamespacedName ∨
    (ContainsFinalizer e FinetuneGroupFinalizer = false ∧
      call = .UpdateExperiment (AddFinalizer e FinetuneGroupFinalizer)) := by
  unfold headCalls at h
  cases hfin : ContainsFinalizer e FinetuneGroupFinalizer with
  | true => simp [hfin] at h; exact Or.inl h
  | false =>
      simp only [hfin, Bool.false_eq_true, if_false, List.mem_cons, List.mem_singleton,
        List.not_mem_nil, or_false] at h
      rcases h with h | h
      · exact Or.inl h
      · exact Or.inr ⟨rfl, h⟩

/-- C5: the finalizer invariant for live experiments.  For an experiment that is in
the store with no deletion marker, under any fault script, if `Reconcile` returns
without error then the experiment as stored contains the finalizer token, whether or
not it did before and whatever `spec.pending` is. -/
theorem Reconcile_finalizer_invariant (r : FinetuneExperimentReconciler) (req : Request)
    (c : Client) (e : FinetuneExperiment)
    (he : findExperiment req.NamespacedName c.experiments = some e)
    (hlive : e.DeletionTimestamp = none)
    (hok : (Reconcile r req c).1.2 = none) :
    ∃ e', findExperiment req.NamespacedName (Reconcile r req c).2.experiments = some e' ∧
      ContainsFinalizer e' FinetuneGroupFinalizer = true ∧
      FinetuneGroupFinalizer ∈ e'.Finalizers := by
  have hmem : ∀ e' : FinetuneExperiment, ContainsFinalizer e' FinetuneGroupFinalizer = true →
      FinetuneGroupFinalizer ∈ e'.Finalizers := by
    intro e' h
    simp only [ContainsFinalizer, List.any_eq_true, decide_eq_true_eq] at h
    obtain ⟨x, hx, hxe⟩ := h
    exact hxe ▸ hx
  cases hf : c.fault with
  | some f =>
      rw [Reconcile_fault hf] at hok
      cases hok
  | none =>
      rcases Reconcile_live_cases (r := r) hf he hlive with
        ⟨f, c1, _, hR, _⟩ | ⟨err, new, c1, _, _, hR, _⟩ |
        ⟨l, _, _, ⟨err, c1, hR, _⟩ | ⟨c1, hR, _, _, hfind, _⟩⟩
      · rw [hR] at hok; cases hok
      · rw [hR] at hok; cases hok
      · rw [hR] at hok; cases hok
      · rw [hR]
        have hc : ContainsFinalizer (liveResult (AddFinalizer e FinetuneGroupFinalizer) l)
            FinetuneGroupFinalizer = true := by
          rw [liveResult_containsFinalizer]
          exact containsFinalizer_addFinalizer e _
        exact ⟨_, hfind, hc, hmem _ hc⟩

theorem liveCalls_of_pending {e : FinetuneExperiment} (hp : e.Spec.Pending = true) :
    liveCalls e = [] := by
  simp [liveCalls, hp]

/-- C7: the pending gate.  For an experiment in the store with no deletion marker and
`spec.pending = true`, under any fault script and for any JobSpec list, `Reconcile`
issues no Create and no Get for a job; and if it returns without error, the stored
`status.state` is Pending and the stored `status.jobsStatus` is what it was. -/
theorem Reconcile_pending_gate (r : FinetuneExperimentReconciler) (req : Request)
    (c : Client) (e : FinetuneExperiment)
    (he : findExperiment req.NamespacedName c.experiments = some e)
    (hlive : e.DeletionTimestamp = none) (hp : e.Spec.Pending = true) :
    (∀ call ∈ callsOf r req c, call.isJobCall = false) ∧
    ((Reconcile r req c).1.2 = none →
      ∃ e', findExperiment req.NamespacedName (Reconcile r req c).2.experiments = some e' ∧
        e'.Status.State = FinetuneExperimentPending ∧
        e'.Status.JobsStatus = e.Status.JobsStatus) := by
  have hhead : ∀ call ∈ headCalls req e, call.isJobCall = false := by
    intro call hc
    rcases mem_headCalls hc with h | ⟨_, h⟩ <;> subst h <;> rfl
  cases hf : c.fault with
  | some f =>
      have hR := @Reconcile_fault r req _ _ hf
      have hcalls : callsOf r req c = [.GetExperiment req.NamespacedName] :=
        callsOf_eq (by rw [hR]; rfl)
      refine ⟨?_, ?_⟩
      · intro call hc
        rw [hcalls, List.mem_singleton] at hc
        subst hc
        rfl
      · intro hok
        rw [hR] at hok
        cases hok
  | none =>
      rcases Reconcile_live_cases (r := r) hf he hlive with
        ⟨f, c1, _, hR, hc, _⟩ | ⟨err, new, c1, hnp, _, hR, _⟩ |
        ⟨l, hl, _, ⟨err, c1, hR, hc, _⟩ | ⟨c1, hR, hc, _, hfind, _⟩⟩
      · have hcalls : callsOf r req c = headCalls req e := callsOf_eq (by rw [hR]; exact hc)
        refine ⟨fun call h => hhead call (hcalls ▸ h), ?_⟩
        intro hok
        rw [hR] at hok
        cases hok
      · rw [hp] at hnp
        cases hnp
      · have hcalls : callsOf r req c = headCalls req e ++ liveCalls e ++
            [.UpdateStatus (liveResult (AddFinalizer e FinetuneGroupFinalizer) l)] :=
          callsOf_eq (by rw [hR]; simp [hc])
        rw [liveCalls_of_pending hp, List.append_nil] at hcalls
        refine ⟨?_, ?_⟩
        · intro call h
          rw [hcalls, List.mem_append, List.mem_singleton] at h
          rcases h with h | h
          · exact hhead call h
          · subst h; rfl
        · intro hok
          rw [hR] at hok
          cases hok
      · have hcalls : callsOf r req c = headCalls req e ++ liveCalls e ++
            [.UpdateStatus (liveResult (AddFinalizer e FinetuneGroupFinalizer) l)] :=
          callsOf_eq (by rw [hR]; simp [hc])
        rw [liveCalls_of_pending hp, List.append_nil] at hcalls
        refine ⟨?_, ?_⟩
        · intro call h
          rw [hcalls, List.mem_append, List.mem_singleton] at h
          rcases h with h | h
          · exact hhead call h
          · subst h; rfl
        · intro _
          rw [hR]
          refine ⟨_, hfind, ?_, ?_⟩
          · simp [liveResult, addFinalizer_spec, hp]
          · rw [hl hp]
            simp [liveResult, FinetuneExperiment.withEntries, addFinalizer_status]

theorem findExperiment_put_addFinalizer {req : Request} {c : Client} {e : FinetuneExperiment}
    (he : findExperiment req.NamespacedName c.experiments = some e) :
    findExperiment req.NamespacedName
      (putExperiment (AddFinalizer e FinetuneGroupFinalizer) c.experiments) =
        some (AddFinalizer e FinetuneGroupFinalizer) := by
  have hk : e.key = req.NamespacedName := findExperiment_key he
  rw [findExperiment_put, addFinalizer_key, hk, if_pos rfl, he]
  rfl

theorem updateStatus_not_mem_headCalls {req : Request} {e obj : FinetuneExperiment} :
    Call.UpdateStatus obj ∉ headCalls req e := by
  intro h
  rcases mem_headCalls h with h | ⟨_, h⟩ <;> cases h

theorem updateStatus_not_mem_liveCalls {e obj : FinetuneExperiment} :
    Call.UpdateStatus obj ∉ liveCalls e := by
  intro h
  obtain ⟨_, x, _, h | h⟩ := mem_liveCalls h <;> cases h

/-- C10: no duplicate job names in status.  If the names in `status.jobsStatus` of
the stored experiment are pairwise distinct before `Reconcile`, then under any fault
script, for every JobSpec list and every content of the job store, they are pairwise
distinct in every status that `Reconcile` hands to a status write, and in the status
of the experiment as stored afterwards.  (In this store a Get by name always returns
an object carrying that name.) -/
theorem Reconcile_status_names_nodup (r : FinetuneExperimentReconciler) (req : Request)
    (c : Client) (e : FinetuneExperiment)
    (he : findExperiment req.NamespacedName c.experiments = some e)
    (hnd : (statusNames e.Status.JobsStatus).Nodup) :
    (∀ obj, Call.UpdateStatus obj ∈ callsOf r req c →
      (statusNames obj.Status.JobsStatus).Nodup) ∧
    (∀ e', findExperiment req.NamespacedName (Reconcile r req c).2.experiments = some e' →
      (statusNames e'.Status.JobsStatus).Nodup) := by
  cases hf : c.fault with
  | some f =>
      have hR := @Reconcile_fault r req _ _ hf
      have hcalls : callsOf r req c = [.GetExperiment req.NamespacedName] :=
        callsOf_eq (by rw [hR]; rfl)
      refine ⟨?_, ?_⟩
      · intro obj h
        rw [hcalls, List.mem_singleton] at h
        cases h
      · intro e' h
        rw [hR, Client.next_experiments, he] at h
        cases h
        exact hnd
  | none =>
      by_cases hdel : e.DeletionTimestamp ≠ none
      · rcases Reconcile_deleting_cases (r := r) hf he hdel with
          ⟨hfin, hR⟩ | ⟨hfin, ⟨f, hf1, hR⟩ | ⟨hf1, hR⟩⟩
        · have hcalls : callsOf r req c = [.GetExperiment req.NamespacedName] :=
            callsOf_eq (by rw [hR]; rfl)
          refine ⟨?_, ?_⟩
          · intro obj h
            rw [hcalls, List.mem_singleton] at h
            cases h
          · intro e' h
            rw [hR, Client.next_experiments, he] at h
            cases h
            exact hnd
        · have hcalls : callsOf r req c = [.GetExperiment req.NamespacedName,
              .UpdateExperiment (RemoveFinalizer e FinetuneGroupFinalizer)] :=
            callsOf_eq (by rw [hR]; simp)
          refine ⟨?_, ?_⟩
          · intro obj h
            rw [hcalls] at h
            simp at h
          · intro e' h
            rw [hR, Client.next_experiments, Client.next_experiments, he] at h
            cases h
            exact hnd
        · have hcalls : callsOf r req c = [.GetExperiment req.NamespacedName,
              .UpdateExperiment (RemoveFinalizer e FinetuneGroupFinalizer)] :=
            callsOf_eq (by rw [hR]; simp)
          refine ⟨?_, ?_⟩
          · intro obj h
            rw [hcalls] at h
            simp at h
          · intro e' h
            rw [hR] at h
            simp only at h
            rw [findExperiment_put_removeFinalizer he] at h
            cases h
            exact hnd
      · have hlive : e.DeletionTimestamp = none := by
          simpa using hdel
        have hndA : (statusNames (AddFinalizer e FinetuneGroupFinalizer).Status.JobsStatus).Nodup := by
          rw [addFinalizer_status]; exact hnd
        rcases Reconcile_live_cases (r := r) hf he hlive with
          ⟨f, c1, _, hR, hc, hx, _⟩ | ⟨err, new, c1, _, hpre, hR, hc, hx, _⟩ |
          ⟨l, _, hl, ⟨err, c1, hR, hc, hx, _⟩ | ⟨c1, hR, hc, _, hfind, _⟩⟩
        · have hcalls : callsOf r req c = headCalls req e := callsOf_eq (by rw [hR]; exact hc)
          refine ⟨?_, ?_⟩
          · intro obj h
            rw [hcalls] at h
            exact absurd h updateStatus_not_mem_headCalls
          · intro e' h
            rw [hR] at h
            simp only at h
            rw [hx, he] at h
            cases h
            exact hnd
        · have hcalls : callsOf r req c = headCalls req e ++ new :=
            callsOf_eq (by rw [hR]; simp [hc])
          refine ⟨?_, ?_⟩
          · intro obj h
            rw [hcalls, List.mem_append] at h
            rcases h with h | h
            · exact absurd h updateStatus_not_mem_headCalls
            · exact absurd (hpre.subset h) updateStatus_not_mem_liveCalls
          · intro e' h
            rw [hR] at h
            simp only at h
            rw [hx, findExperiment_put_addFinalizer he] at h
            cases h
            exact hndA
        · have hcalls : callsOf r req c = headCalls req e ++ liveCalls e ++
              [.UpdateStatus (liveResult (AddFinalizer e FinetuneGroupFinalizer) l)] :=
            callsOf_eq (by rw [hR]; simp [hc])
          refine ⟨?_, ?_⟩
          · intro obj h
            rw [hcalls, List.mem_append, List.mem_append, List.mem_singleton] at h
            rcases h with (h | h) | h
            · exact absurd h updateStatus_not_mem_headCalls
            · exact absurd h updateStatus_not_mem_liveCalls
            · cases h
              exact hl hnd
          · intro e' h
            rw [hR] at h
            simp only at h
            rw [hx, findExperiment_put_addFinalizer he] at h
            cases h
            exact hndA
        · have hcalls : callsOf r req c = headCalls req e ++ liveCalls e ++
              [.UpdateStatus (liveResult (AddFinalizer e FinetuneGroupFinalizer) l)] :=
            callsOf_eq (by rw [hR]; simp [hc])
          refine ⟨?_, ?_⟩
          · intro obj h
            rw [hcalls, List.mem_append, List.mem_append, List.mem_singleton] at h
            rcases h with (h | h) | h
            · exact absurd h updateStatus_not_mem_headCalls
            · exact absurd h updateStatus_not_mem_liveCalls
            · cases h
              exact hl hnd
          · intro e' h
            rw [hR] at h
            simp only at h
            rw [hfind] at h
            cases h
            exact hl hnd

theorem liveCalls_initial (e : FinetuneExperiment) :
    liveCalls e <+: e.Spec.FinetuneJobs.flatMap (jobCalls e) := by
  unfold liveCalls
  split
  · exact List.nil_prefix
  · exact List.prefix_refl _

theorem liveCalls_of_not_pending {e : FinetuneExperiment} (hp : e.Spec.Pending = false) :
    liveCalls e = e.Spec.FinetuneJobs.flatMap (jobCalls e) := by
  simp [liveCalls, hp]

/-- The shape of the calls of one `Reconcile` on a stored experiment, under any fault
script: calls on the experiment, then a prefix of the job calls of the JobSpec list,
then at most one status write. -/
theorem Reconcile_calls_shape (r : FinetuneExperimentReconciler) (req : Request)
    (c : Client) (e : FinetuneExperiment)
    (he : findExperiment req.NamespacedName c.experiments = some e) :
    ∃ pre new post, callsOf r req c = pre ++ new ++ post ∧
      new <+: e.Spec.FinetuneJobs.flatMap (jobCalls e) ∧
      (∀ call ∈ pre, call = .GetExperiment req.NamespacedName ∨
        call = .UpdateExperiment (AddFinalizer e FinetuneGroupFinalizer) ∨
        call = .UpdateExperiment (RemoveFinalizer e FinetuneGroupFinalizer)) ∧
      (post = [] ∨ ∃ l, post = [.UpdateStatus (liveResult (AddFinalizer e FinetuneGroupFinalizer) l)]) ∧
      (e.DeletionTimestamp = none → e.Spec.Pending = false → (Reconcile r req c).1.2 = none →
        new = e.Spec.FinetuneJobs.flatMap (jobCalls e)) := by
  have hhead : ∀ call ∈ headCalls req e, call = .GetExperiment req.NamespacedName ∨
        call = .UpdateExperiment (AddFinalizer e FinetuneGroupFinalizer) ∨
        call = .UpdateExperiment (RemoveFinalizer e FinetuneGroupFinalizer) := by
    intro call hc
    rcases mem_headCalls hc with h | ⟨_, h⟩
    · exact Or.inl h
    · exact Or.inr (Or.inl h)
  cases hf : c.fault with
  | some f =>
      have hR := @Reconcile_fault r req _ _ hf
      have hcalls : callsOf r req c = [.GetExperiment req.NamespacedName] :=
        callsOf_eq (by rw [hR]; rfl)
      refine ⟨[.GetExperiment req.NamespacedName], [], [], by simp [hcalls], List.nil_prefix,
        ?_, Or.inl rfl, ?_⟩
      · intro call h
        rw [List.mem_singleton] at h
        exact Or.inl h
      · intro _ _ hok
        rw [hR] at hok
        cases hok
  | none =>
      by_cases hdel : e.DeletionTimestamp ≠ none
      · rcases Reconcile_deleting_cases (r := r) hf he hdel with
          ⟨hfin, hR⟩ | ⟨hfin, ⟨f, hf1, hR⟩ | ⟨hf1, hR⟩⟩
        · have hcalls : callsOf r req c = [.GetExperiment req.NamespacedName] :=
            callsOf_eq (by rw [hR]; rfl)
          refine ⟨[.GetExperiment req.NamespacedName], [], [], by simp [hcalls],
            List.nil_prefix, ?_, Or.inl rfl, fun h => absurd h hdel⟩
          intro call h
          rw [List.mem_singleton] at h
          exact Or.inl h
        · have hcalls : callsOf r req c = [.GetExperiment req.NamespacedName,
              .UpdateExperiment (RemoveFinalizer e FinetuneGroupFinalizer)] :=
            callsOf_eq (by rw [hR]; simp)
          refine ⟨[.GetExperiment req.NamespacedName,
              .UpdateExperiment (RemoveFinalizer e FinetuneGroupFinalizer)], [], [],
            by simp [hcalls], List.nil_prefix, ?_, Or.inl rfl, fun h => absurd h hdel⟩
          intro call h
          simp only [List.mem_cons, List.mem_singleton, List.not_mem_nil, or_false] at h
          rcases h with h | h
          · exact Or.inl h
          · exact Or.inr (Or.inr h)
        · have hcalls : callsOf r req c = [.GetExperiment req.NamespacedName,
              .UpdateExperiment (RemoveFinalizer e FinetuneGroupFinalizer)] :=
            callsOf_eq (by rw [hR]; simp)
          refine ⟨[.GetExperiment req.NamespacedName,
              .UpdateExperiment (RemoveFinalizer e FinetuneGroupFinalizer)], [], [],
            by simp [hcalls], List.nil_prefix, ?_, Or.inl rfl, fun h => absurd h hdel⟩
          intro call h
          simp only [List.mem_cons, List.mem_singleton, List.not_mem_nil, or_false] at h
          rcases h with h | h
          · exact Or.inl h
          · exact Or.inr (Or.inr h)
      · have hlive : e.DeletionTimestamp = none := by
          simpa using hdel
        rcases Reconcile_live_cases (r := r) hf he hlive with
          ⟨f, c1, _, hR, hc, hx, _⟩ | ⟨err, new, c1, _, hpre, hR, hc, hx, _⟩ |
          ⟨l, _, hl, ⟨err, c1, hR, hc, hx, _⟩ | ⟨c1, hR, hc, _, hfind, _⟩⟩
        · have hcalls : callsOf r req c = headCalls req e := callsOf_eq (by rw [hR]; exact hc)
          refine ⟨headCalls req e, [], [], by simp [hcalls], List.nil_prefix, hhead,
            Or.inl rfl, ?_⟩
          intro _ _ hok
          rw [hR] at hok
          cases hok
        · have hcalls : callsOf r req c = headCalls req e ++ new :=
            callsOf_eq (by rw [hR]; simp [hc])
          refine ⟨headCalls req e, new, [], by simp [hcalls],
            hpre.trans (liveCalls_initial e), hhead, Or.inl rfl, ?_⟩
          intro _ _ hok
          rw [hR] at hok
          cases hok
        · have hcalls : callsOf r req c = headCalls req e ++ liveCalls e ++
              [.UpdateStatus (liveResult (AddFinalizer e FinetuneGroupFinalizer) l)] :=
            callsOf_eq (by rw [hR]; simp [hc])
          exact ⟨headCalls req e, liveCalls e, _, hcalls, liveCalls_initial e, hhead,
            Or.inr ⟨l, rfl⟩, fun _ hp _ => liveCalls_of_not_pending hp⟩
        · have hcalls : callsOf r req c = headCalls req e ++ liveCalls e ++
              [.UpdateStatus (liveResult (AddFinalizer e FinetuneGroupFinalizer) l)] :=
            callsOf_eq (by rw [hR]; simp [hc])
          exact ⟨headCalls req e, liveCalls e, _, hcalls, liveCalls_initial e, hhead,
            Or.inr ⟨l, rfl⟩, fun _ hp _ => liveCalls_of_not_pending hp⟩

/-- The experiment that the store holds after one `Reconcile`, under any fault
script: the fetched one, possibly with the finalizer removed or added, or the one
handed to the status write. -/
theorem Reconcile_stored (r : FinetuneExperimentReconciler) (req : Request)
    (c : Client) (e : FinetuneExperiment)
    (he : findExperiment req.NamespacedName c.experiments = some e) :
    ∃ e', findExperiment req.NamespacedName (Reconcile r req c).2.experiments = some e' ∧
      (e' = e ∨ e' = RemoveFinalizer e FinetuneGroupFinalizer ∨
        e' = AddFinalizer e FinetuneGroupFinalizer ∨
        ∃ l, e' = liveResult (AddFinalizer e FinetuneGroupFinalizer) l) := by
  cases hf : c.fault with
  | some f =>
      rw [Reconcile_fault hf]
      exact ⟨e, he, Or.inl rfl⟩
  | none =>
      by_cases hdel : e.DeletionTimestamp ≠ none
      · rcases Reconcile_deleting_cases (r := r) hf he hdel with
          ⟨hfin, hR⟩ | ⟨hfin, ⟨f, hf1, hR⟩ | ⟨hf1, hR⟩⟩
        · rw [hR]; exact ⟨e, he, Or.inl rfl⟩
        · rw [hR]; exact ⟨e, he, Or.inl rfl⟩
        · rw [hR]; exact ⟨_, findExperiment_put_removeFinalizer he, Or.inr (Or.inl rfl)⟩
      · have hlive : e.DeletionTimestamp = none := by
          simpa using hdel
        rcases Reconcile_live_cases (r := r) hf he hlive with
          ⟨f, c1, _, hR, hc, hx, _⟩ | ⟨err, new, c1, _, hpre, hR, hc, hx, _⟩ |
          ⟨l, _, hl, ⟨err, c1, hR, hc, hx, _⟩ | ⟨c1, hR, hc, _, hfind, _⟩⟩
        · rw [hR]; simp only; rw [hx]; exact ⟨e, he, Or.inl rfl⟩
        · rw [hR]; simp only; rw [hx]
          exact ⟨_, findExperiment_put_addFinalizer he, Or.inr (Or.inr (Or.inl rfl))⟩
        · rw [hR]; simp only; rw [hx]
          exact ⟨_, findExperiment_put_addFinalizer he, Or.inr (Or.inr (Or.inl rfl))⟩
        · rw [hR]
          exact ⟨_, hfind, Or.inr (Or.inr (Or.inr ⟨l, rfl⟩))⟩

theorem filter_isJobCall_shape {req : Request} {e : FinetuneExperiment}
    {pre new post : List Call}
    (hnew : new <+: e.Spec.FinetuneJobs.flatMap (jobCalls e))
    (hpre : ∀ call ∈ pre, call = .GetExperiment req.NamespacedName ∨
        call = .UpdateExperiment (AddFinalizer e FinetuneGroupFinalizer) ∨
        call = .UpdateExperiment (RemoveFinalizer e FinetuneGroupFinalizer))
    (hpost : post = [] ∨
      ∃ l, post = [.UpdateStatus (liveResult (AddFinalizer e FinetuneGroupFinalizer) l)]) :
    (pre ++ new ++ post).filter Call.isJobCall = new := by
  have h1 : pre.filter Call.isJobCall = [] := by
    rw [List.filter_eq_nil_iff]
    intro call hc
    rcases hpre call hc with h | h | h <;> subst h <;> simp [Call.isJobCall]
  have h2 : new.filter Call.isJobCall = new := by
    rw [List.filter_eq_self]
    intro call hc
    obtain ⟨x, _, h | h⟩ := mem_jobCalls (hnew.subset hc) <;> subst h <;> rfl
  have h3 : post.filter Call.isJobCall = [] := by
    rcases hpost with h | ⟨l, h⟩ <;> subst h <;> rfl
  rw [List.filter_append, List.filter_append, h1, h2, h3]
  simp

/-- C8: child descriptor construction.  For a stored experiment and any fault script,
the job calls that `Reconcile` issues are, in order, a prefix of the calls
`Create(job), Get(key)` over the JobSpec list, where the job has the resolved name
(the explicit name when set, else the experiment name followed by `-finetunejob`),
the experiment's namespace, the JobSpec's payload and a controller reference to the
experiment, and the key read back is that same name in that namespace.  When
`Reconcile` succeeds on a live experiment that is not pending, these are all of its
job calls.  Every experiment object handed to a write, and the experiment as stored
afterwards, has the spec of the fetched experiment. -/
theorem Reconcile_child_descriptors (r : FinetuneExperimentReconciler) (req : Request)
    (c : Client) (e : FinetuneExperiment)
    (he : findExperiment req.NamespacedName c.experiments = some e) :
    ((callsOf r req c).filter Call.isJobCall <+:
      e.Spec.FinetuneJobs.flatMap (fun js =>
        [Call.CreateJob
          { Name := resolvedName e.Name js, Namespace := e.Namespace,
            OwnerReferences := [controllerRef e], Spec := js.Spec, Status := {} },
         Call.GetJob { Namespace := e.Namespace, Name := resolvedName e.Name js }])) ∧
    (e.DeletionTimestamp = none → e.Spec.Pending = false → (Reconcile r req c).1.2 = none →
      (callsOf r req c).filter Call.isJobCall =
        e.Spec.FinetuneJobs.flatMap (fun js =>
          [Call.CreateJob
            { Name := resolvedName e.Name js, Namespace := e.Namespace,
              OwnerReferences := [controllerRef e], Spec := js.Spec, Status := {} },
           Call.GetJob { Namespace := e.Namespace, Name := resolvedName e.Name js }])) ∧
    (∀ obj, (Call.UpdateExperiment obj ∈ callsOf r req c ∨
        Call.UpdateStatus obj ∈ callsOf r req c) → obj.Spec = e.Spec) ∧
    (∀ e', findExperiment req.NamespacedName (Reconcile r req c).2.experiments = some e' →
      e'.Spec = e.Spec) := by
  obtain ⟨pre, new, post, hcalls, hnew, hpre, hpost, hfull⟩ := Reconcile_calls_shape r req c e he
  have hfilter := filter_isJobCall_shape hnew hpre hpost
  have hspecA : (AddFinalizer e FinetuneGroupFinalizer).Spec = e.Spec := addFinalizer_spec _ _
  refine ⟨?_, ?_, ?_, ?_⟩
  · rw [hcalls, hfilter]
    exact hnew
  · intro h1 h2 h3
    rw [hcalls, hfilter]
    exact hfull h1 h2 h3
  · intro obj h
    rw [hcalls] at h
    simp only [List.mem_append] at h
    have hnotnew : ∀ call ∈ new, (∀ o, call ≠ .UpdateExperiment o) ∧ (∀ o, call ≠ .UpdateStatus o) := by
      intro call hc
      obtain ⟨x, _, h | h⟩ := mem_jobCalls (hnew.subset hc) <;> subst h <;>
        exact ⟨fun o h => Call.noConfusion h, fun o h => Call.noConfusion h⟩
    rcases h with ((h | h) | h) | ((h | h) | h)
    · rcases hpre _ h with h | h | h
      · cases h
      · cases h; exact hspecA
      · cases h; rfl
    · exact absurd rfl ((hnotnew _ h).1 obj)
    · rcases hpost with hp | ⟨l, hp⟩ <;> subst hp
      · cases h
      · rw [List.mem_singleton] at h; cases h
    · rcases hpre _ h with h | h | h <;> cases h
    · exact absurd rfl ((hnotnew _ h).2 obj)
    · rcases hpost with hp | ⟨l, hp⟩ <;> subst hp
      · cases h
      · rw [List.mem_singleton] at h
        cases h
        exact hspecA
  · intro e' h
    obtain ⟨e2, h2, hcase⟩ := Reconcile_stored r req c e he
    rw [h2] at h
    cases h
    rcases hcase with h | h | h | ⟨l, h⟩ <;> subst h
    · rfl
    · rfl
    · exact hspecA
    · exact hspecA

/-! ### `Reconcile` when no call is faulted -/

theorem persistStatus_nofault {c : Client} {obj old : FinetuneExperiment} (hf : c.faults = [])
    (hold : findExperiment obj.key c.experiments = some old) :
    persistStatus c obj = (HandlerErr none,
      { c.next (.UpdateStatus obj) with
        experiments := putExperiment { old with Status := obj.Status } c.experiments }) := by
  rcases persistStatus_cases c obj with ⟨err, _, ⟨f, h, _⟩ | ⟨_, h, _⟩⟩ | ⟨old2, _, hold2, h⟩
  · rw [Client.fault_of_nil hf] at h; cases h
  · rw [hold] at h; cases h
  · rw [hold] at hold2
    cases hold2
    exact h

theorem reconcileLive_not_pending (r : FinetuneExperimentReconciler) (e : FinetuneExperiment)
    (c : Client) (hp : e.Spec.Pending = false) :
    reconcileLive r e c =
      match reconcileJobs r e.Spec.FinetuneJobs e c with
      | (.error err, c1) => (HandlerErr (some err), c1)
      | (.ok e1, c1) =>
          persistStatus c1
            { e1 with Status := { e1.Status with State := FinetuneExperimentProcessing } } := by
  simp [reconcileLive, hp]

theorem liveResult_of_not_pending {e : FinetuneExperiment} (hp : e.Spec.Pending = false)
    (l : List FinetuneJobStatusSetting) :
    liveResult e l = { e.withEntries l with
      Status := { (e.withEntries l).Status with State := FinetuneExperimentProcessing } } := by
  simp [liveResult, hp]

theorem liveResult_of_pending {e : FinetuneExperiment} (hp : e.Spec.Pending = true) :
    liveResult e [] =
      { e with Status := { e.Status with State := FinetuneExperimentPending } } := by
  simp [liveResult, hp, withEntries_nil]

theorem liveCalls_eq_activeJobs (e : FinetuneExperiment) :
    liveCalls e = (activeJobs e).flatMap (jobCalls e) := by
  unfold liveCalls activeJobs
  split <;> rfl

theorem activeJobs_addFinalizer (e : FinetuneExperiment) (f : String) :
    activeJobs (AddFinalizer e f) = activeJobs e := by
  unfold AddFinalizer
  split <;> rfl

/-- Lines 80-140 when no call is faulted and the owner reference can be built: they
succeed, and the store and the log are as described. -/
theorem reconcileLive_nofault {r : FinetuneExperimentReconciler} {c : Client}
    {e : FinetuneExperiment} (hf : c.faults = [])
    (hold : findExperiment e.key c.experiments = some e)
    (hs : r.Scheme.kinds.contains FinetuneExperimentKind = true ∨ activeJobs e = []) :
    ∃ l c1, reconcileLive r e c = (HandlerErr none, c1) ∧ c1.faults = [] ∧
      c1.experiments = putExperiment (liveResult e l) c.experiments ∧
      c1.calls = c.calls ++ liveCalls e ++ [.UpdateStatus (liveResult e l)] ∧
      c.jobs <+: c1.jobs ∧
      c1.jobs.map FinetuneJob.key =
        addNew (c.jobs.map FinetuneJob.key) ((activeJobs e).map (childKey e)) ∧
      statusNames (liveResult e l).Status.JobsStatus =
        addNew (statusNames e.Status.JobsStatus) ((activeJobs e).map (resolvedName e.Name)) ∧
      (∀ entry ∈ l, ∃ j, findJob { Namespace := e.Namespace, Name := entry.Name } c1.jobs = some j ∧
        entry.FinetuneJobStatus = j.Status) ∧
      (∀ j ∈ c1.jobs, j ∈ c.jobs ∨ ∃ x ∈ activeJobs e, j = childJob e x) := by
  cases hp : e.Spec.Pending with
  | true =>
      have hact : activeJobs e = [] := by simp [activeJobs, hp]
      have hR : reconcileLive r e c = persistStatus c (liveResult e []) := by
        rw [liveResult_of_pending hp]
        simp [reconcileLive, hp]
      have hps := @persistStatus_nofault c (liveResult e []) e hf hold
      rw [with_status_liveResult] at hps
      refine ⟨[], _, hR.trans hps, by simp [hf], rfl, ?_, List.prefix_refl _, ?_, ?_, ?_,
        fun j h => Or.inl h⟩
      · simp [liveCalls, hp]
      · simp [hact, addNew_nil]
      · rw [hact]
        simp [addNew_nil, liveResult, withEntries_nil]
      · intro entry h; cases h
  | false =>
      have hact : activeJobs e = e.Spec.FinetuneJobs := by simp [activeJobs, hp]
      rw [hact] at hs ⊢
      obtain ⟨l, c1, hloop, hfaults, hexp, hcalls, hpre, hkeys, hnames, _, hent, hmem⟩ :=
        reconcileJobs_nofault r e.Spec.FinetuneJobs e c hf hs
      have hold1 : findExperiment (liveResult e l).key c1.experiments = some e := by
        rw [hexp]; exact hold
      have hps := persistStatus_nofault hfaults hold1
      rw [with_status_liveResult] at hps
      have hR : reconcileLive r e c = (HandlerErr none,
          { c1.next (.UpdateStatus (liveResult e l)) with
            experiments := putExperiment (liveResult e l) c1.experiments }) := by
        rw [reconcileLive_not_pending r e c hp, hloop]
        simp only
        rw [← liveResult_of_not_pending hp l]
        exact hps
      refine ⟨l, _, hR, by simp [hfaults], ?_, ?_, hpre, hkeys, hnames, hent, hmem⟩
      · simp only
        rw [hexp]
      · simp only [Client.next_calls]
        rw [hcalls, liveCalls_of_not_pending hp]

/-- A live experiment, no fault, and an owner reference that can be built:
`Reconcile` succeeds, and the store and the log are as described. -/
theorem Reconcile_live_nofault {r : FinetuneExperimentReconciler} {req : Request} {c : Client}
    {e : FinetuneExperiment} (hf : c.faults = [])
    (he : findExperiment req.NamespacedName c.experiments = some e)
    (hlive : e.DeletionTimestamp = none)
    (hs : r.Scheme.kinds.contains FinetuneExperimentKind = true ∨ activeJobs e = []) :
    ∃ l c1, Reconcile r req c = (HandlerErr none, c1) ∧ c1.faults = [] ∧
      c1.experiments = putExperiment (liveResult (AddFinalizer e FinetuneGroupFinalizer) l)
        (putExperiment (AddFinalizer e FinetuneGroupFinalizer) c.experiments) ∧
      findExperiment req.NamespacedName c1.experiments =
        some (liveResult (AddFinalizer e FinetuneGroupFinalizer) l) ∧
      c1.calls = c.calls ++ headCalls req e ++ liveCalls e ++
        [.UpdateStatus (liveResult (AddFinalizer e FinetuneGroupFinalizer) l)] ∧
      c.jobs <+: c1.jobs ∧
      c1.jobs.map FinetuneJob.key =
        addNew (c.jobs.map FinetuneJob.key) ((activeJobs e).map (childKey e)) ∧
      statusNames (liveResult (AddFinalizer e FinetuneGroupFinalizer) l).Status.JobsStatus =
        addNew (statusNames e.Status.JobsStatus) ((activeJobs e).map (resolvedName e.Name)) ∧
      (liveResult (AddFinalizer e FinetuneGroupFinalizer) l).Status.JobsStatus =
        e.Status.JobsStatus ++ l ∧
      (∀ entry ∈ l, ∃ j, findJob { Namespace := e.Namespace, Name := entry.Name } c1.jobs = some j ∧
        entry.FinetuneJobStatus = j.Status) ∧
      (∀ j ∈ c1.jobs, j ∈ c.jobs ∨ ∃ x ∈ activeJobs e, j = childJob e x) := by
  have hk : e.key = req.NamespacedName := findExperiment_key he
  have hf0 : c.fault = none := Client.fault_of_nil hf
  rcases Reconcile_live (r := r) hf0 he hlive with
    ⟨f, _, h, _⟩ | ⟨cA, hR, hcallsA, hjobsA, hexpA, hfaultsA, _, hfindA⟩
  · rw [Client.fault_of_nil (by simp [hf])] at h
    cases h
  · have hfA : cA.faults = [] := by
      rw [hfaultsA, hf]; simp
    have hkA : (AddFinalizer e FinetuneGroupFinalizer).key = req.NamespacedName := by
      rw [addFinalizer_key, hk]
    obtain ⟨l, c1, hlive1, hfaults, hexp, hcalls, hpre, hkeys, hnames, hent, hmem⟩ :=
      reconcileLive_nofault (r := r) (c := cA) (e := AddFinalizer e FinetuneGroupFinalizer) hfA
        (by rw [hkA]; exact hfindA) (by rw [activeJobs_addFinalizer]; exact hs)
    rw [activeJobs_addFinalizer] at hkeys hnames hmem
    have hchild : (activeJobs e).map (childKey (AddFinalizer e FinetuneGroupFinalizer)) =
          (activeJobs e).map (childKey e) := by
      apply List.map_congr_left
      intro x _
      simp only [childKey, addFinalizer_name, addFinalizer_namespace]
    refine ⟨l, c1, hR.trans hlive1, hfaults, ?_, ?_, ?_, ?_, ?_, ?_, ?_, ?_, ?_⟩
    · rw [hexp, hexpA]
    · rw [hexp]
      have hkl : (liveResult (AddFinalizer e FinetuneGroupFinalizer) l).key =
          req.NamespacedName := hkA
      have h2 := @findExperiment_put_same
        (liveResult (AddFinalizer e FinetuneGroupFinalizer) l)
        (AddFinalizer e FinetuneGroupFinalizer)
        cA.experiments (by rw [hkl]; exact hfindA)
      rw [hkl] at h2
      exact h2
    · rw [hcalls, hcallsA, liveCalls_addFinalizer]
      rfl
    · rw [← hjobsA]; exact hpre
    · rw [hkeys, hjobsA, hchild]
    · rw [hnames, addFinalizer_status, addFinalizer_name]
    · have h1 : (liveResult (AddFinalizer e FinetuneGroupFinalizer) l).Status.JobsStatus =
          (AddFinalizer e FinetuneGroupFinalizer).Status.JobsStatus ++ l := rfl
      rw [h1, addFinalizer_status]
    · intro entry hentry
      obtain ⟨j, hj, hst⟩ := hent entry hentry
      rw [addFinalizer_namespace] at hj
      exact ⟨j, hj, hst⟩
    · intro j hj
      rcases hmem j hj with h | ⟨x, hx, h⟩
      · rw [hjobsA] at h; exact Or.inl h
      · refine Or.inr ⟨x, hx, ?_⟩
        rw [h]
        simp only [childJob, controllerRef, addFinalizer_name, addFinalizer_namespace,
          addFinalizer_uid]

theorem childKey_eq_comp (e : FinetuneExperiment) (js : List FinetuneJobSetting) :
    js.map (childKey e) =
      (js.map (resolvedName e.Name)).map
        (fun n => ({ Namespace := e.Namespace, Name := n } : NamespacedName)) := by
  rw [List.map_map]
  rfl

theorem namespacedName_injective (ns : String) :
    Function.Injective (fun n => ({ Namespace := ns, Name := n } : NamespacedName)) := by
  intro a b h
  exact congrArg NamespacedName.Name h

theorem keys_firstOccurrences (e : FinetuneExperiment) (js : List FinetuneJobSetting) :
    addNew [] (js.map (childKey e)) =
      (firstOccurrences (js.map (resolvedName e.Name))).map
        (fun n => ({ Namespace := e.Namespace, Name := n } : NamespacedName)) := by
  rw [childKey_eq_comp, firstOccurrences,
    map_addNew _ (namespacedName_injective e.Namespace)]
  rfl

theorem mem_firstOccurrences {names : List String} {n : String} :
    n ∈ firstOccurrences names ↔ n ∈ names := by
  unfold firstOccurrences
  rw [mem_addNew]
  simp

/-- C9: the convergence postcondition.  For an experiment in the store with no
deletion marker, `spec.pending = false`, an empty `status.jobsStatus` and any prior
state, on a store holding no job, with no faulted call and a scheme that knows the
experiment kind, one `Reconcile` succeeds and leaves (1) the jobs stored in order of
first occurrence of the resolved names, in the experiment's namespace, so that a job
name is in the store exactly when it is a resolved name, (2) `status.jobsStatus`
with one entry per distinct resolved name in order of first occurrence, each
holding the status of the job of that name in the store, and (3)
`status.state = Processing`. -/
theorem Reconcile_convergence (r : FinetuneExperimentReconciler) (req : Request)
    (c : Client) (e : FinetuneExperiment)
    (hf : c.faults = [])
    (hs : r.Scheme.kinds.contains FinetuneExperimentKind = true)
    (he : findExperiment req.NamespacedName c.experiments = some e)
    (hlive : e.DeletionTimestamp = none) (hp : e.Spec.Pending = false)
    (hst : e.Status.JobsStatus = []) (hjobs : c.jobs = []) :
    (Reconcile r req c).1 = HandlerErr none ∧
    (Reconcile r req c).2.jobs.map FinetuneJob.key =
      (firstOccurrences (e.Spec.FinetuneJobs.map (resolvedName e.Name))).map
        (fun n => ({ Namespace := e.Namespace, Name := n } : NamespacedName)) ∧
    (∀ n, (∃ j ∈ (Reconcile r req c).2.jobs, j.Name = n) ↔
      (∃ js ∈ e.Spec.FinetuneJobs, resolvedName e.Name js = n)) ∧
    (∃ e', findExperiment req.NamespacedName (Reconcile r req c).2.experiments = some e' ∧
      e'.Status.State = FinetuneExperimentProcessing ∧
      statusNames e'.Status.JobsStatus =
        firstOccurrences (e.Spec.FinetuneJobs.map (resolvedName e.Name)) ∧
      (∀ entry ∈ e'.Status.JobsStatus,
        ∃ j, findJob { Namespace := e.Namespace, Name := entry.Name }
              (Reconcile r req c).2.jobs = some j ∧
          entry.FinetuneJobStatus = j.Status)) := by
  have hact : activeJobs e = e.Spec.FinetuneJobs := by simp [activeJobs, hp]
  obtain ⟨l, c1, hR, _, _, hfind, _, _, hkeys, hnames, hjs, hent, _⟩ :=
    Reconcile_live_nofault (r := r) hf he hlive (Or.inl hs)
  rw [hact, hjobs] at hkeys
  rw [hact, hst] at hnames
  rw [hst, List.nil_append] at hjs
  have hkeys2 : c1.jobs.map FinetuneJob.key =
      (firstOccurrences (e.Spec.FinetuneJobs.map (resolvedName e.Name))).map
        (fun n => ({ Namespace := e.Namespace, Name := n } : NamespacedName)) := by
    rw [hkeys]
    exact keys_firstOccurrences e e.Spec.FinetuneJobs
  rw [hR]
  refine ⟨rfl, hkeys2, ?_, ?_⟩
  · intro n
    constructor
    · rintro ⟨j, hj, hjn⟩
      have h1 : j.key ∈ c1.jobs.map FinetuneJob.key := List.mem_map_of_mem _ hj
      rw [hkeys2, List.mem_map] at h1
      obtain ⟨m, hm, hmk⟩ := h1
      have hmn : m = n := by
        have := congrArg NamespacedName.Name hmk
        exact this.trans hjn
      rw [mem_firstOccurrences, List.mem_map] at hm
      obtain ⟨x, hx, hxm⟩ := hm
      exact ⟨x, hx, hxm.trans hmn⟩
    · rintro ⟨x, hx, hxn⟩
      have h1 : ({ Namespace := e.Namespace, Name := n } : NamespacedName) ∈
          c1.jobs.map FinetuneJob.key := by
        rw [hkeys2]
        apply List.mem_map_of_mem
        rw [mem_firstOccurrences]
        exact hxn ▸ List.mem_map_of_mem _ hx
      obtain ⟨j, hj, hjk⟩ := List.mem_map.mp h1
      exact ⟨j, hj, congrArg NamespacedName.Name hjk⟩
  · refine ⟨_, hfind, ?_, ?_, ?_⟩
    · simp [liveResult, addFinalizer_spec, hp]
    · exact hnames
    · intro entry hentry
      rw [hjs] at hentry
      exact hent entry hentry

/-! ### Running `Reconcile` again -/

theorem liveResult_self {e : FinetuneExperiment}
    (hstate : e.Status.State =
      if e.Spec.Pending then FinetuneExperimentPending else FinetuneExperimentProcessing) :
    liveResult e [] = e := by
  obtain ⟨n, ns, u, d, f, sp, ⟨st, js⟩⟩ := e
  simp only at hstate
  simp [liveResult, FinetuneExperiment.withEntries, hstate]

theorem headCalls_of_contains {req : Request} {e : FinetuneExperiment}
    (h : ContainsFinalizer e FinetuneGroupFinalizer = true) :
    headCalls req e = [.GetExperiment req.NamespacedName] := by
  simp [headCalls, h]

/-- A live experiment that carries the finalizer, whose state is already the one the
pending flag asks for, and whose active JobSpecs all have their job in the store and
their name in the status: a run without faults succeeds and changes nothing in the
store. -/
theorem Reconcile_settled {r : FinetuneExperimentReconciler} {req : Request} {c : Client}
    {e : FinetuneExperiment} (hf : c.faults = [])
    (he : findExperiment req.NamespacedName c.experiments = some e)
    (hlive : e.DeletionTimestamp = none)
    (hfin : ContainsFinalizer e FinetuneGroupFinalizer = true)
    (hstate : e.Status.State =
      if e.Spec.Pending then FinetuneExperimentPending else FinetuneExperimentProcessing)
    (hkeys : ∀ x ∈ activeJobs e, childKey e x ∈ c.jobs.map FinetuneJob.key)
    (hnames : ∀ x ∈ activeJobs e, resolvedName e.Name x ∈ statusNames e.Status.JobsStatus)
    (hs : r.Scheme.kinds.contains FinetuneExperimentKind = true ∨ activeJobs e = []) :
    ∃ c1, Reconcile r req c = (HandlerErr none, c1) ∧ c1.faults = [] ∧
      c1.experiments = c.experiments ∧ c1.jobs = c.jobs ∧
      c1.calls = c.calls ++ [.GetExperiment req.NamespacedName] ++ liveCalls e ++
        [.UpdateStatus e] := by
  have hk : e.key = req.NamespacedName := findExperiment_key he
  obtain ⟨l, c1, hR, hfaults, hexp, _, hcalls, hpre, hk1, hn1, hjs, _, _⟩ :=
    Reconcile_live_nofault (r := r) hf he hlive hs
  rw [addFinalizer_of_contains hfin] at hexp hcalls hn1 hjs
  have hl : l = [] := by
    rw [addNew_of_subset (by
      intro n hn
      obtain ⟨x, hx, hxn⟩ := List.mem_map.mp hn
      exact hxn ▸ hnames x hx), hjs] at hn1
    have hlen := congrArg List.length hn1
    simp only [statusNames, List.map_append, List.length_append, List.length_map] at hlen
    exact List.length_eq_zero.mp (by omega)
  subst hl
  rw [liveResult_self hstate] at hexp hcalls
  have hput : putExperiment e c.experiments = c.experiments :=
    putExperiment_self (by rw [hk]; exact he)
  rw [hput, hput] at hexp
  have hjobs : c1.jobs = c.jobs := by
    rw [addNew_of_subset (by
      intro k hkm
      obtain ⟨x, hx, hxk⟩ := List.mem_map.mp hkm
      exact hxk ▸ hkeys x hx)] at hk1
    have hlen := congrArg List.length hk1
    simp only [List.length_map] at hlen
    exact (hpre.eq_of_length hlen.symm).symm
  refine ⟨c1, hR, hfaults, hexp, hjobs, ?_⟩
  rw [hcalls, headCalls_of_contains hfin]

/-- A live experiment that is not pending and has a JobSpec, with a scheme that does
not know the experiment kind and no fault: `Reconcile` stops at the first owner
reference, after the finalizer has been ensured. -/
theorem Reconcile_live_noscheme {r : FinetuneExperimentReconciler} {req : Request} {c : Client}
    {e : FinetuneExperiment} (hf : c.faults = [])
    (he : findExperiment req.NamespacedName c.experiments = some e)
    (hlive : e.DeletionTimestamp = none)
    (hs : r.Scheme.kinds.contains FinetuneExperimentKind = false)
    (hact : activeJobs e ≠ []) :
    ∃ c1, Reconcile r req c = (HandlerErr (some .NoKindRegistered), c1) ∧ c1.faults = [] ∧
      c1.experiments = putExperiment (AddFinalizer e FinetuneGroupFinalizer) c.experiments ∧
      findExperiment req.NamespacedName c1.experiments =
        some (AddFinalizer e FinetuneGroupFinalizer) ∧
      c1.jobs = c.jobs ∧ c1.calls = c.calls ++ headCalls req e := by
  have hf0 : c.fault = none := Client.fault_of_nil hf
  rcases Reconcile_live (r := r) hf0 he hlive with
    ⟨f, _, h, _⟩ | ⟨cA, hR, hcallsA, hjobsA, hexpA, hfaultsA, _, hfindA⟩
  · rw [Client.fault_of_nil (by simp [hf])] at h
    cases h
  · have hfA : cA.faults = [] := by
      rw [hfaultsA, hf]; simp
    have hp : e.Spec.Pending = false := by
      cases hp : e.Spec.Pending with
      | false => rfl
      | true => exact absurd (by simp [activeJobs, hp]) hact
    have hpA : (AddFinalizer e FinetuneGroupFinalizer).Spec.Pending = false := by
      rw [addFinalizer_spec]; exact hp
    have hjs : e.Spec.FinetuneJobs ≠ [] := by
      simpa [activeJobs, hp] using hact
    obtain ⟨x, rest, hxr⟩ := List.exists_cons_of_ne_nil hjs
    have hloop : reconcileJobs r (AddFinalizer e FinetuneGroupFinalizer).Spec.FinetuneJobs
        (AddFinalizer e FinetuneGroupFinalizer) cA = (.error .NoKindRegistered, cA) := by
      rw [addFinalizer_spec, hxr]
      rcases reconcileJob_cases r (AddFinalizer e FinetuneGroupFinalizer) x cA with
        ⟨_, h⟩ | ⟨h, _⟩
      · simp only [reconcileJobs, h]
      · rw [hs] at h; cases h
    refine ⟨cA, ?_, hfA, hexpA, hfindA, hjobsA, hcallsA⟩
    rw [hR, reconcileLive_not_pending r _ cA hpA, hloop]

theorem addFinalizer_deletionTimestamp (e : FinetuneExperiment) (f : String) :
    (AddFinalizer e f).DeletionTimestamp = e.DeletionTimestamp := by
  unfold AddFinalizer
  split <;> rfl

theorem addFinalizer_idem (e : FinetuneExperiment) (f : String) :
    AddFinalizer (AddFinalizer e f) f = AddFinalizer e f :=
  addFinalizer_of_contains (containsFinalizer_addFinalizer e f)

/-- Running `Reconcile` a second time, with no fault in either run: both runs return
the same result, the second leaves the store as the first left it, issues no update
of the experiment, hands to a status write only the experiment as stored, creates
only jobs that are already stored, and does issue a status write when the
experiment is live and the run succeeds. -/
theorem Reconcile_rerun (r : FinetuneExperimentReconciler) (req : Request) (c : Client)
    (hf : c.faults = []) :
    ∃ res c1 c2 new, Reconcile r req c = (res, c1) ∧ Reconcile r req c1 = (res, c2) ∧
      c1.faults = [] ∧ c2.experiments = c1.experiments ∧ c2.jobs = c1.jobs ∧
      c2.calls = c1.calls ++ new ∧
      (∀ obj, Call.UpdateExperiment obj ∉ new) ∧
      (∀ obj, Call.UpdateStatus obj ∈ new →
        findExperiment req.NamespacedName c1.experiments = some obj) ∧
      (∀ job, Call.CreateJob job ∈ new → job.key ∈ c1.jobs.map FinetuneJob.key) ∧
      (∀ e1, findExperiment req.NamespacedName c1.experiments = some e1 →
        e1.DeletionTimestamp = none → res.2 = none → Call.UpdateStatus e1 ∈ new) := by
  have hf0 : c.fault = none := Client.fault_of_nil hf
  have hnextf : ∀ call, (c.next call).faults = [] := fun call => by simp [hf]
  cases he : findExperiment req.NamespacedName c.experiments with
  | none =>
      have hR1 := Reconcile_notFound (r := r) hf0 he
      have hR2 := @Reconcile_notFound r req
        (c.next (.GetExperiment req.NamespacedName))
        (Client.fault_of_nil (hnextf _)) he
      refine ⟨_, _, _, [.GetExperiment req.NamespacedName], hR1, hR2, hnextf _, rfl, rfl, rfl,
        ?_, ?_, ?_, ?_⟩
      · intro obj h; simp at h
      · intro obj h; simp at h
      · intro job h; simp at h
      · intro e1 h
        rw [Client.next_experiments, he] at h
        cases h
  | some e =>
      by_cases hdel : e.DeletionTimestamp ≠ none
      · have hsecond : ∀ c1 : Client, c1.faults = [] → ∀ e1 : FinetuneExperiment,
            findExperiment req.NamespacedName c1.experiments = some e1 →
            e1.DeletionTimestamp ≠ none →
            ContainsFinalizer e1 FinetuneGroupFinalizer = false →
            Reconcile r req c1 = (HandlerErr none, c1.next (.GetExperiment req.NamespacedName)) := by
          intro c1 hf1 e1 he1 hdel1 hfin1
          rcases Reconcile_deleting_cases (r := r) (Client.fault_of_nil hf1) he1 hdel1 with
            ⟨_, hR⟩ | ⟨h, _⟩
          · exact hR
          · rw [hfin1] at h; cases h
        rcases Reconcile_deleting_cases (r := r) hf0 he hdel with
          ⟨hfin, hR⟩ | ⟨hfin, ⟨f, hf1, hR⟩ | ⟨hf1, hR⟩⟩
        · refine ⟨_, _, _, [.GetExperiment req.NamespacedName], hR,
            hsecond _ (hnextf _) e he hdel hfin, hnextf _, rfl, rfl, rfl, ?_, ?_, ?_, ?_⟩
          · intro obj h; simp at h
          · intro obj h; simp at h
          · intro job h; simp at h
          · intro e1 h hl
            rw [Client.next_experiments, he] at h
            cases h
            exact absurd hl hdel
        · simp [Client.faultAt, hf] at hf1
        · have hc1f : ({ (c.next (.GetExperiment req.NamespacedName)).next
                (.UpdateExperiment (RemoveFinalizer e FinetuneGroupFinalizer)) with
              experiments :=
                putExperiment (RemoveFinalizer e FinetuneGroupFinalizer) c.experiments } :
              Client).faults = [] := by
            simp [hf]
          refine ⟨_, _, _, [.GetExperiment req.NamespacedName], hR,
            hsecond _ hc1f (RemoveFinalizer e FinetuneGroupFinalizer)
              (findExperiment_put_removeFinalizer he) hdel
              (containsFinalizer_removeFinalizer _ _),
            hc1f, rfl, rfl, rfl, ?_, ?_, ?_, ?_⟩
          · intro obj h; simp at h
          · intro obj h; simp at h
          · intro job h; simp at h
          · intro e1 h hl
            simp only at h
            rw [findExperiment_put_removeFinalizer he] at h
            cases h
            exact absurd hl hdel
      · have hlive : e.DeletionTimestamp = none := by
          simpa using hdel
        by_cases hs : r.Scheme.kinds.contains FinetuneExperimentKind = true ∨ activeJobs e = []
        · obtain ⟨l, c1, hR, hfaults, _, hfind, _, _, hk1, hn1, _, _, _⟩ :=
            Reconcile_live_nofault (r := r) hf he hlive hs
          have hact1 : activeJobs (liveResult (AddFinalizer e FinetuneGroupFinalizer) l) =
              activeJobs e := by
            rw [← activeJobs_addFinalizer e FinetuneGroupFinalizer]
            rfl
          have hlive1 : (liveResult (AddFinalizer e FinetuneGroupFinalizer) l).DeletionTimestamp
              = none := by
            rw [← hlive, ← addFinalizer_deletionTimestamp e FinetuneGroupFinalizer]
            rfl
          have hkeys : ∀ x ∈ activeJobs (liveResult (AddFinalizer e FinetuneGroupFinalizer) l),
              childKey (liveResult (AddFinalizer e FinetuneGroupFinalizer) l) x ∈
                c1.jobs.map FinetuneJob.key := by
            intro x hx
            rw [hact1] at hx
            rw [hk1, mem_addNew]
            right
            have hck : childKey (liveResult (AddFinalizer e FinetuneGroupFinalizer) l) x =
                childKey e x := by
              simp only [childKey, liveResult, FinetuneExperiment.withEntries,
                addFinalizer_name, addFinalizer_namespace]
            rw [hck]
            exact List.mem_map_of_mem _ hx
          have hnames : ∀ x ∈ activeJobs (liveResult (AddFinalizer e FinetuneGroupFinalizer) l),
              resolvedName (liveResult (AddFinalizer e FinetuneGroupFinalizer) l).Name x ∈
                statusNames
                  (liveResult (AddFinalizer e FinetuneGroupFinalizer) l).Status.JobsStatus := by
            intro x hx
            rw [hact1] at hx
            rw [hn1, mem_addNew]
            right
            have hrn : (liveResult (AddFinalizer e FinetuneGroupFinalizer) l).Name = e.Name := by
              simp only [liveResult, FinetuneExperiment.withEntries, addFinalizer_name]
            rw [hrn]
            exact List.mem_map_of_mem _ hx
          obtain ⟨c2, hR2, _, hexp2, hjobs2, hcalls2⟩ :=
            Reconcile_settled (r := r) hfaults hfind hlive1
              (containsFinalizer_addFinalizer e _) rfl hkeys hnames (by rw [hact1]; exact hs)
          refine ⟨_, c1, c2, _, hR, hR2, hfaults, hexp2, hjobs2,
            (by rw [hcalls2, List.append_assoc, List.append_assoc]), ?_, ?_, ?_, ?_⟩
          · intro obj h
            simp only [List.mem_append, List.mem_singleton] at h
            rcases h with h | h | h
            · cases h
            · exact absurd h (by
                intro h
                obtain ⟨_, x, _, h | h⟩ := mem_liveCalls h <;> cases h)
            · cases h
          · intro obj h
            simp only [List.mem_append, List.mem_singleton] at h
            rcases h with h | h | h
            · cases h
            · exact absurd h updateStatus_not_mem_liveCalls
            · cases h
              exact hfind
          · intro job h
            simp only [List.mem_append, List.mem_singleton] at h
            rcases h with h | h | h
            · cases h
            · obtain ⟨hp1, x, hx, h | h⟩ := mem_liveCalls h
              · cases h
                have hx2 : x ∈ activeJobs (liveResult (AddFinalizer e FinetuneGroupFinalizer) l) := by
                  unfold activeJobs
                  rw [if_neg (by simp [hp1])]
                  exact hx
                exact hkeys x hx2
              · cases h
            · cases h
          · intro e1 h _ _
            rw [hfind] at h
            cases h
            simp
        · have hs2 : r.Scheme.kinds.contains FinetuneExperimentKind = false := by
            cases h : r.Scheme.kinds.contains FinetuneExperimentKind with
            | false => rfl
            | true => exact absurd (Or.inl h) hs
          have hact : activeJobs e ≠ [] := fun h => hs (Or.inr h)
          obtain ⟨c1, hR, hfaults, _, hfind, _, _⟩ :=
            Reconcile_live_noscheme (r := r) hf he hlive hs2 hact
          have hkA : (AddFinalizer e FinetuneGroupFinalizer).key = req.NamespacedName :=
            findExperiment_key hfind
          obtain ⟨c2, hR2, _, hexp2, _, hjobs2, hcalls2⟩ :=
            Reconcile_live_noscheme (r := r) hfaults hfind
              (by rw [addFinalizer_deletionTimestamp]; exact hlive) hs2
              (by rw [activeJobs_addFinalizer]; exact hact)
          rw [addFinalizer_idem, putExperiment_self (by rw [hkA]; exact hfind)] at hexp2
          rw [headCalls_of_contains (containsFinalizer_addFinalizer e _)] at hcalls2
          refine ⟨_, c1, c2, _, hR, hR2, hfaults, hexp2, hjobs2, hcalls2, ?_, ?_, ?_, ?_⟩
          · intro obj h; simp at h
          · intro obj h; simp at h
          · intro job h; simp at h
          · intro e1 _ _ h
            cases h

/-- C4: `Reconcile` is idempotent on the store.  For every client state whose fault
script is empty (all store calls succeed), a second `Reconcile` for the same request
right after the first leaves the stored experiments (finalizers, `status.state`,
`status.jobsStatus`) and the stored jobs exactly as the first run left them, and
returns the same result.  No branch is excluded: the experiment may be absent,
deleting, pending or processing, several JobSpecs may resolve to one name, and the
owner reference may fail to build. -/
theorem Reconcile_idempotent (r : FinetuneExperimentReconciler) (req : Request) (c : Client)
    (hf : c.faults = []) :
    (Reconcile r req (Reconcile r req c).2).2.experiments = (Reconcile r req c).2.experiments ∧
    (Reconcile r req (Reconcile r req c).2).2.jobs = (Reconcile r req c).2.jobs ∧
    (Reconcile r req (Reconcile r req c).2).1 = (Reconcile r req c).1 := by
  obtain ⟨res, c1, c2, new, hR1, hR2, _, hexp, hjobs, _⟩ := Reconcile_rerun r req c hf
  rw [hR1]
  simp only
  rw [hR2]
  exact ⟨hexp, hjobs, rfl⟩

/-- C3, amended: a redundant run changes nothing but still writes the status.  If
no call is faulted and `Reconcile` has just succeeded, a second `Reconcile` for the
same request leaves the stored experiments and jobs unchanged, issues no update of
the experiment, creates only jobs that are already stored (so each such create is
answered AlreadyExists), and hands to a status write only the experiment exactly as
stored; when the stored experiment is live it does issue that status write. -/
theorem Reconcile_redundant_run (r : FinetuneExperimentReconciler) (req : Request) (c : Client)
    (hf : c.faults = []) (hok : (Reconcile r req c).1.2 = none) :
    (Reconcile r req (Reconcile r req c).2).2.experiments = (Reconcile r req c).2.experiments ∧
    (Reconcile r req (Reconcile r req c).2).2.jobs = (Reconcile r req c).2.jobs ∧
    (∀ obj, Call.UpdateExperiment obj ∉ callsOf r req (Reconcile r req c).2) ∧
    (∀ job, Call.CreateJob job ∈ callsOf r req (Reconcile r req c).2 →
      ∃ j, findJob job.key (Reconcile r req c).2.jobs = some j) ∧
    (∀ obj, Call.UpdateStatus obj ∈ callsOf r req (Reconcile r req c).2 →
      findExperiment req.NamespacedName (Reconcile r req c).2.experiments = some obj) ∧
    (∀ e1, findExperiment req.NamespacedName (Reconcile r req c).2.experiments = some e1 →
      e1.DeletionTimestamp = none →
      Call.UpdateStatus e1 ∈ callsOf r req (Reconcile r req c).2) := by
  obtain ⟨res, c1, c2, new, hR1, hR2, _, hexp, hjobs, hcalls, hnoupd, hstatus, hcreate, hlive⟩ :=
    Reconcile_rerun r req c hf
  rw [hR1] at hok ⊢
  simp only at hok ⊢
  have hco : callsOf r req c1 = new := callsOf_eq (by rw [hR2]; exact hcalls)
  rw [hco, hR2]
  refine ⟨hexp, hjobs, hnoupd, ?_, hstatus, fun e1 h1 h2 => hlive e1 h1 h2 hok⟩
  intro job hjob
  have hmem := hcreate job hjob
  cases hfj : findJob job.key c1.jobs with
  | some j => exact ⟨j, rfl⟩
  | none =>
      rw [findJob_eq_none_iff] at hfj
      exact absurd hmem hfj

/-! ### Repeated runs -/

/-- The facts about the stored experiment that repeated runs preserve, relative to
the experiment `e` fetched by the first run. -/
theorem reconcileTimes_invariant (r : FinetuneExperimentReconciler) (req : Request)
    (c : Client) (e : FinetuneExperiment)
    (hf : c.faults = [])
    (hs : r.Scheme.kinds.contains FinetuneExperimentKind = true)
    (he : findExperiment req.NamespacedName c.experiments = some e)
    (hlive : e.DeletionTimestamp = none) (hp : e.Spec.Pending = false)
    (hjobs : c.jobs = []) (k : Nat) :
    (reconcileTimes r req k c).faults = [] ∧
    (∃ ek, findExperiment req.NamespacedName (reconcileTimes r req k c).experiments = some ek ∧
      ek.DeletionTimestamp = none ∧ ek.Spec = e.Spec ∧ ek.Name = e.Name ∧
      ek.Namespace = e.Namespace) ∧
    (reconcileTimes r req k c).jobs.map FinetuneJob.key =
      (if k = 0 then [] else addNew [] (e.Spec.FinetuneJobs.map (childKey e))) ∧
    (Reconcile r req (reconcileTimes r req k c)).1 = HandlerErr none := by
  have hstep : ∀ (c' : Client) (e' : FinetuneExperiment), c'.faults = [] →
      findExperiment req.NamespacedName c'.experiments = some e' →
      e'.DeletionTimestamp = none → e'.Spec = e.Spec → e'.Name = e.Name →
      e'.Namespace = e.Namespace →
      (Reconcile r req c').1 = HandlerErr none ∧ (Reconcile r req c').2.faults = [] ∧
      (∃ ek, findExperiment req.NamespacedName (Reconcile r req c').2.experiments = some ek ∧
        ek.DeletionTimestamp = none ∧ ek.Spec = e.Spec ∧ ek.Name = e.Name ∧
        ek.Namespace = e.Namespace) ∧
      (Reconcile r req c').2.jobs.map FinetuneJob.key =
        addNew (c'.jobs.map FinetuneJob.key) (e.Spec.FinetuneJobs.map (childKey e)) := by
    intro c' e' hf' he' hlive' hspec hname hns
    obtain ⟨l, c1, hR, hfaults, _, hfind, _, _, hkeys, _⟩ :=
      Reconcile_live_nofault (r := r) hf' he' hlive' (Or.inl hs)
    have hact : activeJobs e' = e.Spec.FinetuneJobs := by
      simp [activeJobs, hspec, hp]
    have hck : e.Spec.FinetuneJobs.map (childKey e') = e.Spec.FinetuneJobs.map (childKey e) := by
      apply List.map_congr_left
      intro x _
      simp only [childKey, hname, hns]
    rw [hact, hck] at hkeys
    rw [hR]
    refine ⟨rfl, hfaults, ⟨_, hfind, ?_, ?_, ?_, ?_⟩, hkeys⟩
    · show (AddFinalizer e' FinetuneGroupFinalizer).DeletionTimestamp = none
      rw [addFinalizer_deletionTimestamp]; exact hlive'
    · show (AddFinalizer e' FinetuneGroupFinalizer).Spec = e.Spec
      rw [addFinalizer_spec]; exact hspec
    · show (AddFinalizer e' FinetuneGroupFinalizer).Name = e.Name
      rw [addFinalizer_name]; exact hname
    · show (AddFinalizer e' FinetuneGroupFinalizer).Namespace = e.Namespace
      rw [addFinalizer_namespace]; exact hns
  have hinv : ∀ k, (reconcileTimes r req k c).faults = [] ∧
      (∃ ek, findExperiment req.NamespacedName (reconcileTimes r req k c).experiments = some ek ∧
        ek.DeletionTimestamp = none ∧ ek.Spec = e.Spec ∧ ek.Name = e.Name ∧
        ek.Namespace = e.Namespace) ∧
      (reconcileTimes r req k c).jobs.map FinetuneJob.key =
        (if k = 0 then [] else addNew [] (e.Spec.FinetuneJobs.map (childKey e))) := by
    intro k
    induction k with
    | zero => exact ⟨hf, ⟨e, he, hlive, rfl, rfl, rfl⟩, by simp [reconcileTimes, hjobs]⟩
    | succ n ih =>
        obtain ⟨hfn, ⟨en, hen, hl, hsp, hn, hns⟩, hkn⟩ := ih
        obtain ⟨_, hf2, hex, hk2⟩ := hstep _ en hfn hen hl hsp hn hns
        refine ⟨hf2, hex, ?_⟩
        show (Reconcile r req (reconcileTimes r req n c)).2.jobs.map FinetuneJob.key = _
        rw [hk2, hkn, if_neg (Nat.succ_ne_zero n)]
        by_cases hn0 : n = 0
        · rw [if_pos hn0]
        · rw [if_neg hn0]
          apply addNew_of_subset
          intro x hx
          rw [mem_addNew]
          exact Or.inr hx
  obtain ⟨hfk, ⟨ek, hek, hl, hsp, hn, hns⟩, hkk⟩ := hinv k
  exact ⟨hfk, ⟨ek, hek, hl, hsp, hn, hns⟩, hkk, (hstep _ ek hfk hek hl hsp hn hns).1⟩

/-- C2, amended: one child per distinct resolved name.  For an experiment in the
store with no deletion marker and `spec.pending = false`, a store that initially
holds no job, no faulted call and a scheme that knows the experiment kind, every run
of a sequence of `Reconcile` calls succeeds, and after any number `k ≥ 1` of runs
the store holds exactly one job per distinct resolved name, in order of first
occurrence.  The number of jobs is the number `N` of JobSpecs when the resolved
names are pairwise distinct (in particular when all names are explicit and
distinct), and it is 1 when there are several JobSpecs and all are unnamed. -/
theorem Reconcile_job_count (r : FinetuneExperimentReconciler) (req : Request)
    (c : Client) (e : FinetuneExperiment)
    (hf : c.faults = [])
    (hs : r.Scheme.kinds.contains FinetuneExperimentKind = true)
    (he : findExperiment req.NamespacedName c.experiments = some e)
    (hlive : e.DeletionTimestamp = none) (hp : e.Spec.Pending = false)
    (hjobs : c.jobs = []) (k : Nat) (hk : 1 ≤ k) :
    (∀ i < k, (Reconcile r req (reconcileTimes r req i c)).1 = HandlerErr none) ∧
    (reconcileTimes r req k c).jobs.map FinetuneJob.key =
      (firstOccurrences (e.Spec.FinetuneJobs.map (resolvedName e.Name))).map
        (fun n => ({ Namespace := e.Namespace, Name := n } : NamespacedName)) ∧
    (reconcileTimes r req k c).jobs.length =
      (firstOccurrences (e.Spec.FinetuneJobs.map (resolvedName e.Name))).length ∧
    ((e.Spec.FinetuneJobs.map (resolvedName e.Name)).Nodup →
      (reconcileTimes r req k c).jobs.length = e.Spec.FinetuneJobs.length) ∧
    (e.Spec.FinetuneJobs ≠ [] → (∀ js ∈ e.Spec.FinetuneJobs, js.Name = none) →
      (reconcileTimes r req k c).jobs.length = 1) := by
  have hkeys : (reconcileTimes r req k c).jobs.map FinetuneJob.key =
      (firstOccurrences (e.Spec.FinetuneJobs.map (resolvedName e.Name))).map
        (fun n => ({ Namespace := e.Namespace, Name := n } : NamespacedName)) := by
    rw [(reconcileTimes_invariant r req c e hf hs he hlive hp hjobs k).2.2.1,
      if_neg (by omega)]
    exact keys_firstOccurrences e e.Spec.FinetuneJobs
  have hlen : (reconcileTimes r req k c).jobs.length =
      (firstOccurrences (e.Spec.FinetuneJobs.map (resolvedName e.Name))).length := by
    have := congrArg List.length hkeys
    simpa using this
  refine ⟨fun i _ => (reconcileTimes_invariant r req c e hf hs he hlive hp hjobs i).2.2.2,
    hkeys, hlen, ?_, ?_⟩
  · intro hnd
    rw [hlen, firstOccurrences, addNew_of_nodup hnd (by simp)]
    simp
  · intro hne hall
    rw [hlen]
    obtain ⟨x, rest, hxr⟩ := List.exists_cons_of_ne_nil hne
    have hnames : e.Spec.FinetuneJobs.map (resolvedName e.Name) =
        (e.Name ++ "-finetunejob") :: rest.map (fun _ => e.Name ++ "-finetunejob") := by
      rw [hxr] at hall ⊢
      rw [List.map_cons]
      congr 1
      · simp [resolvedName, hall x (List.mem_cons_self _ _)]
      · apply List.map_congr_left
        intro y hy
        simp [resolvedName, hall y (List.mem_cons_of_mem _ hy)]
    rw [hnames, firstOccurrences, addNew_cons]
    simp only [List.not_mem_nil, if_false, List.nil_append]
    rw [addNew_of_subset (by
      intro n hn
      obtain ⟨_, _, h⟩ := List.mem_map.mp hn
      rw [← h]
      exact List.mem_singleton.mpr rfl)]
    rfl

/-! ### The theorems at the example inputs -/

/-- C2, as stated, fails: `twinExperiment` has two JobSpecs, both unnamed, the store
holds no job and no call is faulted; one `Reconcile` succeeds and the store then
holds one job, not two. -/
theorem Reconcile_job_count_counterexample :
    twinClient.jobs = [] ∧ twinClient.faults = [] ∧
    findExperiment exampleRequest.NamespacedName twinClient.experiments = some twinExperiment ∧
    (∀ js ∈ twinExperiment.Spec.FinetuneJobs, js.Name = none) ∧
    twinExperiment.Spec.FinetuneJobs.length = 2 ∧
    (Reconcile exampleReconciler exampleRequest twinClient).1 = HandlerErr none ∧
    (Reconcile exampleReconciler exampleRequest twinClient).2.jobs.length = 1 ∧
    (Reconcile exampleReconciler exampleRequest twinClient).2.jobs.length ≠
      twinExperiment.Spec.FinetuneJobs.length := by
  decide

/-- C2, amended, at `exp1`: two runs on the store of the scenario leave two jobs, as
many as there are JobSpecs, since the two resolved names differ. -/
theorem Reconcile_job_count_witness :
    exampleClient.faults = [] ∧ exampleClient.jobs = [] ∧
    (exp1.Spec.FinetuneJobs.map (resolvedName exp1.Name)).Nodup ∧
    (reconcileTimes exampleReconciler exampleRequest 2 exampleClient).jobs.length =
      exp1.Spec.FinetuneJobs.length :=
  ⟨rfl, rfl, by decide,
    (Reconcile_job_count exampleReconciler exampleRequest exampleClient exp1 rfl (by decide)
      (by decide) rfl rfl rfl 2 (by decide)).2.2.2.1 (by decide)⟩

/-- C3, as stated, fails: after a successful `Reconcile` of `exp1` with no faulted
call, the second `Reconcile` issues a status write. -/
theorem Reconcile_redundant_run_counterexample :
    exampleClient.faults = [] ∧
    (Reconcile exampleReconciler exampleRequest exampleClient).1 = HandlerErr none ∧
    Call.UpdateStatus exp1Settled ∈
      callsOf exampleReconciler exampleRequest
        (Reconcile exampleReconciler exampleRequest exampleClient).2 ∧
    (Call.UpdateStatus exp1Settled).isWrite = true := by
  decide

/-- C3, amended, at `exp1`: the second run leaves the stored experiments as the first
run left them. -/
theorem Reconcile_redundant_run_witness :
    exampleClient.faults = [] ∧
    (Reconcile exampleReconciler exampleRequest exampleClient).1.2 = none ∧
    (Reconcile exampleReconciler exampleRequest
        (Reconcile exampleReconciler exampleRequest exampleClient).2).2.experiments =
      (Reconcile exampleReconciler exampleRequest exampleClient).2.experiments :=
  ⟨rfl, by decide,
    (Reconcile_redundant_run exampleReconciler exampleRequest exampleClient rfl
      (by decide)).1⟩

/-- C4 at `twinExperiment`, whose two JobSpecs resolve to the same name: the second
run leaves the jobs as the first run left them. -/
theorem Reconcile_idempotent_witness :
    twinClient.faults = [] ∧
    (Reconcile exampleReconciler exampleRequest
        (Reconcile exampleReconciler exampleRequest twinClient).2).2.jobs =
      (Reconcile exampleReconciler exampleRequest twinClient).2.jobs :=
  ⟨rfl, (Reconcile_idempotent exampleReconciler exampleRequest twinClient rfl).2.1⟩

/-- C5 at `exp1`, which has no finalizer before the run. -/
theorem Reconcile_finalizer_invariant_witness :
    findExperiment exampleRequest.NamespacedName exampleClient.experiments = some exp1 ∧
    exp1.DeletionTimestamp = none ∧ exp1.Finalizers = [] ∧
    (Reconcile exampleReconciler exampleRequest exampleClient).1.2 = none ∧
    ∃ e', findExperiment exampleRequest.NamespacedName
        (Reconcile exampleReconciler exampleRequest exampleClient).2.experiments = some e' ∧
      ContainsFinalizer e' FinetuneGroupFinalizer = true ∧
      FinetuneGroupFinalizer ∈ e'.Finalizers :=
  ⟨by decide, rfl, rfl, by decide,
    Reconcile_finalizer_invariant exampleReconciler exampleRequest exampleClient exp1
      (by decide) rfl (by decide)⟩

/-- C6 at `deletingExperiment`, which carries the finalizer and a deletion marker:
the run succeeds and stores the experiment without the finalizer. -/
theorem Reconcile_deletion_branch_witness :
    findExperiment exampleRequest.NamespacedName deletingClient.experiments =
      some deletingExperiment ∧
    deletingExperiment.DeletionTimestamp ≠ none ∧
    ContainsFinalizer deletingExperiment FinetuneGroupFinalizer = true ∧
    (Reconcile exampleReconciler exampleRequest deletingClient).1 = HandlerErr none ∧
    findExperiment exampleRequest.NamespacedName
        (Reconcile exampleReconciler exampleRequest deletingClient).2.experiments =
      some (RemoveFinalizer deletingExperiment FinetuneGroupFinalizer) ∧
    ContainsFinalizer (RemoveFinalizer deletingExperiment FinetuneGroupFinalizer)
      FinetuneGroupFinalizer = false :=
  ⟨by decide, by decide, by decide,
    (Reconcile_deletion_branch exampleReconciler exampleRequest deletingClient
      deletingExperiment (by decide) (by decide)).2.1 (by decide) (by decide) (by decide)⟩

/-- C7 at `pendingExperiment`: no job call is issued. -/
theorem Reconcile_pending_gate_witness :
    findExperiment exampleRequest.NamespacedName pendingClient.experiments =
      some pendingExperiment ∧
    pendingExperiment.DeletionTimestamp = none ∧ pendingExperiment.Spec.Pending = true ∧
    (∀ call ∈ callsOf exampleReconciler exampleRequest pendingClient,
      call.isJobCall = false) ∧
    (Reconcile exampleReconciler exampleRequest pendingClient).2.jobs = [] :=
  ⟨by decide, rfl, rfl,
    (Reconcile_pending_gate exampleReconciler exampleRequest pendingClient pendingExperiment
      (by decide) rfl rfl).1, by decide⟩

/-- C8 at `exp1`: the job calls of the run are the create and the read-back of
`custom-job` and then of `exp1-finetunejob`. -/
theorem Reconcile_child_descriptors_witness :
    findExperiment exampleRequest.NamespacedName exampleClient.experiments = some exp1 ∧
    (callsOf exampleReconciler exampleRequest exampleClient).filter Call.isJobCall =
      [Call.CreateJob
         { Name := "custom-job", Namespace := "default",
           OwnerReferences := [controllerRef exp1], Spec := { payload := 1 }, Status := {} },
       Call.GetJob { Namespace := "default", Name := "custom-job" },
       Call.CreateJob
         { Name := "exp1-finetunejob", Namespace := "default",
           OwnerReferences := [controllerRef exp1], Spec := { payload := 2 }, Status := {} },
       Call.GetJob { Namespace := "default", Name := "exp1-finetunejob" }] :=
  ⟨by decide,
    ((Reconcile_child_descriptors exampleReconciler exampleRequest exampleClient exp1
      (by decide)).2.1 rfl rfl (by decide)).trans (by decide)⟩

/-- C9 at the scenario of the specification: `exp1` with JobSpecs `custom-job` and
unnamed yields the jobs `custom-job` and `exp1-finetunejob` and two status entries. -/
theorem Reconcile_convergence_witness :
    exampleClient.faults = [] ∧ exampleClient.jobs = [] ∧
    findExperiment exampleRequest.NamespacedName exampleClient.experiments = some exp1 ∧
    (Reconcile exampleReconciler exampleRequest exampleClient).2.jobs.map FinetuneJob.key =
      [{ Namespace := "default", Name := "custom-job" },
       { Namespace := "default", Name := "exp1-finetunejob" }] ∧
    findExperiment exampleRequest.NamespacedName
      (Reconcile exampleReconciler exampleRequest exampleClient).2.experiments =
        some exp1Settled ∧
    exp1Settled.Status.JobsStatus.length = 2 :=
  ⟨rfl, rfl, by decide,
    (Reconcile_convergence exampleReconciler exampleRequest exampleClient exp1 rfl (by decide)
      (by decide) rfl rfl rfl rfl).2.1.trans (by decide),
    by decide, by decide⟩

/-- C10 at `resumedExperiment`, whose status already records `custom-job`: the
status stored after the run has no repeated name. -/
theorem Reconcile_status_names_nodup_witness :
    findExperiment exampleRequest.NamespacedName resumedClient.experiments =
      some resumedExperiment ∧
    (statusNames resumedExperiment.Status.JobsStatus).Nodup ∧
    (∀ e', findExperiment exampleRequest.NamespacedName
        (Reconcile exampleReconciler exampleRequest resumedClient).2.experiments = some e' →
      (statusNames e'.Status.JobsStatus).Nodup) ∧
    ((Reconcile exampleReconciler exampleRequest resumedClient).2.experiments.map
      (fun x => statusNames x.Status.JobsStatus)) = [["custom-job", "exp1-finetunejob"]] :=
  ⟨by decide, by decide,
    (Reconcile_status_names_nodup exampleReconciler exampleRequest resumedClient
      resumedExperiment (by decide) (by decide)).2, by decide⟩

/-! ### Calls and their answers -/

theorem Client.Get_client (c : Client) (key : NamespacedName) :
    (c.Get key).2 = c.next (.GetExperiment key) := by
  unfold Client.Get
  split
  · rfl
  · split <;> rfl

theorem Client.GetJob_client (c : Client) (key : NamespacedName) :
    (c.GetJob key).2 = c.next (.GetJob key) := by
  unfold Client.GetJob
  split
  · rfl
  · split <;> rfl

theorem Client.Update_frame (c : Client) (obj : FinetuneExperiment) :
    (c.Update obj).2.calls = c.calls ++ [.UpdateExperiment obj] ∧
    (c.Update obj).2.jobs = c.jobs ∧ (c.Update obj).2.faults = c.faults.tail := by
  unfold Client.Update
  split
  · exact ⟨rfl, rfl, rfl⟩
  · split <;> exact ⟨rfl, rfl, rfl⟩

theorem Client.StatusUpdate_frame (c : Client) (obj : FinetuneExperiment) :
    (c.StatusUpdate obj).2.calls = c.calls ++ [.UpdateStatus obj] ∧
    (c.StatusUpdate obj).2.jobs = c.jobs ∧ (c.StatusUpdate obj).2.faults = c.faults.tail := by
  unfold Client.StatusUpdate
  split
  · exact ⟨rfl, rfl, rfl⟩
  · split <;> exact ⟨rfl, rfl, rfl⟩

theorem Client.Create_frame (c : Client) (obj : FinetuneJob) :
    (c.Create obj).2.calls = c.calls ++ [.CreateJob obj] ∧
    (c.Create obj).2.experiments = c.experiments ∧
    c.jobs <+: (c.Create obj).2.jobs ∧ (c.Create obj).2.faults = c.faults.tail := by
  unfold Client.Create
  split
  · exact ⟨rfl, rfl, List.prefix_refl _, rfl⟩
  · split
    · exact ⟨rfl, rfl, List.prefix_refl _, rfl⟩
    · exact ⟨rfl, rfl, List.prefix_append _ _, rfl⟩

theorem Client.perform_calls (c : Client) (call : Call) :
    (c.perform call).2.calls = c.calls ++ [call] := by
  cases call with
  | GetExperiment key => simp [Client.perform, Client.Get_client]
  | UpdateExperiment obj => exact (Client.Update_frame c obj).1
  | UpdateStatus obj => exact (Client.StatusUpdate_frame c obj).1
  | CreateJob obj => exact (Client.Create_frame c obj).1
  | GetJob key => simp [Client.perform, Client.GetJob_client]

theorem Client.perform_jobs (c : Client) (call : Call) :
    c.jobs <+: (c.perform call).2.jobs := by
  cases call with
  | GetExperiment key => simp [Client.perform, Client.Get_client]
  | UpdateExperiment obj =>
      simp only [Client.perform, (Client.Update_frame c obj).2.1]
      exact List.prefix_refl _
  | UpdateStatus obj =>
      simp only [Client.perform, (Client.StatusUpdate_frame c obj).2.1]
      exact List.prefix_refl _
  | CreateJob obj => exact (Client.Create_frame c obj).2.2.1
  | GetJob key => simp [Client.perform, Client.GetJob_client]

theorem runCalls_append (c : Client) (l1 l2 : List Call) :
    runCalls c (l1 ++ l2) =
      ((runCalls c l1).1 ++ (runCalls (runCalls c l1).2 l2).1,
        (runCalls (runCalls c l1).2 l2).2) := by
  induction l1 generalizing c with
  | nil => rfl
  | cons call rest ih =>
      show runCalls c (call :: (rest ++ l2)) = _
      simp only [runCalls, ih, List.cons_append]

theorem runCalls_calls (c : Client) (l : List Call) :
    (runCalls c l).2.calls = c.calls ++ l := by
  induction l generalizing c with
  | nil => simp [runCalls]
  | cons call rest ih =>
      simp only [runCalls, ih, Client.perform_calls]
      simp

theorem runCalls_jobs (c : Client) (l : List Call) : c.jobs <+: (runCalls c l).2.jobs := by
  induction l generalizing c with
  | nil => exact List.prefix_refl _
  | cons call rest ih =>
      simp only [runCalls]
      exact (Client.perform_jobs c call).trans (ih _)

theorem runCalls_fst (c : Client) (l : List Call) :
    (runCalls c l).1.map Prod.fst = l := by
  induction l generalizing c with
  | nil => rfl
  | cons call rest ih => simp [runCalls, ih]

theorem Traced.nil (c : Client) : Traced c c [] := rfl

theorem Traced.append {c c1 c2 : Client} {o1 o2 : List (Call × Option Error)}
    (h1 : Traced c c1 o1) (h2 : Traced c1 c2 o2) : Traced c c2 (o1 ++ o2) := by
  unfold Traced at *
  rw [List.map_append, runCalls_append, h1]
  simp only
  rw [h2]

theorem Traced.perform (c : Client) (call : Call) :
    Traced c (c.perform call).2 [(call, (c.perform call).1)] := rfl

theorem Traced.calls {c c' : Client} {outs : List (Call × Option Error)}
    (h : Traced c c' outs) : c'.calls = c.calls ++ outs.map Prod.fst := by
  have := runCalls_calls c (outs.map Prod.fst)
  rw [h] at this
  exact this

theorem Traced.jobs {c c' : Client} {outs : List (Call × Option Error)}
    (h : Traced c c' outs) : c.jobs <+: c'.jobs := by
  have := runCalls_jobs c (outs.map Prod.fst)
  rw [h] at this
  exact this

theorem allFine_nil : allFine [] := fun _ h => by cases h

theorem allFine_append {o1 o2 : List (Call × Option Error)} (h1 : allFine o1)
    (h2 : allFine o2) : allFine (o1 ++ o2) := by
  intro p hp
  rcases List.mem_append.mp hp with h | h
  · exact h1 p h
  · exact h2 p h

theorem aborted_append {o1 o2 : List (Call × Option Error)} {err : Error}
    (h1 : allFine o1) (h2 : aborted o2 err) : aborted (o1 ++ o2) err := by
  obtain ⟨good, call, ho, hg, ht⟩ := h2
  exact ⟨o1 ++ good, call, by rw [ho, List.append_assoc], allFine_append h1 hg, ht⟩

theorem Client.perform_create_fault {c : Client} {f : Fault} (d : FinetuneJob)
    (hf : c.fault = some f) :
    c.perform (.CreateJob d) = (some (.Store f), c.next (.CreateJob d)) := by
  simp [Client.perform, Client.Create, hf]

theorem Client.perform_create_ok {c : Client} (d : FinetuneJob) (hf : c.fault = none) :
    ∃ x, c.perform (.CreateJob d) = (x, afterCreate c d) ∧ fine (.CreateJob d, x) = true := by
  cases hj : findJob d.key c.jobs with
  | none => exact ⟨none, by simp [Client.perform, Client.Create, afterCreate, hf, hj], rfl⟩
  | some j =>
      exact ⟨some .AlreadyExists, by simp [Client.perform, Client.Create, afterCreate, hf, hj],
        rfl⟩

theorem Client.perform_getJob_fault {c : Client} {f : Fault} (k : NamespacedName)
    (hf : c.fault = some f) :
    c.perform (.GetJob k) = (some (.Store f), c.next (.GetJob k)) := by
  simp [Client.perform, Client.GetJob, hf, errorOf]

theorem Client.perform_getJob_ok {c : Client} {j : FinetuneJob} (k : NamespacedName)
    (hf : c.fault = none) (hj : findJob k c.jobs = some j) :
    c.perform (.GetJob k) = (none, c.next (.GetJob k)) := by
  simp [Client.perform, Client.GetJob, hf, hj, errorOf]

theorem tolerated_update (obj : FinetuneExperiment) (err : Error) :
    tolerated (.UpdateExperiment obj) err = false := by
  cases err <;> rfl

theorem tolerated_updateStatus (obj : FinetuneExperiment) (err : Error) :
    tolerated (.UpdateStatus obj) err = false := by
  cases err <;> rfl

theorem tolerated_getJob (k : NamespacedName) (err : Error) :
    tolerated (.GetJob k) err = false := by
  cases err <;> rfl

/-- One loop iteration as a sequence of answered calls. -/
theorem reconcileJob_traced (r : FinetuneExperimentReconciler) (e : FinetuneExperiment)
    (x : FinetuneJobSetting) (c : Client) :
    ∃ outs, Traced c (reconcileJob r e x c).2 outs ∧
      (∀ e', (reconcileJob r e x c).1 = .ok e' →
        allFine outs ∧ r.Scheme.kinds.contains FinetuneExperimentKind = true) ∧
      (∀ err, (reconcileJob r e x c).1 = .error err →
        aborted outs err ∨
          (outs = [] ∧ err = .NoKindRegistered ∧
            r.Scheme.kinds.contains FinetuneExperimentKind = false)) := by
  rcases reconcileJob_cases r e x c with
    ⟨hs, h⟩ | ⟨hs, ⟨f, hf, h⟩ | ⟨hf, ⟨f, hf2, h⟩ | ⟨j, hf2, hj, h⟩⟩⟩
  · rw [h]
    refine ⟨[], Traced.nil c, ?_, ?_⟩
    · intro e' he'
      exact Except.noConfusion he'
    · intro err herr
      have : Error.NoKindRegistered = err := by injection herr
      exact Or.inr ⟨rfl, this.symm, hs⟩
  · rw [h]
    refine ⟨[(.CreateJob (childJob e x), some (.Store f))], ?_, ?_, ?_⟩
    · have := Traced.perform c (.CreateJob (childJob e x))
      rw [Client.perform_create_fault _ hf] at this
      exact this
    · intro e' he'
      exact Except.noConfusion he'
    · intro err herr
      have : Error.Store f = err := by injection herr
      subst this
      exact Or.inl ⟨[], _, rfl, allFine_nil, rfl⟩
  · rw [h]
    obtain ⟨a, ha, hfine⟩ := Client.perform_create_ok (childJob e x) hf
    have t1 := Traced.perform c (.CreateJob (childJob e x))
    rw [ha] at t1
    have t2 := Traced.perform (afterCreate c (childJob e x)) (.GetJob (childKey e x))
    rw [Client.perform_getJob_fault _ hf2] at t2
    refine ⟨_, t1.append t2, ?_, ?_⟩
    · intro e' he'
      exact Except.noConfusion he'
    · intro err herr
      have : Error.Store f = err := by injection herr
      subst this
      refine Or.inl ⟨[(.CreateJob (childJob e x), a)], _, rfl, ?_, rfl⟩
      intro p hp
      rw [List.mem_singleton] at hp
      rw [hp]
      exact hfine
  · rw [h]
    obtain ⟨a, ha, hfine⟩ := Client.perform_create_ok (childJob e x) hf
    have t1 := Traced.perform c (.CreateJob (childJob e x))
    rw [ha] at t1
    have t2 := Traced.perform (afterCreate c (childJob e x)) (.GetJob (childKey e x))
    rw [Client.perform_getJob_ok _ hf2 hj] at t2
    refine ⟨_, t1.append t2, ?_, ?_⟩
    · intro e' _
      refine ⟨?_, hs⟩
      intro p hp
      simp only [List.singleton_append, List.mem_cons, List.mem_singleton, List.not_mem_nil,
        or_false] at hp
      rcases hp with hp | hp
      · rw [hp]
        exact hfine
      · rw [hp]
        rfl
    · intro err herr
      exact Except.noConfusion herr

/-- The loop as a sequence of answered calls. -/
theorem reconcileJobs_traced (r : FinetuneExperimentReconciler) (js : List FinetuneJobSetting)
    (e : FinetuneExperiment) (c : Client) :
    ∃ outs, Traced c (reconcileJobs r js e c).2 outs ∧
      (∀ e', (reconcileJobs r js e c).1 = .ok e' →
        allFine outs ∧ (js ≠ [] → r.Scheme.kinds.contains FinetuneExperimentKind = true)) ∧
      (∀ err, (reconcileJobs r js e c).1 = .error err →
        aborted outs err ∨
          (outs = [] ∧ err = .NoKindRegistered ∧
            r.Scheme.kinds.contains FinetuneExperimentKind = false ∧ js ≠ [])) := by
  induction js generalizing e c with
  | nil =>
      refine ⟨[], Traced.nil c, ?_, ?_⟩
      · intro e' _
        exact ⟨allFine_nil, fun h => absurd rfl h⟩
      · intro err herr
        exact Except.noConfusion herr
  | cons x rest ih =>
      obtain ⟨o1, t1, hok1, herr1⟩ := reconcileJob_traced r e x c
      simp only [reconcileJobs]
      rcases hj : reconcileJob r e x c with ⟨res, c1⟩
      rw [hj] at t1 hok1 herr1
      cases res with
      | error err0 =>
          refine ⟨o1, t1, ?_, ?_⟩
          · intro e' he'
            exact Except.noConfusion he'
          · intro err herr
            rcases herr1 err herr with h | ⟨h1, h2, h3⟩
            · exact Or.inl h
            · exact Or.inr ⟨h1, h2, h3, List.cons_ne_nil _ _⟩
      | ok e1 =>
          obtain ⟨hfine1, hs⟩ := hok1 e1 rfl
          obtain ⟨o2, t2, hok2, herr2⟩ := ih e1 c1
          refine ⟨o1 ++ o2, t1.append t2, ?_, ?_⟩
          · intro e' he'
            exact ⟨allFine_append hfine1 (hok2 e' he').1, fun _ => hs⟩
          · intro err herr
            rcases herr2 err herr with h | ⟨_, _, h3, _⟩
            · exact Or.inl (aborted_append hfine1 h)
            · rw [hs] at h3
              exact Bool.noConfusion h3

/-- The status write as an answered call. -/
theorem persistStatus_traced (c : Client) (obj : FinetuneExperiment) :
    ∃ seam, Traced c (persistStatus c obj).2 [(.UpdateStatus obj, seam)] ∧
      (persistStatus c obj).1 = HandlerErr seam := by
  have t := Traced.perform c (.UpdateStatus obj)
  unfold persistStatus
  rcases h : c.StatusUpdate obj with ⟨res, c1⟩
  simp only [Client.perform, h] at t
  cases res with
  | error err => exact ⟨some err, t, rfl⟩
  | ok e1 => exact ⟨none, t, rfl⟩

theorem allFine_single_none (call : Call) : allFine [(call, none)] := by
  intro p hp
  rw [List.mem_singleton] at hp
  rw [hp]
  rfl

/-- Lines 80-140 as a sequence of answered calls. -/
theorem reconcileLive_traced (r : FinetuneExperimentReconciler) (e : FinetuneExperiment)
    (c : Client) :
    ∃ outs seam, Traced c (reconcileLive r e c).2 outs ∧
      (reconcileLive r e c).1 = HandlerErr seam ∧
      (seam = none → allFine outs ∧
        (activeJobs e ≠ [] → r.Scheme.kinds.contains FinetuneExperimentKind = true)) ∧
      (∀ err, seam = some err →
        aborted outs err ∨
          (outs = [] ∧ err = .NoKindRegistered ∧
            r.Scheme.kinds.contains FinetuneExperimentKind = false ∧ activeJobs e ≠ [])) := by
  unfold reconcileLive
  by_cases hp : e.Spec.Pending = true
  · simp only [hp, if_true]
    obtain ⟨seam, t, hres⟩ := persistStatus_traced c
      { e with Status := { e.Status with State := FinetuneExperimentPending } }
    refine ⟨_, seam, t, hres, ?_, ?_⟩
    · intro hs
      subst hs
      refine ⟨allFine_single_none _, ?_⟩
      intro hact
      simp [activeJobs, hp] at hact
    · intro err hs
      subst hs
      exact Or.inl ⟨[], _, rfl, allFine_nil, tolerated_updateStatus _ _⟩
  · have hp2 : e.Spec.Pending = false := by simpa using hp
    simp only [hp2, Bool.false_eq_true, if_false]
    have hact : activeJobs e = e.Spec.FinetuneJobs := by simp [activeJobs, hp2]
    obtain ⟨o1, t1, hok1, herr1⟩ := reconcileJobs_traced r e.Spec.FinetuneJobs e c
    rcases hj : reconcileJobs r e.Spec.FinetuneJobs e c with ⟨res, c1⟩
    rw [hj] at t1 hok1 herr1
    cases res with
    | error err0 =>
        refine ⟨o1, some err0, t1, rfl, ?_, ?_⟩
        · intro h
          exact Option.noConfusion h
        · intro err hs
          have : err0 = err := by injection hs
          subst this
          rw [hact]
          exact herr1 err0 rfl
    | ok e1 =>
        obtain ⟨hfine1, hs1⟩ := hok1 e1 rfl
        obtain ⟨seam, t2, hres⟩ := persistStatus_traced c1
          { e1 with Status := { e1.Status with State := FinetuneExperimentProcessing } }
        refine ⟨_, seam, t1.append t2, hres, ?_, ?_⟩
        · intro hs
          subst hs
          rw [hact]
          exact ⟨allFine_append hfine1 (allFine_single_none _), hs1⟩
        · intro err hs
          subst hs
          exact Or.inl ⟨o1, _, rfl, hfine1, tolerated_updateStatus _ _⟩

theorem Client.perform_get_found {c : Client} {e : FinetuneExperiment} {key : NamespacedName}
    (hf : c.fault = none) (he : findExperiment key c.experiments = some e) :
    c.perform (.GetExperiment key) = (none, c.next (.GetExperiment key)) := by
  simp [Client.perform, Client.Get, hf, he, errorOf]

/-- The deletion branch as a sequence of answered calls. -/
theorem reconcileDelete_traced (e : FinetuneExperiment) (c : Client) :
    ∃ outs seam, Traced c (reconcileDelete e c).2 outs ∧
      (reconcileDelete e c).1 = HandlerErr seam ∧
      (seam = none → allFine outs) ∧
      (∀ err, seam = some err → aborted outs err) ∧
      (∀ d, Call.CreateJob d ∉ outs.map Prod.fst) := by
  unfold reconcileDelete
  cases hfin : ContainsFinalizer e FinetuneGroupFinalizer with
  | false =>
      refine ⟨[], none, Traced.nil c, by simp, fun _ => allFine_nil, ?_, by simp⟩
      intro err h
      exact Option.noConfusion h
  | true =>
      simp only [if_true]
      have t := Traced.perform c (.UpdateExperiment (RemoveFinalizer e FinetuneGroupFinalizer))
      rcases h : c.Update (RemoveFinalizer e FinetuneGroupFinalizer) with ⟨res, c1⟩
      simp only [Client.perform, h] at t
      cases res with
      | error err0 =>
          refine ⟨_, some err0, t, rfl, ?_, ?_, by simp⟩
          · intro h
            exact Option.noConfusion h
          · intro err hs
            have : err0 = err := by injection hs
            subst this
            exact ⟨[], _, rfl, allFine_nil, tolerated_update _ _⟩
      | ok e1 =>
          refine ⟨_, none, t, rfl, fun _ => allFine_single_none _, ?_, by simp⟩
          intro err h
          exact Option.noConfusion h

/-- One run of `Reconcile` as a sequence of answered calls: the calls replay to the
client the run ends in; the seam receives no error only if every call succeeded or
failed tolerably; it receives an error only if the last call failed with that
error, or the first owner reference could not be built. -/
theorem Reconcile_traced (r : FinetuneExperimentReconciler) (req : Request) (c : Client) :
    ∃ outs seam, Traced c (Reconcile r req c).2 outs ∧
      (Reconcile r req c).1 = HandlerErr seam ∧
      (seam = none → allFine outs ∧
        ∀ e, findExperiment req.NamespacedName c.experiments = some e →
          e.DeletionTimestamp = none → activeJobs e ≠ [] →
          r.Scheme.kinds.contains FinetuneExperimentKind = true) ∧
      (∀ err, seam = some err →
        aborted outs err ∨
          (allFine outs ∧ err = .NoKindRegistered ∧
            r.Scheme.kinds.contains FinetuneExperimentKind = false ∧
            ∃ e, findExperiment req.NamespacedName c.experiments = some e ∧
              e.DeletionTimestamp = none ∧ activeJobs e ≠ [] ∧
              outs.map Prod.fst = headCalls req e)) ∧
      (∀ d, Call.CreateJob d ∈ outs.map Prod.fst →
        ∀ e, findExperiment req.NamespacedName c.experiments = some e →
          ContainsFinalizer e FinetuneGroupFinalizer = true ∨
          ∃ rest, outs = (.GetExperiment req.NamespacedName, none) ::
            (.UpdateExperiment (AddFinalizer e FinetuneGroupFinalizer), none) :: rest) := by
  cases hf : c.fault with
  | some f =>
      rw [Reconcile_fault hf]
      refine ⟨[(.GetExperiment req.NamespacedName, some (.Store f))], some (.Store f), ?_, rfl,
        ?_, ?_, ?_⟩
      · have t := Traced.perform c (.GetExperiment req.NamespacedName)
        have hp : c.perform (.GetExperiment req.NamespacedName) =
            (some (.Store f), c.next (.GetExperiment req.NamespacedName)) := by
          simp [Client.perform, Client.Get, hf, errorOf]
        rw [hp] at t
        exact t
      · intro h
        exact Option.noConfusion h
      · intro err hs
        have : Error.Store f = err := by injection hs
        subst this
        exact Or.inl ⟨[], _, rfl, allFine_nil, rfl⟩
      · intro d hd
        simp at hd
  | none =>
      cases he : findExperiment req.NamespacedName c.experiments with
      | none =>
          rw [Reconcile_notFound hf he]
          refine ⟨[(.GetExperiment req.NamespacedName, some .NotFound)], none, ?_, rfl,
            ?_, ?_, ?_⟩
          · have t := Traced.perform c (.GetExperiment req.NamespacedName)
            have hp : c.perform (.GetExperiment req.NamespacedName) =
                (some .NotFound, c.next (.GetExperiment req.NamespacedName)) := by
              simp [Client.perform, Client.Get, hf, he, errorOf]
            rw [hp] at t
            exact t
          · intro _
            refine ⟨?_, ?_⟩
            · intro p hp
              rw [List.mem_singleton] at hp
              rw [hp]
              rfl
            · intro e h
              exact Option.noConfusion h
          · intro err h
            exact Option.noConfusion h
          · intro d hd
            simp at hd
      | some e =>
          have hk : e.key = req.NamespacedName := findExperiment_key he
          have hR := Reconcile_found (r := r) hf he
          have t0 := Traced.perform c (.GetExperiment req.NamespacedName)
          rw [Client.perform_get_found hf he] at t0
          by_cases hdel : e.DeletionTimestamp = none
          · rw [if_neg (by simp [hdel])] at hR
            cases hfin : ContainsFinalizer e FinetuneGroupFinalizer with
            | true =>
                rw [hfin] at hR
                simp only [Bool.not_true, Bool.false_eq_true, if_false] at hR
                rw [hR]
                obtain ⟨o, seam, t, hres, hnone, hsome⟩ :=
                  reconcileLive_traced r e (c.next (.GetExperiment req.NamespacedName))
                refine ⟨_, seam, t0.append t, hres, ?_, ?_, ?_⟩
                · intro hs
                  refine ⟨allFine_append (allFine_single_none _) (hnone hs).1, ?_⟩
                  intro e2 he2 _ hact
                  have : e = e2 := by injection he2
                  subst this
                  exact (hnone hs).2 hact
                · intro err hs
                  rcases hsome err hs with h | ⟨h1, h2, h3, h4⟩
                  · exact Or.inl (aborted_append (allFine_single_none _) h)
                  · subst h1
                    refine Or.inr ⟨allFine_append (allFine_single_none _) allFine_nil, h2, h3,
                      e, rfl, hdel, h4, ?_⟩
                    simp [headCalls, hfin]
                · intro d _ e2 he2
                  have : e = e2 := by injection he2
                  subst this
                  exact Or.inl hfin
            | false =>
                rw [hfin] at hR
                simp only [Bool.not_false, if_true] at hR
                rw [hR]
                have t1 := Traced.perform (c.next (.GetExperiment req.NamespacedName))
                  (.UpdateExperiment (AddFinalizer e FinetuneGroupFinalizer))
                rcases Client.Update_cases (c.next (.GetExperiment req.NamespacedName))
                    (AddFinalizer e FinetuneGroupFinalizer) with ⟨err0, h, _⟩ | ⟨old, _, _, h⟩
                · simp only [Client.perform, h] at t1
                  rw [h]
                  refine ⟨_, some err0, t0.append t1, rfl, ?_, ?_, ?_⟩
                  · intro h
                    exact Option.noConfusion h
                  · intro err hs
                    have : err0 = err := by injection hs
                    subst this
                    exact Or.inl ⟨[(.GetExperiment req.NamespacedName, none)], _, rfl,
                      allFine_single_none _, tolerated_update _ _⟩
                  · intro d hd
                    simp at hd
                · simp only [Client.perform, h] at t1
                  rw [h]
                  simp only
                  obtain ⟨o, seam, t, hres, hnone, hsome⟩ :=
                    reconcileLive_traced r
                      { AddFinalizer e FinetuneGroupFinalizer with Status := old.Status }
                      { (c.next (.GetExperiment req.NamespacedName)).next
                          (.UpdateExperiment (AddFinalizer e FinetuneGroupFinalizer)) with
                        experiments := putExperiment
                          { AddFinalizer e FinetuneGroupFinalizer with Status := old.Status }
                          (c.next (.GetExperiment req.NamespacedName)).experiments }
                  have hact : activeJobs
                      { AddFinalizer e FinetuneGroupFinalizer with Status := old.Status } =
                      activeJobs e := activeJobs_addFinalizer e FinetuneGroupFinalizer
                  rw [hact] at hnone hsome
                  have hfine2 : allFine ([(Call.GetExperiment req.NamespacedName, none)] ++
                      [(Call.UpdateExperiment (AddFinalizer e FinetuneGroupFinalizer),
                        (none : Option Error))]) :=
                    allFine_append (allFine_single_none _) (allFine_single_none _)
                  refine ⟨_, seam, (t0.append t1).append t, hres, ?_, ?_, ?_⟩
                  · intro hs
                    refine ⟨allFine_append hfine2 (hnone hs).1, ?_⟩
                    intro e2 he2 _ hact2
                    have : e = e2 := by injection he2
                    subst this
                    exact (hnone hs).2 hact2
                  · intro err hs
                    rcases hsome err hs with h | ⟨h1, h2, h3, h4⟩
                    · exact Or.inl (aborted_append hfine2 h)
                    · subst h1
                      refine Or.inr ⟨allFine_append hfine2 allFine_nil, h2, h3,
                        e, rfl, hdel, h4, ?_⟩
                      simp [headCalls, hfin]
                  · intro d _ e2 he2
                    have : e = e2 := by injection he2
                    subst this
                    exact Or.inr ⟨o, rfl⟩
          · rw [if_pos hdel] at hR
            rw [hR]
            obtain ⟨o, seam, t, hres, hnone, hsome, hcreate⟩ :=
              reconcileDelete_traced e (c.next (.GetExperiment req.NamespacedName))
            refine ⟨_, seam, t0.append t, hres, ?_, ?_, ?_⟩
            · intro hs
              refine ⟨allFine_append (allFine_single_none _) (hnone hs), ?_⟩
              intro e2 he2 hlive _
              have : e = e2 := by injection he2
              subst this
              exact absurd hlive hdel
            · intro err hs
              exact Or.inl (aborted_append (allFine_single_none _) (hsome err hs))
            · intro d hd
              rw [List.map_append, List.mem_append] at hd
              rcases hd with hd | hd
              · simp at hd
              · exact absurd hd (hcreate d)

/-- The calls of one run, with their answers, as `Reconcile_traced` describes them. -/
theorem Reconcile_outcomes (r : FinetuneExperimentReconciler) (req : Request) (c : Client) :
    ∃ seam, runCalls c (callsOf r req c) = (outcomesOf r req c, (Reconcile r req c).2) ∧
      (Reconcile r req c).2.calls = c.calls ++ callsOf r req c ∧
      (outcomesOf r req c).map Prod.fst = callsOf r req c ∧
      (Reconcile r req c).1 = HandlerErr seam ∧
      (seam = none → allFine (outcomesOf r req c) ∧
        ∀ e, findExperiment req.NamespacedName c.experiments = some e →
          e.DeletionTimestamp = none → activeJobs e ≠ [] →
          r.Scheme.kinds.contains FinetuneExperimentKind = true) ∧
      (∀ err, seam = some err →
        aborted (outcomesOf r req c) err ∨
          (allFine (outcomesOf r req c) ∧ err = .NoKindRegistered ∧
            r.Scheme.kinds.contains FinetuneExperimentKind = false ∧
            ∃ e, findExperiment req.NamespacedName c.experiments = some e ∧
              e.DeletionTimestamp = none ∧ activeJobs e ≠ [] ∧
              callsOf r req c = headCalls req e)) ∧
      (∀ d, Call.CreateJob d ∈ callsOf r req c →
        ∀ e, findExperiment req.NamespacedName c.experiments = some e →
          ContainsFinalizer e FinetuneGroupFinalizer = true ∨
          ∃ rest, outcomesOf r req c = (.GetExperiment req.NamespacedName, none) ::
            (.UpdateExperiment (AddFinalizer e FinetuneGroupFinalizer), none) :: rest) := by
  obtain ⟨outs, seam, t, hres, hnone, hsome, hcreate⟩ := Reconcile_traced r req c
  have hcalls := t.calls
  have hco : callsOf r req c = outs.map Prod.fst := callsOf_eq hcalls
  have hout : outcomesOf r req c = outs := by
    unfold outcomesOf
    rw [hco]
    unfold Traced at t
    rw [t]
  rw [hout, hco]
  exact ⟨seam, t, hcalls, rfl, hres, hnone, hsome, hcreate⟩

theorem liveResult_jobsStatus (e : FinetuneExperiment) (l : List FinetuneJobStatusSetting) :
    (liveResult e l).Status.JobsStatus = e.Status.JobsStatus ++ l := rfl

theorem removeFinalizer_status (e : FinetuneExperiment) (f : String) :
    (RemoveFinalizer e f).Status = e.Status := rfl

/-- C11: when the initial read of the experiment fails, `Reconcile` hands no error to
the error-handling seam if the error is NotFound and the error itself otherwise; the
read is the only store call of the run, and the store is left as it was. -/
theorem Reconcile_initial_get_error (r : FinetuneExperimentReconciler) (req : Request)
    (c : Client) (err : Error) (hget : (c.Get req.NamespacedName).1 = .error err) :
    (Reconcile r req c).1 = HandlerErr (if IsNotFound err then none else some err) ∧
    callsOf r req c = [.GetExperiment req.NamespacedName] ∧
    (Reconcile r req c).2.experiments = c.experiments ∧
    (Reconcile r req c).2.jobs = c.jobs := by
  have hc := Client.Get_client c req.NamespacedName
  rcases h : c.Get req.NamespacedName with ⟨res, c1⟩
  rw [h] at hget hc
  simp only at hget hc
  subst hget
  subst hc
  have hR : Reconcile r req c =
      (HandlerErr (if IsNotFound err then none else some err),
        c.next (.GetExperiment req.NamespacedName)) := by
    unfold Reconcile
    rw [h]
    by_cases hnf : IsNotFound err = true
    · simp [hnf]
    · simp [hnf]
  refine ⟨by rw [hR], callsOf_eq (by rw [hR]; rfl), by rw [hR]; rfl, by rw [hR]; rfl⟩

/-- C11 at a store that does not hold `default/exp1`: the read is answered with
NotFound, the seam receives no error and nothing else is called. -/
theorem Reconcile_initial_get_error_witness :
    (emptyClient.Get exampleRequest.NamespacedName).1 = .error .NotFound ∧
    (Reconcile exampleReconciler exampleRequest emptyClient).1 = HandlerErr none ∧
    callsOf exampleReconciler exampleRequest emptyClient =
      [.GetExperiment exampleRequest.NamespacedName] :=
  ⟨rfl,
    (Reconcile_initial_get_error exampleReconciler exampleRequest emptyClient .NotFound rfl).1,
    (Reconcile_initial_get_error exampleReconciler exampleRequest emptyClient .NotFound rfl).2.1⟩

/-- C17: `status.jobsStatus` is append-only.  For an experiment in the store, under
any fault script, every status write of a run carries a list that starts with the
list the run found, entry for entry, and so does the experiment stored after the
run. -/
theorem Reconcile_status_append_only (r : FinetuneExperimentReconciler) (req : Request)
    (c : Client) (e : FinetuneExperiment)
    (he : findExperiment req.NamespacedName c.experiments = some e) :
    (∀ obj, Call.UpdateStatus obj ∈ callsOf r req c →
      e.Status.JobsStatus <+: obj.Status.JobsStatus) ∧
    (∃ e', findExperiment req.NamespacedName (Reconcile r req c).2.experiments = some e' ∧
      e.Status.JobsStatus <+: e'.Status.JobsStatus) := by
  refine ⟨?_, ?_⟩
  · intro obj hobj
    obtain ⟨pre, new, post, hcalls, hnew, hpre, hpost, _⟩ := Reconcile_calls_shape r req c e he
    rw [hcalls, List.mem_append, List.mem_append] at hobj
    rcases hobj with (h | h) | h
    · rcases hpre _ h with h1 | h1 | h1 <;> exact Call.noConfusion h1
    · obtain ⟨x, _, h1 | h1⟩ := mem_jobCalls (hnew.subset h) <;> exact Call.noConfusion h1
    · rcases hpost with h1 | ⟨l, h1⟩
      · rw [h1] at h
        cases h
      · rw [h1, List.mem_singleton] at h
        have hobj : obj = liveResult (AddFinalizer e FinetuneGroupFinalizer) l := by
          injection h
        rw [hobj, liveResult_jobsStatus, addFinalizer_status]
        exact List.prefix_append _ _
  · obtain ⟨e', hfind, h | h | h | ⟨l, h⟩⟩ := Reconcile_stored r req c e he
    · exact ⟨e', hfind, by rw [h]⟩
    · exact ⟨e', hfind, by rw [h, removeFinalizer_status]⟩
    · exact ⟨e', hfind, by rw [h, addFinalizer_status]⟩
    · refine ⟨e', hfind, ?_⟩
      rw [h, liveResult_jobsStatus, addFinalizer_status]
      exact List.prefix_append _ _

/-- C17 at `staleClient`: the entry of `custom-job` keeps snapshot 3 although the job
has moved on to snapshot 5, and the entry of `exp1-finetunejob` is appended. -/
theorem Reconcile_status_append_only_witness :
    findExperiment exampleRequest.NamespacedName staleClient.experiments =
      some resumedExperiment ∧
    (∀ obj, Call.UpdateStatus obj ∈ callsOf exampleReconciler exampleRequest staleClient →
      resumedExperiment.Status.JobsStatus <+: obj.Status.JobsStatus) ∧
    (findExperiment exampleRequest.NamespacedName
      (Reconcile exampleReconciler exampleRequest staleClient).2.experiments).map
        (fun e => e.Status.JobsStatus) =
      some [{ Name := "custom-job", FinetuneJobStatus := { snapshot := 3 } },
            { Name := "exp1-finetunejob", FinetuneJobStatus := {} }] :=
  ⟨by decide,
    (Reconcile_status_append_only exampleReconciler exampleRequest staleClient
      resumedExperiment (by decide)).1, by decide⟩

theorem Client.perform_jobs_origin (c : Client) (call : Call) :
    ∀ j ∈ (c.perform call).2.jobs, j ∈ c.jobs ∨ call = .CreateJob j := by
  intro j hj
  cases call with
  | GetExperiment key =>
      simp only [Client.perform, Client.Get_client] at hj
      exact Or.inl hj
  | UpdateExperiment obj =>
      simp only [Client.perform, (Client.Update_frame c obj).2.1] at hj
      exact Or.inl hj
  | UpdateStatus obj =>
      simp only [Client.perform, (Client.StatusUpdate_frame c obj).2.1] at hj
      exact Or.inl hj
  | CreateJob obj =>
      simp only [Client.perform, Client.Create] at hj
      split at hj
      · exact Or.inl hj
      · split at hj
        · exact Or.inl hj
        · simp only [List.mem_append, List.mem_singleton] at hj
          rcases hj with h | h
          · exact Or.inl h
          · exact Or.inr (by rw [h])
  | GetJob key =>
      simp only [Client.perform, Client.GetJob_client] at hj
      exact Or.inl hj

theorem runCalls_jobs_origin (c : Client) (l : List Call) :
    ∀ j ∈ (runCalls c l).2.jobs, j ∈ c.jobs ∨ Call.CreateJob j ∈ l := by
  induction l generalizing c with
  | nil =>
      intro j hj
      exact Or.inl hj
  | cons call rest ih =>
      intro j hj
      simp only [runCalls] at hj
      rcases ih _ j hj with h | h
      · rcases Client.perform_jobs_origin c call j h with h1 | h1
        · exact Or.inl h1
        · exact Or.inr (by rw [h1]; exact List.mem_cons_self _ _)
      · exact Or.inr (List.mem_cons_of_mem _ h)

/-- C20: jobs in the store are neither changed nor removed by `Reconcile`.  Under any
fault script the stored jobs after a run are the stored jobs before it, in place and
unchanged, followed by the jobs the run created; so the job stored under an identity
before the run is the job stored under it afterwards. -/
theorem Reconcile_keeps_jobs (r : FinetuneExperimentReconciler) (req : Request) (c : Client) :
    c.jobs <+: (Reconcile r req c).2.jobs ∧
    (∀ k j, findJob k c.jobs = some j → findJob k (Reconcile r req c).2.jobs = some j) ∧
    (∀ j ∈ (Reconcile r req c).2.jobs, j ∈ c.jobs ∨ Call.CreateJob j ∈ callsOf r req c) := by
  obtain ⟨seam, hrun, _⟩ := Reconcile_outcomes r req c
  have hpre : c.jobs <+: (Reconcile r req c).2.jobs := by
    have := runCalls_jobs c (callsOf r req c)
    rw [hrun] at this
    exact this
  refine ⟨hpre, ?_, ?_⟩
  · intro k j hj
    obtain ⟨extra, hextra⟩ := hpre
    rw [← hextra, findJob_append, hj]
  · intro j hj
    have := runCalls_jobs_origin c (callsOf r req c) j
    rw [hrun] at this
    exact this hj

/-- C20 at `busyClient`: the job `custom-job`, stored with another payload, stays as
it was, and the job `exp1-finetunejob` is added after it. -/
theorem Reconcile_keeps_jobs_witness :
    busyClient.jobs <+: (Reconcile exampleReconciler exampleRequest busyClient).2.jobs ∧
    (Reconcile exampleReconciler exampleRequest busyClient).2.jobs =
      [{ Name := "custom-job", Namespace := "default", Spec := { payload := 9 },
         Status := { snapshot := 5 } },
       { Name := "exp1-finetunejob", Namespace := "default",
         OwnerReferences := [controllerRef exp1], Spec := { payload := 2 }, Status := {} }] :=
  ⟨(Reconcile_keeps_jobs exampleReconciler exampleRequest busyClient).1, by decide⟩

theorem recordJobStatus_name (e : FinetuneExperiment) (j : FinetuneJob) :
    (recordJobStatus e j).Name = e.Name := by
  rw [recordJobStatus_eq]
  rfl

theorem childKey_recordJobStatus (e : FinetuneExperiment) (j : FinetuneJob)
    (x : FinetuneJobSetting) : childKey (recordJobStatus e j) x = childKey e x := by
  rw [recordJobStatus_eq]
  rfl

/-- The entries the loop appends: when the loop runs to its end, every name in the
status list it hands on was there before, or is the resolved name of a JobSpec whose
job is in the store. -/
theorem reconcileJobs_entries (r : FinetuneExperimentReconciler) (js : List FinetuneJobSetting)
    (e : FinetuneExperiment) (c : Client) :
    ∀ e', (reconcileJobs r js e c).1 = .ok e' →
      ∀ n ∈ statusNames e'.Status.JobsStatus,
        n ∈ statusNames e.Status.JobsStatus ∨
        ∃ x ∈ js, n = resolvedName e.Name x ∧
          ∃ j, findJob (childKey e x) (reconcileJobs r js e c).2.jobs = some j := by
  induction js generalizing e c with
  | nil =>
      intro e' he' n hn
      have : e = e' := by
        simp only [reconcileJobs] at he'
        injection he'
      subst this
      exact Or.inl hn
  | cons x rest ih =>
      intro e' he' n hn
      simp only [reconcileJobs] at he' ⊢
      rcases reconcileJob_cases r e x c with
        ⟨hs, h⟩ | ⟨hs, ⟨f, hf, h⟩ | ⟨hf, ⟨f, hf2, h⟩ | ⟨j, hf2, hj, h⟩⟩⟩
      · rw [h] at he'
        exact Except.noConfusion he'
      · rw [h] at he'
        exact Except.noConfusion he'
      · rw [h] at he'
        exact Except.noConfusion he'
      · rw [h] at he' ⊢
        simp only at he' ⊢
        obtain ⟨_, _, _, _, hkeep, _⟩ := reconcileJobs_spec r rest (recordJobStatus e j)
          ((afterCreate c (childJob e x)).next (.GetJob (childKey e x)))
        rcases ih (recordJobStatus e j) _ e' he' n hn with h1 | ⟨y, hy, hny, jy, hjy⟩
        · rw [recordJobStatus_eq, statusNames_withEntries, List.mem_append] at h1
          rcases h1 with h1 | h1
          · exact Or.inl h1
          · right
            have hname : n = resolvedName e.Name x := by
              have hk := findJob_key hj
              have hjn : j.Name = resolvedName e.Name x := by
                have := congrArg NamespacedName.Name hk
                exact this
              by_cases hm : j.Name ∈ statusNames e.Status.JobsStatus
              · rw [if_pos hm] at h1
                cases h1
              · rw [if_neg hm] at h1
                simp only [statusNames, List.map_cons, List.map_nil, List.mem_singleton] at h1
                rw [h1, hjn]
            exact ⟨x, List.mem_cons_self _ _, hname, j, hkeep _ _ hj⟩
        · right
          rw [recordJobStatus_name] at hny
          rw [childKey_recordJobStatus] at hjy
          exact ⟨y, List.mem_cons_of_mem _ hy, hny, jy, hjy⟩

theorem childJob_addFinalizer (e : FinetuneExperiment) (f : String) (x : FinetuneJobSetting) :
    childJob (AddFinalizer e f) x = childJob e x := by
  unfold AddFinalizer
  split <;> rfl

theorem childKey_addFinalizer (e : FinetuneExperiment) (f : String) (x : FinetuneJobSetting) :
    childKey (AddFinalizer e f) x = childKey e x := by
  unfold AddFinalizer
  split <;> rfl

theorem mem_flatMap_jobCalls {e : FinetuneExperiment} {js : List FinetuneJobSetting}
    {x : FinetuneJobSetting} (hx : x ∈ js) :
    Call.CreateJob (childJob e x) ∈ js.flatMap (jobCalls e) := by
  rw [List.mem_flatMap]
  exact ⟨x, hx, List.mem_cons_self _ _⟩

/-- The names that lines 80-140 leave in the stored status: each was stored before,
or is the resolved name of a JobSpec for which this run issued a create and whose
job is in the store. -/
theorem reconcileLive_entries (r : FinetuneExperimentReconciler) (e : FinetuneExperiment)
    (c : Client) (key : NamespacedName) (he : findExperiment key c.experiments = some e) :
    ∀ e', findExperiment key (reconcileLive r e c).2.experiments = some e' →
      ∀ n ∈ statusNames e'.Status.JobsStatus,
        n ∈ statusNames e.Status.JobsStatus ∨
        ∃ x ∈ e.Spec.FinetuneJobs, n = resolvedName e.Name x ∧
          Call.CreateJob (childJob e x) ∈ (reconcileLive r e c).2.calls.drop c.calls.length ∧
          ∃ j, findJob (childKey e x) (reconcileLive r e c).2.jobs = some j := by
  have hk : e.key = key := findExperiment_key he
  intro e' he' n hn
  unfold reconcileLive at he' ⊢
  by_cases hp : e.Spec.Pending = true
  · simp only [hp, if_true] at he' ⊢
    left
    rcases persistStatus_cases c
        { e with Status := { e.Status with State := FinetuneExperimentPending } } with
      ⟨err, h, _⟩ | ⟨old, _, hold, h⟩
    · rw [h] at he'
      have : e = e' := by
        have h2 : findExperiment key c.experiments = some e' := he'
        rw [he] at h2
        injection h2
      rw [this]
      exact hn
    · rw [h] at he'
      have hkey : ({ e with Status := { e.Status with State := FinetuneExperimentPending } } :
          FinetuneExperiment).key = key := hk
      rw [hkey, he] at hold
      have hold2 : e = old := by injection hold
      subst hold2
      have h2 : findExperiment key (putExperiment
          { e with Status := { e.Status with State := FinetuneExperimentPending } }
          c.experiments) = some e' := he'
      rw [findExperiment_put, if_pos hkey, he] at h2
      have h3 : ({ e with Status := { e.Status with State := FinetuneExperimentPending } } :
          FinetuneExperiment) = e' := by injection h2
      rw [← h3] at hn
      exact hn
  · have hp2 : e.Spec.Pending = false := by simpa using hp
    simp only [hp2, Bool.false_eq_true, if_false] at he' ⊢
    obtain ⟨new, hcalls, _, hexps, hkeep, hok⟩ := reconcileJobs_spec r e.Spec.FinetuneJobs e c
    have hent := reconcileJobs_entries r e.Spec.FinetuneJobs e c
    rcases hj : reconcileJobs r e.Spec.FinetuneJobs e c with ⟨res, c1⟩
    rw [hj] at hcalls hexps hkeep hok hent he'
    simp only at hcalls hexps hkeep hok hent he' ⊢
    cases res with
    | error err0 =>
        left
        simp only at he'
        rw [hexps, he] at he'
        have : e = e' := by injection he'
        rw [this]
        exact hn
    | ok e1 =>
        simp only at he' ⊢
        obtain ⟨hnew, ⟨l, hl⟩, _⟩ := hok e1 rfl
        rcases persistStatus_cases c1
            { e1 with Status := { e1.Status with State := FinetuneExperimentProcessing } } with
          ⟨err, h, _⟩ | ⟨old, _, hold, h⟩
        · left
          rw [h] at he'
          have h2 : findExperiment key c1.experiments = some e' := he'
          rw [hexps, he] at h2
          have : e = e' := by injection h2
          rw [this]
          exact hn
        · rw [h] at he' ⊢
          have hkey : ({ e1 with Status :=
              { e1.Status with State := FinetuneExperimentProcessing } } :
              FinetuneExperiment).key = key := by
            rw [hl]
            exact hk
          rw [hkey, hexps, he] at hold
          have hold2 : e = old := by injection hold
          subst hold2
          have h2 : findExperiment key (putExperiment
              { e with Status := { e1.Status with State := FinetuneExperimentProcessing } }
              c1.experiments) = some e' := he'
          have hkey2 : ({ e with Status :=
              { e1.Status with State := FinetuneExperimentProcessing } } :
              FinetuneExperiment).key = key := hk
          rw [findExperiment_put, if_pos hkey2, hexps, he] at h2
          have h3 : ({ e with Status :=
              { e1.Status with State := FinetuneExperimentProcessing } } :
              FinetuneExperiment) = e' := by injection h2
          rw [← h3] at hn
          rcases hent e1 rfl n hn with h4 | ⟨x, hx, hnx, j, hjx⟩
          · exact Or.inl h4
          · right
            refine ⟨x, hx, hnx, ?_, j, hjx⟩
            simp only [Client.next]
            rw [hcalls, List.append_assoc, List.drop_left, hnew]
            exact List.mem_append_left _ (mem_flatMap_jobCalls hx)

/-- The names that one run leaves in the stored status: each was stored before, or is
the resolved name of a JobSpec for which this run issued a create and whose job is
in the store. -/
theorem Reconcile_entries (r : FinetuneExperimentReconciler) (req : Request) (c : Client)
    (e : FinetuneExperiment)
    (he : findExperiment req.NamespacedName c.experiments = some e) :
    ∀ e', findExperiment req.NamespacedName (Reconcile r req c).2.experiments = some e' →
      ∀ n ∈ statusNames e'.Status.JobsStatus,
        n ∈ statusNames e.Status.JobsStatus ∨
        ∃ x ∈ e.Spec.FinetuneJobs, n = resolvedName e.Name x ∧
          Call.CreateJob (childJob e x) ∈ callsOf r req c ∧
          ∃ j, findJob (childKey e x) (Reconcile r req c).2.jobs = some j := by
  intro e' he' n hn
  have hsame : findExperiment req.NamespacedName c.experiments = some e' →
      n ∈ statusNames e.Status.JobsStatus := by
    intro h2
    rw [he] at h2
    have : e = e' := by injection h2
    rw [this]
    exact hn
  cases hf : c.fault with
  | some f =>
      rw [Reconcile_fault hf] at he'
      exact Or.inl (hsame he')
  | none =>
      by_cases hdel : e.DeletionTimestamp = none
      · rcases Reconcile_live (r := r) hf he hdel with
          ⟨err, _, _, hR⟩ | ⟨cA, hR, hcA, _, _, _, _, hfindA⟩
        · rw [hR] at he'
          exact Or.inl (hsame he')
        · have h := reconcileLive_entries r (AddFinalizer e FinetuneGroupFinalizer) cA
            req.NamespacedName hfindA e' (by rw [← hR]; exact he') n hn
          rw [addFinalizer_status, addFinalizer_spec, addFinalizer_name] at h
          rcases h with h | ⟨x, hx, hnx, hcall, j, hj⟩
          · exact Or.inl h
          · right
            rw [childJob_addFinalizer, ← hR, hcA, List.length_append] at hcall
            rw [childKey_addFinalizer, ← hR] at hj
            refine ⟨x, hx, hnx, ?_, j, hj⟩
            unfold callsOf
            rw [← List.drop_drop] at hcall
            exact List.mem_of_mem_drop hcall
      · rcases Reconcile_deleting_cases (r := r) hf he hdel with
          ⟨_, hR⟩ | ⟨_, ⟨f, _, hR⟩ | ⟨_, hR⟩⟩
        · rw [hR] at he'
          exact Or.inl (hsame he')
        · rw [hR] at he'
          exact Or.inl (hsame he')
        · rw [hR] at he'
          have h2 : findExperiment req.NamespacedName
              (putExperiment (RemoveFinalizer e FinetuneGroupFinalizer) c.experiments) =
              some e' := he'
          rw [findExperiment_put_removeFinalizer he] at h2
          have h3 : RemoveFinalizer e FinetuneGroupFinalizer = e' := by injection h2
          rw [← h3, removeFinalizer_status] at hn
          exact Or.inl hn

theorem childJob_congr {e1 e2 : FinetuneExperiment} (hn : e1.Name = e2.Name)
    (hns : e1.Namespace = e2.Namespace) (hu : e1.UID = e2.UID) (x : FinetuneJobSetting) :
    childJob e1 x = childJob e2 x := by
  simp only [childJob, controllerRef, hn, hns, hu]

theorem childKey_congr {e1 e2 : FinetuneExperiment} (hn : e1.Name = e2.Name)
    (hns : e1.Namespace = e2.Namespace) (x : FinetuneJobSetting) :
    childKey e1 x = childKey e2 x := by
  simp only [childKey, hn, hns]

/-- What a run keeps of the stored experiment: its name, namespace, UID and spec. -/
theorem Reconcile_stored_identity (r : FinetuneExperimentReconciler) (req : Request)
    (c : Client) (e : FinetuneExperiment)
    (he : findExperiment req.NamespacedName c.experiments = some e) :
    ∃ e', findExperiment req.NamespacedName (Reconcile r req c).2.experiments = some e' ∧
      e'.Name = e.Name ∧ e'.Namespace = e.Namespace ∧ e'.UID = e.UID ∧ e'.Spec = e.Spec := by
  obtain ⟨e', hfind, h | h | h | ⟨l, h⟩⟩ := Reconcile_stored r req c e he
  · exact ⟨e', hfind, by rw [h], by rw [h], by rw [h], by rw [h]⟩
  · exact ⟨e', hfind, by rw [h]; rfl, by rw [h]; rfl, by rw [h]; rfl, by rw [h]; rfl⟩
  · exact ⟨e', hfind, by rw [h, addFinalizer_name], by rw [h, addFinalizer_namespace],
      by rw [h, addFinalizer_uid], by rw [h, addFinalizer_spec]⟩
  · refine ⟨e', hfind, ?_, ?_, ?_, ?_⟩
    · rw [h]
      exact addFinalizer_name e _
    · rw [h]
      exact addFinalizer_namespace e _
    · rw [h]
      exact addFinalizer_uid e _
    · rw [h]
      exact addFinalizer_spec e _

/-- The jobs found in the store before a run are found after it. -/
theorem Reconcile_findJob (r : FinetuneExperimentReconciler) (req : Request) (c : Client)
    {k : NamespacedName} {j : FinetuneJob} (hj : findJob k c.jobs = some j) :
    findJob k (Reconcile r req c).2.jobs = some j := by
  obtain ⟨seam, hrun, _⟩ := Reconcile_outcomes r req c
  have hpre := runCalls_jobs c (callsOf r req c)
  rw [hrun] at hpre
  obtain ⟨extra, hextra⟩ := hpre
  rw [← hextra, findJob_append, hj]

/-- The stored status after any number of runs, for an experiment whose status list
was empty at the start: every name belongs to a JobSpec, a create for its child is in
the log of the runs, and its job is in the store. -/
theorem reconcileTimes_entries (r : FinetuneExperimentReconciler) (req : Request)
    (c : Client) (e : FinetuneExperiment)
    (he : findExperiment req.NamespacedName c.experiments = some e)
    (hst : e.Status.JobsStatus = []) (k : Nat) :
    ∃ ek log, findExperiment req.NamespacedName (reconcileTimes r req k c).experiments = some ek ∧
      ek.Name = e.Name ∧ ek.Namespace = e.Namespace ∧ ek.UID = e.UID ∧ ek.Spec = e.Spec ∧
      (reconcileTimes r req k c).calls = c.calls ++ log ∧
      ∀ n ∈ statusNames ek.Status.JobsStatus,
        ∃ x ∈ e.Spec.FinetuneJobs, n = resolvedName e.Name x ∧
          Call.CreateJob (childJob e x) ∈ log ∧
          ∃ j, findJob (childKey e x) (reconcileTimes r req k c).jobs = some j := by
  induction k with
  | zero =>
      refine ⟨e, [], he, rfl, rfl, rfl, rfl, by simp [reconcileTimes], ?_⟩
      intro n hn
      rw [hst] at hn
      cases hn
  | succ k ih =>
      obtain ⟨ek, log, hk, hname, hns, huid, hspec, hcalls, hnames⟩ := ih
      obtain ⟨e', hfind, hname', hns', huid', hspec'⟩ :=
        Reconcile_stored_identity r req (reconcileTimes r req k c) ek hk
      obtain ⟨seam, _, hcalls', _⟩ := Reconcile_outcomes r req (reconcileTimes r req k c)
      refine ⟨e', log ++ callsOf r req (reconcileTimes r req k c), hfind, hname'.trans hname,
        hns'.trans hns, huid'.trans huid, hspec'.trans hspec, ?_, ?_⟩
      · show (Reconcile r req (reconcileTimes r req k c)).2.calls = _
        rw [hcalls', hcalls, List.append_assoc]
      · intro n hn
        rcases Reconcile_entries r req (reconcileTimes r req k c) ek hk e' hfind n hn with
          h | ⟨x, hx, hnx, hcall, j, hj⟩
        · obtain ⟨x, hx, hnx, hcall, j, hj⟩ := hnames n h
          exact ⟨x, hx, hnx, List.mem_append_left _ hcall, j, Reconcile_findJob r req _ hj⟩
        · rw [hspec] at hx
          rw [hname] at hnx
          rw [childJob_congr hname hns huid] at hcall
          rw [childKey_congr hname hns] at hj
          exact ⟨x, hx, hnx, List.mem_append_right _ hcall, j, hj⟩

/-- C18: soundness of the status names.  For an experiment in the store whose
`status.jobsStatus` is empty, after any number of runs of `Reconcile` under any fault
script, every name in the stored `status.jobsStatus` is the resolved name of a JobSpec
of the experiment, a create for the child of that JobSpec is among the calls of these
runs, and a job with that name is stored in the namespace of the experiment. -/
theorem Reconcile_status_names_sound (r : FinetuneExperimentReconciler) (req : Request)
    (c : Client) (e : FinetuneExperiment)
    (he : findExperiment req.NamespacedName c.experiments = some e)
    (hst : e.Status.JobsStatus = []) (k : Nat) :
    ∃ ek, findExperiment req.NamespacedName (reconcileTimes r req k c).experiments = some ek ∧
      ∀ n ∈ statusNames ek.Status.JobsStatus,
        ∃ x ∈ e.Spec.FinetuneJobs, n = resolvedName e.Name x ∧
          Call.CreateJob (childJob e x) ∈ (reconcileTimes r req k c).calls.drop c.calls.length ∧
          ∃ j ∈ (reconcileTimes r req k c).jobs, j.Name = n ∧ j.Namespace = e.Namespace := by
  obtain ⟨ek, log, hk, _, _, _, _, hcalls, hnames⟩ := reconcileTimes_entries r req c e he hst k
  refine ⟨ek, hk, ?_⟩
  intro n hn
  obtain ⟨x, hx, hnx, hcall, j, hj⟩ := hnames n hn
  refine ⟨x, hx, hnx, ?_, j, findJob_mem hj, ?_, ?_⟩
  · rw [hcalls, List.drop_left]
    exact hcall
  · have := congrArg NamespacedName.Name (findJob_key hj)
    exact this.trans hnx.symm
  · exact congrArg NamespacedName.Namespace (findJob_key hj)

/-- C18 at `exp1` after two runs: the stored names are `custom-job` and
`exp1-finetunejob`. -/
theorem Reconcile_status_names_sound_witness :
    findExperiment exampleRequest.NamespacedName exampleClient.experiments = some exp1 ∧
    exp1.Status.JobsStatus = [] ∧
    (∃ ek, findExperiment exampleRequest.NamespacedName
        (reconcileTimes exampleReconciler exampleRequest 2 exampleClient).experiments = some ek ∧
      ∀ n ∈ statusNames ek.Status.JobsStatus,
        ∃ x ∈ exp1.Spec.FinetuneJobs, n = resolvedName exp1.Name x ∧
          Call.CreateJob (childJob exp1 x) ∈
            (reconcileTimes exampleReconciler exampleRequest 2 exampleClient).calls.drop
              exampleClient.calls.length ∧
          ∃ j ∈ (reconcileTimes exampleReconciler exampleRequest 2 exampleClient).jobs,
            j.Name = n ∧ j.Namespace = exp1.Namespace) ∧
    (findExperiment exampleRequest.NamespacedName
        (reconcileTimes exampleReconciler exampleRequest 2 exampleClient).experiments).map
      (fun ek => statusNames ek.Status.JobsStatus) = some ["custom-job", "exp1-finetunejob"] :=
  ⟨by decide, rfl,
    Reconcile_status_names_sound exampleReconciler exampleRequest exampleClient exp1
      (by decide) rfl 2, by decide⟩

theorem setControllerReference_ok {scheme : Scheme}
    (hs : scheme.kinds.contains FinetuneExperimentKind = true) (owner : FinetuneExperiment)
    (object : FinetuneJob) : ∃ d, SetControllerReference owner object scheme = .ok d := by
  unfold SetControllerReference
  rw [if_pos hs]
  exact ⟨_, rfl⟩

theorem setControllerReference_error {scheme : Scheme}
    (hs : scheme.kinds.contains FinetuneExperimentKind = false) (owner : FinetuneExperiment)
    (object : FinetuneJob) :
    SetControllerReference owner object scheme = .error .NoKindRegistered := by
  unfold SetControllerReference
  rw [hs]
  rfl

theorem handlerErr_seam {res : Result × Option Error} {seam : Option Error}
    (h : res = HandlerErr seam) : res.2 = seam := by
  rw [h]
  rfl

/-- C12: error surfacing.  Under any fault script the pair `Reconcile` returns is what
the seam makes of one error value.  If that value is nil, every store call of the run
succeeded or failed with a tolerated error (NotFound on the initial read,
AlreadyExists on a create), and no owner reference of the run can fail to be built.
If it is an error, then either the last store call of the run failed with exactly
that error, which is not tolerated, and every call before it succeeded or failed
tolerably; or every call succeeded and that error is the failure to build an owner
reference. -/
theorem Reconcile_error_surfacing (r : FinetuneExperimentReconciler) (req : Request)
    (c : Client) :
    (Reconcile r req c).1 = HandlerErr (Reconcile r req c).1.2 ∧
    ((Reconcile r req c).1.2 = none →
      allFine (outcomesOf r req c) ∧
      ∀ e, findExperiment req.NamespacedName c.experiments = some e →
        e.DeletionTimestamp = none → ∀ x ∈ activeJobs e, ∀ owner,
          ∃ d, SetControllerReference owner
            { Name := resolvedName e.Name x, Namespace := e.Namespace, Spec := x.Spec }
            r.Scheme = .ok d) ∧
    (∀ err, (Reconcile r req c).1.2 = some err →
      aborted (outcomesOf r req c) err ∨
      (allFine (outcomesOf r req c) ∧
        ∃ e x, findExperiment req.NamespacedName c.experiments = some e ∧
          e.DeletionTimestamp = none ∧ x ∈ activeJobs e ∧
          SetControllerReference (AddFinalizer e FinetuneGroupFinalizer)
            { Name := resolvedName e.Name x, Namespace := e.Namespace, Spec := x.Spec }
            r.Scheme = .error err)) := by
  obtain ⟨seam, _, _, _, hres, hnone, hsome, _⟩ := Reconcile_outcomes r req c
  have hseam := handlerErr_seam hres
  rw [hseam]
  refine ⟨hres, ?_, ?_⟩
  · intro hs
    refine ⟨(hnone hs).1, ?_⟩
    intro e he hlive x hx owner
    exact setControllerReference_ok ((hnone hs).2 e he hlive (List.ne_nil_of_mem hx)) _ _
  · intro err hs
    rcases hsome err hs with h | ⟨hfine, herr, hsch, e, he, hlive, hact, _⟩
    · exact Or.inl h
    · obtain ⟨x, hx⟩ := List.exists_mem_of_ne_nil _ hact
      refine Or.inr ⟨hfine, e, x, he, hlive, hx, ?_⟩
      rw [herr]
      exact setControllerReference_error hsch _ _

/-- C12 at `busyClient`, where the status write is answered with a conflict: the seam
receives the conflict, and the calls before the status write are fine. -/
theorem Reconcile_error_surfacing_witness :
    (Reconcile exampleReconciler exampleRequest busyClient).1.2 = some (.Store .Conflict) ∧
    (outcomesOf exampleReconciler exampleRequest busyClient).map Prod.snd =
      [none, none, some .AlreadyExists, none, none, none, some (.Store .Conflict)] ∧
    (aborted (outcomesOf exampleReconciler exampleRequest busyClient) (.Store .Conflict) ∨
      (allFine (outcomesOf exampleReconciler exampleRequest busyClient) ∧
        ∃ e x, findExperiment exampleRequest.NamespacedName busyClient.experiments = some e ∧
          e.DeletionTimestamp = none ∧ x ∈ activeJobs e ∧
          SetControllerReference (AddFinalizer e FinetuneGroupFinalizer)
            { Name := resolvedName e.Name x, Namespace := e.Namespace, Spec := x.Spec }
            exampleReconciler.Scheme = .error (.Store .Conflict))) :=
  ⟨by decide, by decide,
    (Reconcile_error_surfacing exampleReconciler exampleRequest busyClient).2.2 _ (by decide)⟩

theorem aborted_split {g good rest : List (Call × Option Error)} {b p : Call × Option Error}
    (hg : allFine g) (h : g ++ [b] = good ++ p :: rest) (hp : fine p = false) :
    rest = [] ∧ p = b := by
  rcases List.eq_nil_or_concat rest with hr | ⟨rest1, last, hr⟩
  · subst hr
    have h2 := List.append_inj' h rfl
    refine ⟨rfl, ?_⟩
    have h3 : [b] = [p] := h2.2
    injection h3 with h4 _
    exact h4.symm
  · exfalso
    rw [hr, List.concat_eq_append] at h
    have h1 : g ++ [b] = (good ++ p :: rest1) ++ [last] := by
      rw [h]
      simp
    have h2 := (List.append_inj' h1 rfl).1
    have hmem : p ∈ g := by
      rw [h2]
      exact List.mem_append_right _ (List.mem_cons_self _ _)
    rw [hg p hmem] at hp
    exact Bool.noConfusion hp

theorem aborted_not_allFine {outs : List (Call × Option Error)} {err : Error}
    (h : aborted outs err) : ¬ allFine outs := by
  obtain ⟨good, call, ho, _, ht⟩ := h
  intro hall
  have := hall (call, some err) (by rw [ho]; exact List.mem_append_right _ (List.mem_singleton.mpr rfl))
  have h2 : fine (call, some err) = tolerated call err := rfl
  rw [h2, ht] at this
  exact Bool.noConfusion this

/-- The stored status after a run that hands an error to the seam is the stored
status before it. -/
theorem Reconcile_failed_status (r : FinetuneExperimentReconciler) (req : Request)
    (c : Client) (e : FinetuneExperiment)
    (he : findExperiment req.NamespacedName c.experiments = some e)
    (hfail : (Reconcile r req c).1.2 ≠ none) :
    ∃ e', findExperiment req.NamespacedName (Reconcile r req c).2.experiments = some e' ∧
      e'.Status = e.Status := by
  have hadd : findExperiment req.NamespacedName
      (putExperiment (AddFinalizer e FinetuneGroupFinalizer) c.experiments) =
      some (AddFinalizer e FinetuneGroupFinalizer) := findExperiment_put_addFinalizer he
  cases hf : c.fault with
  | some f =>
      rw [Reconcile_fault hf]
      exact ⟨e, he, rfl⟩
  | none =>
      by_cases hdel : e.DeletionTimestamp = none
      · rcases Reconcile_live_cases (r := r) hf he hdel with
          ⟨f, c1, _, hR, _, hexps, _⟩ | ⟨err, new, c1, _, _, hR, _, hexps, _⟩ |
          ⟨l, _, _, ⟨err, c1, hR, _, hexps, _⟩ | ⟨c1, hR, _⟩⟩
        · rw [hR]
          exact ⟨e, by rw [hexps]; exact he, rfl⟩
        · rw [hR]
          exact ⟨_, by rw [hexps]; exact hadd, addFinalizer_status e _⟩
        · rw [hR]
          exact ⟨_, by rw [hexps]; exact hadd, addFinalizer_status e _⟩
        · rw [hR] at hfail
          exact absurd rfl hfail
      · rcases Reconcile_deleting_cases (r := r) hf he hdel with
          ⟨_, hR⟩ | ⟨_, ⟨f, _, hR⟩ | ⟨_, hR⟩⟩
        · rw [hR] at hfail
          exact absurd rfl hfail
        · rw [hR]
          exact ⟨e, he, rfl⟩
        · rw [hR] at hfail
          exact absurd rfl hfail

/-- C13: abort at the point of failure.  Under any fault script, a store call that
fails with an error that is not tolerated is the last store call of the run, and its
error is the one handed to the seam; when an owner reference cannot be built, the run
issues no job call and no status write; and after a run that hands an error to the
seam the stored status of the experiment is what it was before the run. -/
theorem Reconcile_aborts_at_failure (r : FinetuneExperimentReconciler) (req : Request)
    (c : Client) :
    (∀ good call err rest, outcomesOf r req c = good ++ (call, some err) :: rest →
      tolerated call err = false → rest = [] ∧ (Reconcile r req c).1.2 = some err) ∧
    ((Reconcile r req c).1.2 ≠ none → allFine (outcomesOf r req c) →
      ∀ call ∈ callsOf r req c, call.isJobCall = false ∧ ∀ obj, call ≠ .UpdateStatus obj) ∧
    (∀ e, findExperiment req.NamespacedName c.experiments = some e →
      (Reconcile r req c).1.2 ≠ none →
      ∃ e', findExperiment req.NamespacedName (Reconcile r req c).2.experiments = some e' ∧
        e'.Status = e.Status) := by
  obtain ⟨seam, _, _, _, hres, hnone, hsome, _⟩ := Reconcile_outcomes r req c
  have hseam := handlerErr_seam hres
  refine ⟨?_, ?_, fun e he hfail => Reconcile_failed_status r req c e he hfail⟩
  · intro good call err rest hsplit htol
    have hbad : fine (call, some err) = false := htol
    have hmem : (call, some err) ∈ outcomesOf r req c := by
      rw [hsplit]
      exact List.mem_append_right _ (List.mem_cons_self _ _)
    have hnot : ¬ allFine (outcomesOf r req c) := by
      intro hall
      rw [hall _ hmem] at hbad
      exact Bool.noConfusion hbad
    cases hs : seam with
    | none => exact absurd (hnone hs).1 hnot
    | some err1 =>
        rcases hsome err1 hs with ⟨g, call1, hg, hfine, _⟩ | ⟨hfine, _⟩
        · rw [hg] at hsplit
          obtain ⟨hrest, hp⟩ := aborted_split hfine hsplit hbad
          refine ⟨hrest, ?_⟩
          rw [hseam, hs]
          have : some err = some err1 := congrArg Prod.snd hp
          rw [this]
        · exact absurd hfine hnot
  · intro hfail hall call hcall
    rw [hseam] at hfail
    cases hs : seam with
    | none => exact absurd hs hfail
    | some err1 =>
        rcases hsome err1 hs with h | ⟨_, _, _, e, _, _, _, hcalls⟩
        · exact absurd hall (aborted_not_allFine h)
        · rw [hcalls] at hcall
          rcases mem_headCalls hcall with h | ⟨_, h⟩
          · subst h
            exact ⟨rfl, fun obj h => Call.noConfusion h⟩
          · subst h
            exact ⟨rfl, fun obj h => Call.noConfusion h⟩

/-- C13 at `busyClient`, where the status write fails: the stored status is what it
was, although the loop had collected two entries. -/
theorem Reconcile_aborts_at_failure_witness :
    findExperiment exampleRequest.NamespacedName busyClient.experiments = some exp1 ∧
    (Reconcile exampleReconciler exampleRequest busyClient).1.2 ≠ none ∧
    (∃ e', findExperiment exampleRequest.NamespacedName
        (Reconcile exampleReconciler exampleRequest busyClient).2.experiments = some e' ∧
      e'.Status = exp1.Status) ∧
    exp1.Status.JobsStatus = [] :=
  ⟨by decide, by decide,
    (Reconcile_aborts_at_failure exampleReconciler exampleRequest busyClient).2.2 exp1
      (by decide) (by decide), rfl⟩

theorem headCalls_shape (req : Request) (e : FinetuneExperiment) :
    headCalls req e = [.GetExperiment req.NamespacedName] ∨
    ∃ obj, headCalls req e = [.GetExperiment req.NamespacedName, .UpdateExperiment obj] := by
  unfold headCalls
  cases ContainsFinalizer e FinetuneGroupFinalizer with
  | true => exact Or.inl rfl
  | false => exact Or.inr ⟨_, rfl⟩

theorem liveCalls_isJobCall {e : FinetuneExperiment} {new : List Call}
    (hnew : new <+: liveCalls e) : ∀ call ∈ new, call.isJobCall = true := by
  intro call hc
  obtain ⟨_, x, _, h | h⟩ := mem_liveCalls (hnew.subset hc)
  · rw [h]
    rfl
  · rw [h]
    rfl

theorem liveResult_state (e : FinetuneExperiment) (l : List FinetuneJobStatusSetting) :
    (liveResult e l).Status.State =
      if e.Spec.Pending then FinetuneExperimentPending else FinetuneExperimentProcessing := rfl

/-- The order of the calls of one run for an experiment in the store: the read and at
most one update of the experiment, then job calls, then at most one status write,
which a run of a live experiment that returns no error does issue. -/
theorem Reconcile_calls_order (r : FinetuneExperimentReconciler) (req : Request)
    (c : Client) (e : FinetuneExperiment)
    (he : findExperiment req.NamespacedName c.experiments = some e) :
    ∃ pre new post, callsOf r req c = pre ++ new ++ post ∧
      (pre = [.GetExperiment req.NamespacedName] ∨
        ∃ obj, pre = [.GetExperiment req.NamespacedName, .UpdateExperiment obj]) ∧
      (∀ call ∈ new, call.isJobCall = true) ∧
      (post = [] ∨ ∃ obj, post = [.UpdateStatus obj]) ∧
      (e.DeletionTimestamp = none → (Reconcile r req c).1.2 = none →
        ∃ obj, post = [.UpdateStatus obj] ∧
          obj.Status.State =
            if e.Spec.Pending then FinetuneExperimentPending
            else FinetuneExperimentProcessing) := by
  have hnil : ∀ call ∈ ([] : List Call), call.isJobCall = true := fun _ h => by cases h
  cases hf : c.fault with
  | some f =>
      have hR := @Reconcile_fault r req _ _ hf
      refine ⟨[.GetExperiment req.NamespacedName], [], [], callsOf_eq (by rw [hR]; rfl),
        Or.inl rfl, hnil, Or.inl rfl, ?_⟩
      intro _ hok
      rw [hR] at hok
      cases hok
  | none =>
      by_cases hdel : e.DeletionTimestamp = none
      · rcases Reconcile_live_cases (r := r) hf he hdel with
          ⟨f, c1, _, hR, hc, _⟩ | ⟨err, new, c1, _, hnew, hR, hc, _⟩ |
          ⟨l, _, _, ⟨err, c1, hR, hc, _⟩ | ⟨c1, hR, hc, _⟩⟩
        · refine ⟨headCalls req e, [], [], callsOf_eq (by rw [hR]; simp [hc]),
            headCalls_shape req e, hnil, Or.inl rfl, ?_⟩
          intro _ hok
          rw [hR] at hok
          cases hok
        · refine ⟨headCalls req e, new, [], callsOf_eq (by rw [hR]; simp [hc]),
            headCalls_shape req e, liveCalls_isJobCall hnew, Or.inl rfl, ?_⟩
          intro _ hok
          rw [hR] at hok
          cases hok
        · refine ⟨headCalls req e, liveCalls e,
            [.UpdateStatus (liveResult (AddFinalizer e FinetuneGroupFinalizer) l)],
            callsOf_eq (by rw [hR]; simp [hc]),
            headCalls_shape req e, liveCalls_isJobCall (List.prefix_refl _),
            Or.inr ⟨_, rfl⟩, ?_⟩
          intro _ hok
          rw [hR] at hok
          cases hok
        · refine ⟨headCalls req e, liveCalls e,
            [.UpdateStatus (liveResult (AddFinalizer e FinetuneGroupFinalizer) l)],
            callsOf_eq (by rw [hR]; simp [hc]),
            headCalls_shape req e, liveCalls_isJobCall (List.prefix_refl _),
            Or.inr ⟨_, rfl⟩, ?_⟩
          intro _ _
          refine ⟨_, rfl, ?_⟩
          rw [liveResult_state, addFinalizer_spec]
      · rcases Reconcile_deleting_cases (r := r) hf he hdel with
          ⟨_, hR⟩ | ⟨_, ⟨f, _, hR⟩ | ⟨_, hR⟩⟩
        · exact ⟨[.GetExperiment req.NamespacedName], [], [], callsOf_eq (by rw [hR]; rfl),
            Or.inl rfl, hnil, Or.inl rfl, fun h => absurd h hdel⟩
        · exact ⟨[.GetExperiment req.NamespacedName,
              .UpdateExperiment (RemoveFinalizer e FinetuneGroupFinalizer)], [], [],
            callsOf_eq (by rw [hR]; simp [Client.next]),
            Or.inr ⟨_, rfl⟩, hnil, Or.inl rfl, fun h => absurd h hdel⟩
        · exact ⟨[.GetExperiment req.NamespacedName,
              .UpdateExperiment (RemoveFinalizer e FinetuneGroupFinalizer)], [], [],
            callsOf_eq (by rw [hR]; simp [Client.next]),
            Or.inr ⟨_, rfl⟩, hnil, Or.inl rfl, fun h => absurd h hdel⟩

/-- C19: the order of the store calls of one run, for an experiment in the store and
under any fault script.  (1) A create of a job is issued only if the experiment read
carried the finalizer or the update that adds the finalizer was answered without
error earlier in the run.  (2) and (3) The calls of the run are the read and at most
one update of the experiment, then the job calls, then at most one status write; a
run of a live experiment that returns no error ends with the status write, which
sets Processing unless the experiment is pending. -/
theorem Reconcile_call_order (r : FinetuneExperimentReconciler) (req : Request)
    (c : Client) (e : FinetuneExperiment)
    (he : findExperiment req.NamespacedName c.experiments = some e) :
    (∀ before d after, callsOf r req c = before ++ Call.CreateJob d :: after →
      ContainsFinalizer e FinetuneGroupFinalizer = true ∨
      (Call.UpdateExperiment (AddFinalizer e FinetuneGroupFinalizer), none) ∈
        (outcomesOf r req c).take before.length) ∧
    (∃ pre new post, callsOf r req c = pre ++ new ++ post ∧
      (pre = [.GetExperiment req.NamespacedName] ∨
        ∃ obj, pre = [.GetExperiment req.NamespacedName, .UpdateExperiment obj]) ∧
      (∀ call ∈ new, call.isJobCall = true) ∧
      (post = [] ∨ ∃ obj, post = [.UpdateStatus obj]) ∧
      (e.DeletionTimestamp = none → (Reconcile r req c).1.2 = none →
        ∃ obj, post = [.UpdateStatus obj] ∧
          obj.Status.State =
            if e.Spec.Pending then FinetuneExperimentPending
            else FinetuneExperimentProcessing)) := by
  refine ⟨?_, Reconcile_calls_order r req c e he⟩
  intro before d after hsplit
  obtain ⟨seam, _, _, hfst, _, _, _, hcreate⟩ := Reconcile_outcomes r req c
  have hmem : Call.CreateJob d ∈ callsOf r req c := by
    rw [hsplit]
    exact List.mem_append_right _ (List.mem_cons_self _ _)
  rcases hcreate d hmem e he with h | ⟨rest, hrest⟩
  · exact Or.inl h
  · right
    rw [hrest] at hfst
    rw [hsplit] at hfst
    rw [hrest]
    match before, hfst with
    | [], hfst =>
        simp only [List.map_cons, List.nil_append] at hfst
        injection hfst with h1 _
        exact Call.noConfusion h1
    | [b1], hfst =>
        simp only [List.map_cons, List.singleton_append] at hfst
        injection hfst with _ h2
        injection h2 with h3 _
        exact Call.noConfusion h3
    | b1 :: b2 :: bs, _ =>
        simp [List.take]

/-- C19 at `exp1`: the calls of the first run are the read, the update that adds the
finalizer, the create and read-back of each job, and the status write. -/
theorem Reconcile_call_order_witness :
    findExperiment exampleRequest.NamespacedName exampleClient.experiments = some exp1 ∧
    (∀ before d after,
      callsOf exampleReconciler exampleRequest exampleClient =
        before ++ Call.CreateJob d :: after →
      ContainsFinalizer exp1 FinetuneGroupFinalizer = true ∨
      (Call.UpdateExperiment (AddFinalizer exp1 FinetuneGroupFinalizer), none) ∈
        (outcomesOf exampleReconciler exampleRequest exampleClient).take before.length) ∧
    (callsOf exampleReconciler exampleRequest exampleClient).map Call.isJobCall =
      [false, false, true, true, true, true, false] :=
  ⟨by decide,
    (Reconcile_call_order exampleReconciler exampleRequest exampleClient exp1 (by decide)).1,
    by decide⟩

end finetune

end FinetuneController
